import Mathlib

/-! # Wergaia: a Harmonic-Serialism stress assigner

A shallow embedding of `WergaiaC++.cpp`.  A word is a `vector<Syllable>`, modelled as a
`List Syllable`.  C++ `int` indices are `Int`/`Nat` (they are bounded by the word length);
the `int` accumulator of `score` wraps at 32 bits.  Every access whose index is computed
from data (`back()`, `word[rightParens]`, `violation[i]`, `stressedCopy[leftParens + i]`)
is checked: an access outside the container makes the function return `none`.
-/

namespace Wergaia

/-! ## Data model -/

/-- A syllable: `struct Syllable`. -/
structure Syllable where
  weight : Char
  hasLeftParenthesis : Bool
  hasRightParenthesis : Bool
  hasStress : Bool
  deriving DecidableEq, Repr

/-- A word: `vector<Syllable>`. -/
abbrev Word := List Syllable

/-! ## Checked container access -/

/-- Read `v[i]` for an `int` index; `none` outside the container. -/
def readAt {α : Type} (v : List α) (i : Int) : Option α :=
  if 0 ≤ i then v[i.toNat]? else none

/-- Write `v[i] = x` for an `int` index; `none` outside the container. -/
def writeAt {α : Type} (v : List α) (i : Int) (x : α) : Option (List α) :=
  if 0 ≤ i ∧ i < v.length then some (v.set i.toNat x) else none

/-- Update `v[i]` in place through `f`; `none` outside the container. -/
def modifyAt {α : Type} (v : List α) (i : Nat) (f : α → α) : Option (List α) :=
  match v[i]? with
  | some a => some (v.set i (f a))
  | none => none

/-- Run a fallible list-valued function over a list and concatenate the results. -/
def optConcatMap {α β : Type} (f : α → Option (List β)) : List α → Option (List β)
  | [] => some []
  | a :: as =>
    match f a, optConcatMap f as with
    | some x, some y => some (x ++ y)
    | _, _ => none

/-- Run a fallible function over a list, keeping the order. -/
def optMap {α β : Type} (f : α → Option β) : List α → Option (List β)
  | [] => some []
  | a :: as =>
    match f a, optMap f as with
    | some x, some y => some (x :: y)
    | _, _ => none

/-! ## `assignViolation` -/

/-- The loop `for (i = leftBound; i <= rightBound; i++) violation[i] = 1`, with the number
of remaining iterations as first argument. -/
def assignViolationLoop : Nat → Int → List Int → Option (List Int)
  | 0, _, violation => some violation
  | k + 1, i, violation =>
    match writeAt violation i 1 with
    | some v => assignViolationLoop k (i + 1) v
    | none => none

/-- Mark the positions `leftBound .. rightBound`. -/
def assignViolation (leftBound rightBound : Int) (violation : List Int) : Option (List Int) :=
  assignViolationLoop (rightBound + 1 - leftBound).toNat leftBound violation

/-! ## `printInfo` -/

/-- The characters `printInfo` appends for one syllable. -/
def printSyllable (s : Syllable) : List Char :=
  (if s.hasLeftParenthesis then ['('] else []) ++
  (if s.hasStress then ['\''] else []) ++
  [s.weight] ++
  (if s.hasRightParenthesis then [')'] else [])

/-- The character sequence of the printable form. -/
def printChars : Word → List Char
  | [] => []
  | s :: rest => printSyllable s ++ printChars rest

/-- Printable form of a word. -/
def printInfo (word : Word) : String := String.mk (printChars word)

/-! ## `findLocation` -/

/-- The assignment `parensLocation.back().second = i`; `none` on an empty vector. -/
def setBackSecond : List (Int × Int) → Int → Option (List (Int × Int))
  | [], _ => none
  | [p], i => some [(p.1, i)]
  | p :: q :: rest, i =>
    match setBackSecond (q :: rest) i with
    | some l => some (p :: l)
    | none => none

/-- The scan of `findLocation` from syllable index `i` on, with the pairs found so far. -/
def findLocationLoop : Word → Int → List (Int × Int) → Option (List (Int × Int))
  | [], _, parensLocation => some parensLocation
  | syllab :: rest, i, parensLocation =>
    let pushed :=
      if syllab.hasLeftParenthesis then parensLocation ++ [(i, -1)] else parensLocation
    if syllab.hasRightParenthesis then
      match setBackSecond pushed i with
      | some closed => findLocationLoop rest (i + 1) closed
      | none => none
    else findLocationLoop rest (i + 1) pushed

/-- The parenthesis pairs of a word. -/
def findLocation (word : Word) : Option (List (Int × Int)) :=
  findLocationLoop word 0 []

/-! ## The four constraints -/

/-- Body of the loop over `parensLocation` shared by `Trochee` and `Iamb`; the two differ
only in the test `bad2 word[leftParens] word[rightParens]` made on a foot of length 2. -/
def footStep (bad2 : Syllable → Syllable → Bool) (word : Word) (violation : List Int)
    (parens : Int × Int) : Option (List Int) :=
  let leftParens := parens.1
  let rightParens := parens.2
  let len := rightParens - leftParens + 1
  let after3 := if len ≥ 3 then assignViolation leftParens rightParens violation
    else some violation
  let after2 := after3.bind fun v =>
    if len = 2 then
      match readAt word leftParens, readAt word rightParens with
      | some sl, some sr =>
        if bad2 sl sr then assignViolation leftParens rightParens v else some v
      | _, _ => none
    else some v
  after2.bind fun v =>
    if len = 1 then
      match readAt word leftParens with
      | some sl =>
        if sl.weight = 'L' then assignViolation leftParens rightParens v else some v
      | none => none
    else some v

/-- The loop `for (auto parens : parensLocation)`. -/
def footLoop (bad2 : Syllable → Syllable → Bool) (word : Word) :
    List (Int × Int) → List Int → Option (List Int)
  | [], violation => some violation
  | parens :: rest, violation =>
    match footStep bad2 word violation parens with
    | some v => footLoop bad2 word rest v
    | none => none

/-- The length-2 test of `Trochee`: `word[rightParens].hasStress or !word[leftParens].hasStress`. -/
def trocheeBad (sl sr : Syllable) : Bool := sr.hasStress || !sl.hasStress

/-- The length-2 test of `Iamb`: `!word[rightParens].hasStress or word[leftParens].hasStress`. -/
def iambBad (sl sr : Syllable) : Bool := !sr.hasStress || sl.hasStress

/-- Trochee constraint. -/
def Trochee (word : Word) : Option (List Int) :=
  match findLocation word with
  | some parensLocation => footLoop trocheeBad word parensLocation (List.replicate word.length 0)
  | none => none

/-- Iamb constraint. -/
def Iamb (word : Word) : Option (List Int) :=
  match findLocation word with
  | some parensLocation => footLoop iambBad word parensLocation (List.replicate word.length 0)
  | none => none

/-- The marking loop of `ParseLeft` and `ParseRight`: position `i` is set to 1 when
syllable `i` carries neither parenthesis flag. -/
def unparsedMarks (word : Word) : List Int :=
  word.map fun s => if !s.hasLeftParenthesis && !s.hasRightParenthesis then 1 else 0

/-- ParseLeft constraint (it calls `findLocation` and ignores the result). -/
def ParseLeft (word : Word) : Option (List Int) :=
  match findLocation word with
  | some _ => some (unparsedMarks word)
  | none => none

/-- ParseRight constraint. -/
def ParseRight (word : Word) : Option (List Int) :=
  match findLocation word with
  | some _ => some (unparsedMarks word).reverse
  | none => none

/-- The global `constraints`. -/
def constraints : List (Word → Option (List Int)) := [Trochee, ParseLeft, Iamb, ParseRight]

/-! ## `parseString` -/

/-- The second loop of `parseString`. -/
def parseLoop : List Char → Nat → Word → Option Word
  | [], _, word => some word
  | c :: rest, index, word =>
    if c = '\'' then
      match modifyAt word index (fun s => { s with hasStress := true }) with
      | some w => parseLoop rest index w
      | none => none
    else
      match modifyAt word index (fun s => { s with weight := c }) with
      | some w => parseLoop rest (index + 1) w
      | none => none

/-- Build a word from the input string. -/
def parseString (inputSequence : String) : Option Word :=
  let cnt := (inputSequence.data.filter fun c => c ≠ '\'').length
  parseLoop inputSequence.data 0 (List.replicate cnt ⟨Char.ofNat 0, false, false, false⟩)

/-! ## `SerialOT` -/

/-- Two's-complement wrap of a 32-bit `int`. -/
def wrapInt32 (x : Int) : Int := (x + 2147483648) % 4294967296 - 2147483648

/-- The lambda `score`: `val *= 2; val += violation[i]` over the vector. -/
def score (violation : List Int) : Int :=
  violation.foldl (fun val x => wrapInt32 (wrapInt32 (val * 2) + x)) 0

/-- The loop `for (const auto& constraint : constraints)` building `candidateScore`. -/
def candidateScore (cs : List (Word → Option (List Int))) (word : Word) : Option (List Int) :=
  optMap (fun constraint => (constraint word).map score) cs

/-- The loop over `i < footSize` setting the stress flags from `mask`. -/
def stressLoop (leftParens mask : Nat) : List Nat → Word → Option Word
  | [], stressedCopy => some stressedCopy
  | i :: rest, stressedCopy =>
    match modifyAt stressedCopy (leftParens + i)
        (fun s => { s with hasStress := mask.testBit i }) with
    | some w => stressLoop leftParens mask rest w
    | none => none

/-- Body of the two nested loops for one pair `(leftParens, rightParens)`: the words pushed
onto `candidates`. -/
def footCandidates (word : Word) (leftParens rightParens : Nat) : Option (List Word) :=
  if rightParens - leftParens + 1 > 2 then some []
  else
    match word[leftParens]?, word[rightParens]? with
    | some sl, some sr =>
      if sl.hasLeftParenthesis || sl.hasRightParenthesis ||
          sr.hasLeftParenthesis || sr.hasRightParenthesis then some []
      else
        match modifyAt word leftParens (fun s => { s with hasLeftParenthesis := true }) with
        | none => none
        | some copy1 =>
          match modifyAt copy1 rightParens
              (fun s => { s with hasRightParenthesis := true }) with
          | none => none
          | some copy =>
            let footSize := rightParens - leftParens + 1
            optMap (fun mask => stressLoop leftParens mask (List.range footSize) copy)
              ((List.range (1 <<< footSize)).filter fun mask => mask ≠ 0)
    | _, _ => none

/-- The words of `candidates` in generation order: the new-foot words, then `word`. -/
def candidateWords (word : Word) : Option (List Word) :=
  match optConcatMap (fun leftParens =>
      optConcatMap (fun rightParens => footCandidates word leftParens rightParens)
        (List.range' leftParens (word.length - leftParens)))
      (List.range word.length) with
  | some l => some (l ++ [word])
  | none => none

/-- The vector `candidates` before the sort: each word with its score vector. -/
def candidates (word : Word) (cs : List (Word → Option (List Int))) :
    Option (List (Word × List Int)) :=
  match candidateWords word with
  | some ws => optMap (fun c => (candidateScore cs c).map fun sc => (c, sc)) ws
  | none => none

/-- The comparator `a.second < b.second` on `vector<int>`: `std::lexicographical_compare`. -/
def lexLess : List Int → List Int → Bool
  | [], [] => false
  | [], _ :: _ => true
  | _ :: _, [] => false
  | a :: as, b :: bs => if a < b then true else if b < a then false else lexLess as bs

/-- Insert a candidate before the first one with a strictly larger score vector. -/
def insertCandidate (c : Word × List Int) : List (Word × List Int) → List (Word × List Int)
  | [] => [c]
  | d :: ds => if lexLess c.2 d.2 then c :: d :: ds else d :: insertCandidate c ds

/-- The call of `std::sort`, as an insertion sort.  `std::sort` leaves the relative order
of candidates with equal score vectors unspecified and this sort is only one of the
orders it may produce (it keeps the generation order), so a statement about the head of
the sorted vector carries over to the code only where the minimal score vector is attained
by one candidate. -/
def sortCandidates (l : List (Word × List Int)) : List (Word × List Int) :=
  l.foldl (fun acc c => insertCandidate c acc) []

/-- One round: generate, score, sort, return `candidates[0].first`. -/
def SerialOT (word : Word) (cs : List (Word → Option (List Int))) : Option Word :=
  match candidates word cs with
  | some l =>
    match sortCandidates l with
    | best :: _ => some best.1
    | [] => none
  | none => none

/-! ## The driver loop of `main` -/

/-- How a run of the driver loop ends. -/
inductive DriverResult where
  | halted (v : Word) (replacements : Nat)
  | fault
  | outOfFuel
  deriving DecidableEq, Repr

/-- The loop `while (true)` of `main`: `fuel` bounds the number of calls of `SerialOT`,
`replacements` counts the executions of `v = ret`. -/
def driverLoop : Nat → Word → Nat → DriverResult
  | 0, _, _ => DriverResult.outOfFuel
  | fuel + 1, v, replacements =>
    match SerialOT v constraints with
    | some ret =>
      if printInfo ret = printInfo v then DriverResult.halted v replacements
      else driverLoop fuel ret (replacements + 1)
    | none => DriverResult.fault

/-! ## Specification vocabulary -/

/-- Syllable `k` exists and carries the left boundary flag. -/
def hasLeftAt (w : Word) (k : Nat) : Bool :=
  match w[k]? with
  | some s => s.hasLeftParenthesis
  | none => false

/-- Syllable `k` exists and carries the right boundary flag. -/
def hasRightAt (w : Word) (k : Nat) : Bool :=
  match w[k]? with
  | some s => s.hasRightParenthesis
  | none => false

/-- Syllable `k` exists and is stressed. -/
def stressedAt (w : Word) (k : Nat) : Bool :=
  match w[k]? with
  | some s => s.hasStress
  | none => false

/-- Syllable `k` exists and is Light (weight letter `L`). -/
def lightAt (w : Word) (k : Nat) : Bool :=
  match w[k]? with
  | some s => decide (s.weight = 'L')
  | none => false

/-- The span `[l, r]` is a foot of `w`: it opens with a left flag at `l`, closes with a
right flag at `r`, and carries no other boundary flag. -/
def IsFoot (w : Word) (l r : Nat) : Prop :=
  l ≤ r ∧ r < w.length ∧ hasLeftAt w l = true ∧ hasRightAt w r = true ∧
  (∀ k < w.length, l < k → k ≤ r → hasLeftAt w k = false) ∧
  (∀ k < w.length, l ≤ k → k < r → hasRightAt w k = false)

instance (w : Word) (l r : Nat) : Decidable (IsFoot w l r) := by
  unfold IsFoot; infer_instance

/-- Syllable `i` lies inside some foot of `w`. -/
def InFoot (w : Word) (i : Nat) : Prop :=
  ∃ l < w.length, ∃ r < w.length, IsFoot w l r ∧ l ≤ i ∧ i ≤ r

instance (w : Word) (i : Nat) : Decidable (InFoot w i) := by
  unfold InFoot; infer_instance

/-- Bracket scan: with `open = true` a foot is open before the first syllable of the
list.  The scan accepts when every right flag closes the open foot, no left flag occurs
inside an open foot, and no foot is open at the end. -/
def matchedFrom : Bool → Word → Bool
  | isOpen, [] => !isOpen
  | false, s :: rest =>
    if s.hasLeftParenthesis then matchedFrom (!s.hasRightParenthesis) rest
    else !s.hasRightParenthesis && matchedFrom false rest
  | true, s :: rest =>
    !s.hasLeftParenthesis && matchedFrom (!s.hasRightParenthesis) rest

/-- The foot brackets of the word are properly matched and non-overlapping. -/
def wellFormed (w : Word) : Bool := matchedFrom false w

/-- Bracket scan that moreover accepts only feet of one or two syllables. -/
def shortFrom : Bool → Word → Bool
  | isOpen, [] => !isOpen
  | false, s :: rest =>
    if s.hasLeftParenthesis then shortFrom (!s.hasRightParenthesis) rest
    else !s.hasRightParenthesis && shortFrom false rest
  | true, s :: rest =>
    !s.hasLeftParenthesis && s.hasRightParenthesis && shortFrom false rest

/-- Matched, non-overlapping foot brackets, every foot of length 1 or 2. -/
def wellFormedShort (w : Word) : Bool := shortFrom false w

/-- No syllable carries a boundary flag. -/
def footFree (w : Word) : Bool :=
  w.all fun s => !s.hasLeftParenthesis && !s.hasRightParenthesis

/-- The test a foot `[l, r]` fails under `Trochee` (`bad2 = trocheeBad`) or `Iamb`
(`bad2 = iambBad`). -/
def footViolates (bad2 : Syllable → Syllable → Bool) (w : Word) (l r : Nat) : Bool :=
  decide (3 ≤ r - l + 1) ||
  (decide (r - l + 1 = 2) &&
    match w[l]?, w[r]? with
    | some sl, some sr => bad2 sl sr
    | _, _ => false) ||
  (decide (r - l + 1 = 1) && lightAt w l)

/-- The foot open before the first syllable of `w` closes at offset `k`. -/
def ClosesAt (w : Word) (k : Nat) : Prop :=
  k < w.length ∧ hasRightAt w k = true ∧
  (∀ j < w.length, j ≤ k → hasLeftAt w j = false) ∧
  (∀ j < w.length, j < k → hasRightAt w j = false)

/-- The big-endian binary value of a violation sequence `v` of length `n`: the sum over
the positions `i` of `v[i] * 2 ^ (n - 1 - i)`. -/
def binaryValue (v : List Int) : Int :=
  ∑ i ∈ Finset.range v.length, v.getD i 0 * 2 ^ (v.length - 1 - i)

/-- The word `stressLoop` builds from `copy`, without the bounds checks: the foot `[l, r]`
is bracketed and the stress flags of its syllables are the bits of `mask`. -/
def footWord (w : Word) (l r mask : Nat) : Word :=
  (List.range (r - l + 1)).foldl
    (fun sc i => sc.modify (fun s => { s with hasStress := mask.testBit i }) (l + i))
    ((w.modify (fun s => { s with hasLeftParenthesis := true }) l).modify
      (fun s => { s with hasRightParenthesis := true }) r)

/-- The words `footCandidates` pushes for the pair `(l, r)`, without the bounds checks. -/
def footWords (w : Word) (l r : Nat) : List Word :=
  if r - l + 1 > 2 then []
  else if hasLeftAt w l || hasRightAt w l || hasLeftAt w r || hasRightAt w r then []
  else ((List.range (1 <<< (r - l + 1))).filter fun mask => mask ≠ 0).map (footWord w l r)

/-- The new-foot words of a round in generation order, without the bounds checks. -/
def newFootWords (w : Word) : List Word :=
  (List.range w.length).flatMap fun l =>
    (List.range' l (w.length - l)).flatMap fun r => footWords w l r

/-- The word `cand` is `w` with a new foot on `[l, r]` whose syllable at offset `p` has the
stress flag `stress p`: weights are kept, syllable `l` gains the left flag, syllable `r`
the right flag, and all other flags are those of `w`. -/
def AddsFoot (w cand : Word) (l r : Nat) (stress : Nat → Bool) : Prop :=
  cand.length = w.length ∧
  ∀ i s, w[i]? = some s →
    cand[i]? = some (Syllable.mk s.weight
      (s.hasLeftParenthesis || decide (i = l))
      (s.hasRightParenthesis || decide (i = r))
      (if l ≤ i ∧ i ≤ r then stress (i - l) else s.hasStress))

/-- The head of a list is minimal for the comparator. -/
def HeadMinimal (l : List (Word × List Int)) : Prop :=
  ∀ best rest, l = best :: rest → ∀ d ∈ l, lexLess d.2 best.2 = false

/-- The syllable carries a boundary flag. -/
def flagged (s : Syllable) : Bool := s.hasLeftParenthesis || s.hasRightParenthesis

/-- Number of syllables that carry a boundary flag. -/
def flagCount (w : Word) : Nat := w.countP flagged

/-- Number of syllables enclosed in some foot. -/
def parsedCount (w : Word) : Nat :=
  (List.range w.length).countP fun i => decide (InFoot w i)

/-- Syllable `i` exists and carries a boundary flag. -/
def flagAt (w : Word) (i : Nat) : Bool := hasLeftAt w i || hasRightAt w i

/-- Declarative reading of "properly matched and non-overlapping": every left flag opens a
foot and every right flag closes one (a foot carries no flag besides its two ends). -/
def Matched (w : Word) : Prop :=
  (∀ i, hasLeftAt w i = true → ∃ r, IsFoot w i r) ∧
  (∀ i, hasRightAt w i = true → ∃ l, IsFoot w l i)

/-- The same reading for the syllables after an opened foot: the open foot closes, and
every flag belongs to it or to a later foot. -/
def OpenMatched (w : Word) : Prop :=
  (∃ k, ClosesAt w k) ∧
  (∀ i, hasLeftAt w i = true → ∃ r, IsFoot w i r) ∧
  (∀ i, hasRightAt w i = true → ClosesAt w i ∨ ∃ l, IsFoot w l i)

/-! ## Example words -/

/-- The word `('LL)H`: one trochaic foot and an unparsed Heavy syllable. -/
def exampleWord : Word :=
  [⟨'L', true, false, true⟩, ⟨'L', false, true, false⟩, ⟨'H', false, false, false⟩]

/-- The word `('LLL)`: a single foot of three syllables. -/
def exampleLongFoot : Word :=
  [⟨'L', true, false, true⟩, ⟨'L', false, false, false⟩, ⟨'L', false, true, false⟩]

/-- The foot-free word `HLH`. -/
def exampleFree : Word :=
  [⟨'H', false, false, false⟩, ⟨'L', false, false, false⟩, ⟨'H', false, false, false⟩]

/-- Every weight of the word is `L` or `H`. -/
def weightsLH (w : Word) : Prop := ∀ s ∈ w, s.weight = 'L' ∨ s.weight = 'H'

/-- The syllable `vector<Syllable> word(cnt)` is filled with: weight `'\0'`, no flag. -/
def blankSyllable : Syllable := ⟨Char.ofNat 0, false, false, false⟩

/-- Number of characters of the input other than the apostrophe. -/
def weightCount (chars : List Char) : Nat := (chars.filter fun c => c ≠ '\'').length

/-- What `parseString` reads, in the words of the input format the code implements: an
apostrophe marks the next weight character as stressed (`pending` tells whether an
apostrophe was read since the last weight character). -/
def parseSpec : List Char → Bool → Word
  | [], _ => []
  | c :: rest, pending =>
    if c = '\'' then parseSpec rest true
    else ⟨c, false, false, pending⟩ :: parseSpec rest false

/-- The part of the vector not yet filled by `parseLoop`: `k` blank syllables, the first
one already marked stressed when an apostrophe is pending. -/
def pendingBlanks (pending : Bool) : Nat → Word
  | 0 => []
  | k + 1 => ⟨Char.ofNat 0, false, false, pending⟩ :: List.replicate k blankSyllable

/-- The word `('HL)H`: `HLH` after the first round. -/
def exampleRound1 : Word :=
  [⟨'H', true, false, true⟩, ⟨'L', false, true, false⟩, ⟨'H', false, false, false⟩]

/-- The word `('HL)('H)`: `HLH` after the second round. -/
def exampleRound2 : Word :=
  [⟨'H', true, false, true⟩, ⟨'L', false, true, false⟩, ⟨'H', true, true, true⟩]

/-- The words the driver loop of `main` goes through from `w`: the current word is replaced
by the winner of a round whenever the printable forms differ. -/
inductive DriverReaches : Word → Word → Prop where
  | start (w : Word) : DriverReaches w w
  | step (w v ret : Word) : DriverReaches w v → SerialOT v constraints = some ret →
      printInfo ret ≠ printInfo v → DriverReaches w ret

/-- Which words `findLocation` scans without fault: a right flag must not come before the
first left flag (`nonEmpty` tells whether `parensLocation` already holds a pair). -/
def faultFree : Bool → Word → Bool
  | _, [] => true
  | nonEmpty, s :: rest =>
    (!s.hasRightParenthesis || nonEmpty || s.hasLeftParenthesis) &&
      faultFree (nonEmpty || s.hasLeftParenthesis) rest

/-- A pair of `parensLocation` for a word of `n` syllables: the left index is inside the
word, the right index is still `-1` or it is inside the word, not before the left one. -/
def PairOK (n : Nat) (p : Int × Int) : Prop :=
  0 ≤ p.1 ∧ p.1 < n ∧ (p.2 = -1 ∨ (p.1 ≤ p.2 ∧ p.2 < n))

/-- The vector is sorted for the comparator of `std::sort`: no element is strictly smaller
than one that comes before it. -/
def SortedByScore (out : List (Word × List Int)) : Prop :=
  List.Pairwise (fun a b => lexLess b.2 a.2 = false) out

/-- Every foot of the word passes the Trochee test. -/
def AllTrochaic (w : Word) : Prop :=
  ∀ l r, IsFoot w l r → footViolates trocheeBad w l r = false

/-- State of the word during the run of the driver: matched feet of length 1 or 2, at most
31 syllables, the first `p` syllables carry a flag and the others none, and every foot
passes the Trochee test. -/
def ParsedUpTo (w : Word) (p : Nat) : Prop :=
  wellFormedShort w = true ∧ w.length ≤ 31 ∧ p ≤ w.length ∧
  (∀ j, j < p → flagAt w j = true) ∧ (∀ j, p ≤ j → flagAt w j = false) ∧ AllTrochaic w

/-- The word after `k` rounds of the closed form: round `k` brackets the syllables `2 * k`
and `2 * k + 1` (only `2 * k` when it is the last syllable) and stresses the left one. -/
def stage : Nat → Word → Word
  | 0, w => w
  | k + 1, w =>
    footWord (stage k w) (2 * k) (if 2 * k + 1 < w.length then 2 * k + 1 else 2 * k) 1

/-- Number of feet of the closed form: one for each pair of syllables, and one more for a
final unpaired Heavy syllable. -/
def feetCount (w : Word) : Nat :=
  if w.length % 2 = 1 ∧ lightAt w (w.length - 1) = false then w.length / 2 + 1
  else w.length / 2

@[simp] theorem hasLeftAt_zero (s : Syllable) (w : Word) :
    hasLeftAt (s :: w) 0 = s.hasLeftParenthesis := by
  simp [hasLeftAt]

@[simp] theorem hasLeftAt_succ (s : Syllable) (w : Word) (k : Nat) :
    hasLeftAt (s :: w) (k + 1) = hasLeftAt w k := by
  simp [hasLeftAt]

@[simp] theorem hasRightAt_zero (s : Syllable) (w : Word) :
    hasRightAt (s :: w) 0 = s.hasRightParenthesis := by
  simp [hasRightAt]

@[simp] theorem hasRightAt_succ (s : Syllable) (w : Word) (k : Nat) :
    hasRightAt (s :: w) (k + 1) = hasRightAt w k := by
  simp [hasRightAt]

theorem isFoot_succ_succ (s : Syllable) (w : Word) (l r : Nat) :
    IsFoot (s :: w) (l + 1) (r + 1) ↔ IsFoot w l r := by
  unfold IsFoot
  simp only [hasLeftAt_succ, hasRightAt_succ, List.length_cons]
  constructor
  · rintro ⟨h1, h2, h3, h4, h5, h6⟩
    refine ⟨by omega, by omega, h3, h4, ?_, ?_⟩
    · intro k hk h1 h2
      have := h5 (k + 1) (by omega) (by omega) (by omega)
      simpa using this
    · intro k hk h1 h2
      have := h6 (k + 1) (by omega) (by omega) (by omega)
      simpa using this
  · rintro ⟨h1, h2, h3, h4, h5, h6⟩
    refine ⟨by omega, by omega, h3, h4, ?_, ?_⟩
    · intro k hk h1 h2
      obtain ⟨k, rfl⟩ : ∃ j, k = j + 1 := ⟨k - 1, by omega⟩
      simpa using h5 k (by omega) (by omega) (by omega)
    · intro k hk h1 h2
      obtain ⟨k, rfl⟩ : ∃ j, k = j + 1 := ⟨k - 1, by omega⟩
      simpa using h6 k (by omega) (by omega) (by omega)

theorem isFoot_succ_zero (s : Syllable) (w : Word) (l : Nat) :
    ¬ IsFoot (s :: w) (l + 1) 0 := by
  unfold IsFoot
  rintro ⟨h1, -⟩
  omega

theorem isFoot_zero_zero (s : Syllable) (w : Word) :
    IsFoot (s :: w) 0 0 ↔ s.hasLeftParenthesis = true ∧ s.hasRightParenthesis = true := by
  unfold IsFoot
  simp only [hasLeftAt_zero, hasRightAt_zero, List.length_cons]
  constructor
  · rintro ⟨-, -, h3, h4, -⟩
    exact ⟨h3, h4⟩
  · rintro ⟨h3, h4⟩
    refine ⟨le_refl _, by omega, h3, h4, ?_, ?_⟩ <;> intro k _ h1 h2 <;> omega

theorem isFoot_zero_succ (s : Syllable) (w : Word) (r : Nat) :
    IsFoot (s :: w) 0 (r + 1) ↔
      s.hasLeftParenthesis = true ∧ s.hasRightParenthesis = false ∧ ClosesAt w r := by
  unfold IsFoot ClosesAt
  simp only [hasLeftAt_zero, hasRightAt_succ, List.length_cons]
  constructor
  · rintro ⟨-, h2, h3, h4, h5, h6⟩
    refine ⟨h3, ?_, by omega, h4, ?_, ?_⟩
    · simpa using h6 0 (by omega) (by omega) (by omega)
    · intro j hj h1
      simpa using h5 (j + 1) (by omega) (by omega) (by omega)
    · intro j hj h1
      simpa using h6 (j + 1) (by omega) (by omega) (by omega)
  · rintro ⟨h3, h3', h2, h4, h5, h6⟩
    refine ⟨by omega, by omega, h3, h4, ?_, ?_⟩
    · intro k hk h1 h2
      obtain ⟨k, rfl⟩ : ∃ j, k = j + 1 := ⟨k - 1, by omega⟩
      simpa using h5 k (by omega) (by omega)
    · intro k hk h1 h2
      rcases k with _ | k
      · simpa using h3'
      · simpa using h6 k (by omega) (by omega)

theorem closesAt_nil (k : Nat) : ¬ ClosesAt [] k := by
  unfold ClosesAt
  rintro ⟨h, -⟩
  simp at h

theorem closesAt_zero (s : Syllable) (w : Word) :
    ClosesAt (s :: w) 0 ↔ s.hasLeftParenthesis = false ∧ s.hasRightParenthesis = true := by
  unfold ClosesAt
  simp only [hasRightAt_zero, List.length_cons]
  constructor
  · rintro ⟨-, h2, h3, -⟩
    exact ⟨by simpa using h3 0 (by omega) (le_refl _), h2⟩
  · rintro ⟨h1, h2⟩
    refine ⟨by omega, h2, ?_, ?_⟩
    · intro j _ hj
      obtain rfl : j = 0 := by omega
      simpa using h1
    · intro j _ hj
      omega

theorem closesAt_succ (s : Syllable) (w : Word) (k : Nat) :
    ClosesAt (s :: w) (k + 1) ↔
      s.hasLeftParenthesis = false ∧ s.hasRightParenthesis = false ∧ ClosesAt w k := by
  unfold ClosesAt
  simp only [hasRightAt_succ, List.length_cons]
  constructor
  · rintro ⟨h1, h2, h3, h4⟩
    refine ⟨by simpa using h3 0 (by omega) (by omega),
      by simpa using h4 0 (by omega) (by omega), by omega, h2, ?_, ?_⟩
    · intro j hj hjk
      simpa using h3 (j + 1) (by omega) (by omega)
    · intro j hj hjk
      simpa using h4 (j + 1) (by omega) (by omega)
  · rintro ⟨hl, hr, h1, h2, h3, h4⟩
    refine ⟨by omega, h2, ?_, ?_⟩
    · intro j hj hjk
      rcases j with _ | j
      · simpa using hl
      · simpa using h3 j (by omega) (by omega)
    · intro j hj hjk
      rcases j with _ | j
      · simpa using hr
      · simpa using h4 j (by omega) (by omega)

theorem setBackSecond_append (acc : List (Int × Int)) (a b i : Int) :
    setBackSecond (acc ++ [(a, b)]) i = some (acc ++ [(a, i)]) := by
  induction acc with
  | nil => rfl
  | cons p rest ih =>
    cases rest with
    | nil => simp [setBackSecond]
    | cons q rest =>
      simp only [List.cons_append] at ih ⊢
      simp [setBackSecond, ih]

/-- What `findLocationLoop` returns on a matched suffix: the pairs found before, followed
by the feet of the suffix (shifted by the index `i` of its first syllable); when a foot
opened at `a0` is pending, it is closed where the suffix closes it. -/
theorem findLocationLoop_spec (w : Word) :
    ∀ (i : Nat) (acc : List (Int × Int)),
      (matchedFrom false w = true →
        ∃ fs, findLocationLoop w i acc = some (acc ++ fs) ∧
          ∀ a b, (a, b) ∈ fs ↔
            ∃ l r, IsFoot w l r ∧ a = ((i + l : Nat) : Int) ∧ b = ((i + r : Nat) : Int)) ∧
      (matchedFrom true w = true → ∀ a0 : Int,
        ∃ fs, findLocationLoop w i (acc ++ [(a0, -1)]) = some (acc ++ fs) ∧
          ∀ a b, (a, b) ∈ fs ↔
            (a = a0 ∧ ∃ k, ClosesAt w k ∧ b = ((i + k : Nat) : Int)) ∨
            ∃ l r, IsFoot w l r ∧ a = ((i + l : Nat) : Int) ∧ b = ((i + r : Nat) : Int)) := by
  induction w with
  | nil =>
    intro i acc
    constructor
    · intro _
      refine ⟨[], by simp [findLocationLoop], ?_⟩
      intro a b
      simp [IsFoot]
    · intro h
      simp [matchedFrom] at h
  | cons s rest ih =>
    intro i acc
    have hcast : ((i : Nat) : Int) + 1 = ((i + 1 : Nat) : Int) := by push_cast; ring
    constructor
    · intro h
      rcases hL : s.hasLeftParenthesis with _ | _ <;>
        rcases hR : s.hasRightParenthesis with _ | _ <;>
        simp [matchedFrom, hL, hR] at h
      · -- no flag
        obtain ⟨fs, hfs, hmem⟩ := (ih (i + 1) acc).1 h
        rw [← hcast] at hfs
        refine ⟨fs, by simp [findLocationLoop, hL, hR, hfs], ?_⟩
        intro a b
        rw [hmem]
        constructor
        · rintro ⟨l, r, hf, rfl, rfl⟩
          exact ⟨l + 1, r + 1, (isFoot_succ_succ s rest l r).2 hf, by push_cast; ring,
            by push_cast; ring⟩
        · rintro ⟨l, r, hf, rfl, rfl⟩
          rcases l with _ | l
          · rcases r with _ | r
            · rw [isFoot_zero_zero] at hf; simp [hL] at hf
            · rw [isFoot_zero_succ] at hf; simp [hL] at hf
          · rcases r with _ | r
            · exact absurd hf (isFoot_succ_zero s rest l)
            · exact ⟨l, r, (isFoot_succ_succ s rest l r).1 hf, by push_cast; ring,
                by push_cast; ring⟩
      · -- left flag only: a foot opens
        obtain ⟨fs, hfs, hmem⟩ := (ih (i + 1) acc).2 h (i : Int)
        rw [← hcast] at hfs
        refine ⟨fs, by simp [findLocationLoop, hL, hR, hfs], ?_⟩
        intro a b
        rw [hmem]
        constructor
        · rintro (⟨rfl, k, hk, rfl⟩ | ⟨l, r, hf, rfl, rfl⟩)
          · exact ⟨0, k + 1, (isFoot_zero_succ s rest k).2 ⟨hL, hR, hk⟩, by simp,
              by push_cast; ring⟩
          · exact ⟨l + 1, r + 1, (isFoot_succ_succ s rest l r).2 hf, by push_cast; ring,
              by push_cast; ring⟩
        · rintro ⟨l, r, hf, rfl, rfl⟩
          rcases l with _ | l
          · rcases r with _ | r
            · rw [isFoot_zero_zero] at hf; simp [hR] at hf
            · rw [isFoot_zero_succ] at hf
              exact Or.inl ⟨by simp, r, hf.2.2, by push_cast; ring⟩
          · rcases r with _ | r
            · exact absurd hf (isFoot_succ_zero s rest l)
            · exact Or.inr ⟨l, r, (isFoot_succ_succ s rest l r).1 hf, by push_cast; ring,
                by push_cast; ring⟩
      · -- both flags: a one-syllable foot
        obtain ⟨fs, hfs, hmem⟩ := (ih (i + 1) (acc ++ [((i : Int), (i : Int))])).1 h
        rw [← hcast] at hfs
        refine ⟨((i : Int), (i : Int)) :: fs, ?_, ?_⟩
        · simp [findLocationLoop, hL, hR, setBackSecond_append, hfs]
        · intro a b
          rw [List.mem_cons, hmem]
          constructor
          · rintro (heq | ⟨l, r, hf, rfl, rfl⟩)
            · obtain ⟨rfl, rfl⟩ := Prod.mk.inj heq
              exact ⟨0, 0, (isFoot_zero_zero s rest).2 ⟨hL, hR⟩, by simp, by simp⟩
            · exact ⟨l + 1, r + 1, (isFoot_succ_succ s rest l r).2 hf, by push_cast; ring,
                by push_cast; ring⟩
          · rintro ⟨l, r, hf, rfl, rfl⟩
            rcases l with _ | l
            · rcases r with _ | r
              · exact Or.inl (by simp)
              · rw [isFoot_zero_succ] at hf; simp [hR] at hf
            · rcases r with _ | r
              · exact absurd hf (isFoot_succ_zero s rest l)
              · exact Or.inr ⟨l, r, (isFoot_succ_succ s rest l r).1 hf, by push_cast; ring,
                  by push_cast; ring⟩
    · intro h a0
      rcases hL : s.hasLeftParenthesis with _ | _ <;>
        rcases hR : s.hasRightParenthesis with _ | _ <;>
        simp [matchedFrom, hL, hR] at h
      · -- no flag: the foot stays open
        obtain ⟨fs, hfs, hmem⟩ := (ih (i + 1) acc).2 h a0
        rw [← hcast] at hfs
        refine ⟨fs, by simp [findLocationLoop, hL, hR, hfs], ?_⟩
        intro a b
        rw [hmem]
        constructor
        · rintro (⟨rfl, k, hk, rfl⟩ | ⟨l, r, hf, rfl, rfl⟩)
          · exact Or.inl ⟨rfl, k + 1, (closesAt_succ s rest k).2 ⟨hL, hR, hk⟩,
              by push_cast; ring⟩
          · exact Or.inr ⟨l + 1, r + 1, (isFoot_succ_succ s rest l r).2 hf,
              by push_cast; ring, by push_cast; ring⟩
        · rintro (⟨rfl, k, hk, rfl⟩ | ⟨l, r, hf, rfl, rfl⟩)
          · rcases k with _ | k
            · rw [closesAt_zero] at hk; simp [hR] at hk
            · rw [closesAt_succ] at hk
              exact Or.inl ⟨rfl, k, hk.2.2, by push_cast; ring⟩
          · rcases l with _ | l
            · rcases r with _ | r
              · rw [isFoot_zero_zero] at hf; simp [hL] at hf
              · rw [isFoot_zero_succ] at hf; simp [hL] at hf
            · rcases r with _ | r
              · exact absurd hf (isFoot_succ_zero s rest l)
              · exact Or.inr ⟨l, r, (isFoot_succ_succ s rest l r).1 hf, by push_cast; ring,
                  by push_cast; ring⟩
      · -- right flag: the open foot closes here
        obtain ⟨fs, hfs, hmem⟩ := (ih (i + 1) (acc ++ [(a0, (i : Int))])).1 h
        rw [← hcast] at hfs
        refine ⟨(a0, (i : Int)) :: fs, ?_, ?_⟩
        · simp [findLocationLoop, hL, hR, setBackSecond_append, hfs]
        · intro a b
          rw [List.mem_cons, hmem]
          constructor
          · rintro (heq | ⟨l, r, hf, rfl, rfl⟩)
            · obtain ⟨rfl, rfl⟩ := Prod.mk.inj heq
              exact Or.inl ⟨rfl, 0, (closesAt_zero s rest).2 ⟨hL, hR⟩, by simp⟩
            · exact Or.inr ⟨l + 1, r + 1, (isFoot_succ_succ s rest l r).2 hf,
                by push_cast; ring, by push_cast; ring⟩
          · rintro (⟨rfl, k, hk, rfl⟩ | ⟨l, r, hf, rfl, rfl⟩)
            · rcases k with _ | k
              · exact Or.inl (by simp)
              · rw [closesAt_succ] at hk; simp [hR] at hk
            · rcases l with _ | l
              · rcases r with _ | r
                · rw [isFoot_zero_zero] at hf; simp [hL] at hf
                · rw [isFoot_zero_succ] at hf; simp [hL] at hf
              · rcases r with _ | r
                · exact absurd hf (isFoot_succ_zero s rest l)
                · exact Or.inr ⟨l, r, (isFoot_succ_succ s rest l r).1 hf,
                    by push_cast; ring, by push_cast; ring⟩

theorem hasLeftAt_nil (i : Nat) : hasLeftAt [] i = false := by simp [hasLeftAt]

theorem hasRightAt_nil (i : Nat) : hasRightAt [] i = false := by simp [hasRightAt]

theorem isFoot_succ_inv (s : Syllable) (w : Word) (l r : Nat)
    (h : IsFoot (s :: w) (l + 1) r) : ∃ r', r = r' + 1 ∧ IsFoot w l r' := by
  rcases r with _ | r
  · exact absurd h (isFoot_succ_zero s w l)
  · exact ⟨r, rfl, (isFoot_succ_succ s w l r).1 h⟩

theorem isFoot_inv_succ (s : Syllable) (w : Word) (l r : Nat)
    (h : IsFoot (s :: w) l (r + 1)) :
    (l = 0 ∧ s.hasLeftParenthesis = true ∧ s.hasRightParenthesis = false ∧ ClosesAt w r) ∨
    ∃ l', l = l' + 1 ∧ IsFoot w l' r := by
  rcases l with _ | l
  · exact Or.inl ⟨rfl, (isFoot_zero_succ s w r).1 h⟩
  · exact Or.inr ⟨l, rfl, (isFoot_succ_succ s w l r).1 h⟩

/-- The scan accepts a word exactly when its flags are matched in the declarative sense. -/
theorem matchedFrom_iff (w : Word) :
    (matchedFrom false w = true ↔ Matched w) ∧ (matchedFrom true w = true ↔ OpenMatched w) := by
  induction w with
  | nil =>
    constructor
    · simp [matchedFrom, Matched, hasLeftAt_nil, hasRightAt_nil]
    · simp only [matchedFrom, Bool.not_true, Bool.false_eq_true, false_iff]
      rintro ⟨⟨k, hk⟩, -⟩
      exact closesAt_nil k hk
  | cons s rest ih =>
    obtain ⟨ihc, iho⟩ := ih
    constructor
    · rcases hL : s.hasLeftParenthesis with _ | _ <;>
        rcases hR : s.hasRightParenthesis with _ | _ <;>
        simp only [matchedFrom, hL, hR, Bool.not_true, Bool.not_false, Bool.false_eq_true,
          Bool.true_and, Bool.false_and, if_true, if_false]
      · -- no flag
        rw [ihc]
        constructor
        · rintro ⟨h1, h2⟩
          constructor
          · intro i hi
            rcases i with _ | i
            · simp [hL] at hi
            · obtain ⟨r, hr⟩ := h1 i (by simpa using hi)
              exact ⟨r + 1, (isFoot_succ_succ s rest i r).2 hr⟩
          · intro i hi
            rcases i with _ | i
            · simp [hR] at hi
            · obtain ⟨l, hl⟩ := h2 i (by simpa using hi)
              exact ⟨l + 1, (isFoot_succ_succ s rest l i).2 hl⟩
        · rintro ⟨h1, h2⟩
          constructor
          · intro i hi
            obtain ⟨r, hr⟩ := h1 (i + 1) (by simpa using hi)
            obtain ⟨r', -, hr'⟩ := isFoot_succ_inv s rest i r hr
            exact ⟨r', hr'⟩
          · intro i hi
            obtain ⟨l, hl⟩ := h2 (i + 1) (by simpa using hi)
            rcases isFoot_inv_succ s rest l i hl with ⟨-, hsl, -, -⟩ | ⟨l', -, hl'⟩
            · rw [hL] at hsl; cases hsl
            · exact ⟨l', hl'⟩
      · -- right flag only: it closes nothing
        simp only [false_iff]
        rintro ⟨-, h2⟩
        obtain ⟨l, hl⟩ := h2 0 (by simp [hR])
        rcases l with _ | l
        · rw [isFoot_zero_zero] at hl
          rw [hL] at hl
          exact absurd hl.1 (by simp)
        · exact isFoot_succ_zero s rest l hl
      · -- left flag only: a foot opens
        rw [iho]
        constructor
        · rintro ⟨⟨k, hk⟩, h1, h2⟩
          constructor
          · intro i hi
            rcases i with _ | i
            · exact ⟨k + 1, (isFoot_zero_succ s rest k).2 ⟨hL, hR, hk⟩⟩
            · obtain ⟨r, hr⟩ := h1 i (by simpa using hi)
              exact ⟨r + 1, (isFoot_succ_succ s rest i r).2 hr⟩
          · intro i hi
            rcases i with _ | i
            · simp [hR] at hi
            · rcases h2 i (by simpa using hi) with hc | ⟨l, hl⟩
              · exact ⟨0, (isFoot_zero_succ s rest i).2 ⟨hL, hR, hc⟩⟩
              · exact ⟨l + 1, (isFoot_succ_succ s rest l i).2 hl⟩
        · rintro ⟨h1, h2⟩
          refine ⟨?_, ?_, ?_⟩
          · obtain ⟨r, hr⟩ := h1 0 (by simp [hL])
            rcases r with _ | r
            · rw [isFoot_zero_zero] at hr
              rw [hR] at hr
              exact absurd hr.2 (by simp)
            · exact ⟨r, ((isFoot_zero_succ s rest r).1 hr).2.2⟩
          · intro i hi
            obtain ⟨r, hr⟩ := h1 (i + 1) (by simpa using hi)
            obtain ⟨r', -, hr'⟩ := isFoot_succ_inv s rest i r hr
            exact ⟨r', hr'⟩
          · intro i hi
            obtain ⟨l, hl⟩ := h2 (i + 1) (by simpa using hi)
            rcases isFoot_inv_succ s rest l i hl with ⟨-, -, -, hc⟩ | ⟨l', -, hl'⟩
            · exact Or.inl hc
            · exact Or.inr ⟨l', hl'⟩
      · -- both flags: a one-syllable foot
        rw [ihc]
        constructor
        · rintro ⟨h1, h2⟩
          constructor
          · intro i hi
            rcases i with _ | i
            · exact ⟨0, (isFoot_zero_zero s rest).2 ⟨hL, hR⟩⟩
            · obtain ⟨r, hr⟩ := h1 i (by simpa using hi)
              exact ⟨r + 1, (isFoot_succ_succ s rest i r).2 hr⟩
          · intro i hi
            rcases i with _ | i
            · exact ⟨0, (isFoot_zero_zero s rest).2 ⟨hL, hR⟩⟩
            · obtain ⟨l, hl⟩ := h2 i (by simpa using hi)
              exact ⟨l + 1, (isFoot_succ_succ s rest l i).2 hl⟩
        · rintro ⟨h1, h2⟩
          constructor
          · intro i hi
            obtain ⟨r, hr⟩ := h1 (i + 1) (by simpa using hi)
            obtain ⟨r', -, hr'⟩ := isFoot_succ_inv s rest i r hr
            exact ⟨r', hr'⟩
          · intro i hi
            obtain ⟨l, hl⟩ := h2 (i + 1) (by simpa using hi)
            rcases isFoot_inv_succ s rest l i hl with ⟨-, -, hsr, -⟩ | ⟨l', -, hl'⟩
            · rw [hR] at hsr; cases hsr
            · exact ⟨l', hl'⟩
    · rcases hL : s.hasLeftParenthesis with _ | _ <;>
        rcases hR : s.hasRightParenthesis with _ | _ <;>
        simp only [matchedFrom, hL, hR, Bool.not_true, Bool.not_false, Bool.false_eq_true,
          Bool.true_and, Bool.false_and]
      · -- no flag: the foot stays open
        rw [iho]
        constructor
        · rintro ⟨⟨k, hk⟩, h1, h2⟩
          refine ⟨⟨k + 1, (closesAt_succ s rest k).2 ⟨hL, hR, hk⟩⟩, ?_, ?_⟩
          · intro i hi
            rcases i with _ | i
            · simp [hL] at hi
            · obtain ⟨r, hr⟩ := h1 i (by simpa using hi)
              exact ⟨r + 1, (isFoot_succ_succ s rest i r).2 hr⟩
          · intro i hi
            rcases i with _ | i
            · simp [hR] at hi
            · rcases h2 i (by simpa using hi) with hc | ⟨l, hl⟩
              · exact Or.inl ((closesAt_succ s rest i).2 ⟨hL, hR, hc⟩)
              · exact Or.inr ⟨l + 1, (isFoot_succ_succ s rest l i).2 hl⟩
        · rintro ⟨⟨k, hk⟩, h1, h2⟩
          refine ⟨?_, ?_, ?_⟩
          · rcases k with _ | k
            · rw [closesAt_zero] at hk
              rw [hR] at hk
              exact absurd hk.2 (by simp)
            · exact ⟨k, ((closesAt_succ s rest k).1 hk).2.2⟩
          · intro i hi
            obtain ⟨r, hr⟩ := h1 (i + 1) (by simpa using hi)
            obtain ⟨r', -, hr'⟩ := isFoot_succ_inv s rest i r hr
            exact ⟨r', hr'⟩
          · intro i hi
            rcases h2 (i + 1) (by simpa using hi) with hc | ⟨l, hl⟩
            · exact Or.inl ((closesAt_succ s rest i).1 hc).2.2
            · rcases isFoot_inv_succ s rest l i hl with ⟨-, hsl, -, -⟩ | ⟨l', -, hl'⟩
              · rw [hL] at hsl; cases hsl
              · exact Or.inr ⟨l', hl'⟩
      · -- right flag: the open foot closes here
        rw [ihc]
        constructor
        · rintro ⟨h1, h2⟩
          refine ⟨⟨0, (closesAt_zero s rest).2 ⟨hL, hR⟩⟩, ?_, ?_⟩
          · intro i hi
            rcases i with _ | i
            · simp [hL] at hi
            · obtain ⟨r, hr⟩ := h1 i (by simpa using hi)
              exact ⟨r + 1, (isFoot_succ_succ s rest i r).2 hr⟩
          · intro i hi
            rcases i with _ | i
            · exact Or.inl ((closesAt_zero s rest).2 ⟨hL, hR⟩)
            · obtain ⟨l, hl⟩ := h2 i (by simpa using hi)
              exact Or.inr ⟨l + 1, (isFoot_succ_succ s rest l i).2 hl⟩
        · rintro ⟨-, h1, h2⟩
          constructor
          · intro i hi
            obtain ⟨r, hr⟩ := h1 (i + 1) (by simpa using hi)
            obtain ⟨r', -, hr'⟩ := isFoot_succ_inv s rest i r hr
            exact ⟨r', hr'⟩
          · intro i hi
            rcases h2 (i + 1) (by simpa using hi) with hc | ⟨l, hl⟩
            · have := ((closesAt_succ s rest i).1 hc).2.1
              rw [hR] at this; cases this
            · rcases isFoot_inv_succ s rest l i hl with ⟨-, hsl, -, -⟩ | ⟨l', -, hl'⟩
              · rw [hL] at hsl; cases hsl
              · exact ⟨l', hl'⟩
      · -- left flag inside an open foot
        simp only [false_iff]
        rintro ⟨⟨k, hk⟩, -⟩
        rcases k with _ | k
        · have := ((closesAt_zero s rest).1 hk).1
          rw [hL] at this; cases this
        · have := ((closesAt_succ s rest k).1 hk).1
          rw [hL] at this; cases this
      · simp only [false_iff]
        rintro ⟨⟨k, hk⟩, -⟩
        rcases k with _ | k
        · have := ((closesAt_zero s rest).1 hk).1
          rw [hL] at this; cases this
        · have := ((closesAt_succ s rest k).1 hk).1
          rw [hL] at this; cases this

/-- `wellFormed` holds exactly when every left flag opens a foot and every right flag
closes one. -/
theorem wellFormed_iff (w : Word) : wellFormed w = true ↔ Matched w :=
  (matchedFrom_iff w).1

/-! ## The marking loops -/

theorem assignViolationLoop_spec :
    ∀ (k i : Nat) (v : List Int), i + k ≤ v.length →
      ∃ v', assignViolationLoop k (i : Int) v = some v' ∧ v'.length = v.length ∧
        ∀ j : Nat, v'[j]? = if i ≤ j ∧ j < i + k then some 1 else v[j]? := by
  intro k
  induction k with
  | zero =>
    intro i v _
    refine ⟨v, rfl, rfl, ?_⟩
    intro j
    rw [if_neg (by omega)]
  | succ k ih =>
    intro i v h
    have hw : writeAt v (i : Int) 1 = some (v.set i 1) := by
      unfold writeAt
      rw [if_pos ⟨by omega, by omega⟩]
      simp
    obtain ⟨v', hv', hlen, hget⟩ := ih (i + 1) (v.set i 1) (by simp; omega)
    have hcast : ((i : Nat) : Int) + 1 = ((i + 1 : Nat) : Int) := by push_cast; ring
    refine ⟨v', ?_, by simpa using hlen, ?_⟩
    · simp only [assignViolationLoop, hw, hcast]
      exact hv'
    · intro j
      rw [hget j, List.getElem?_set]
      by_cases h1 : i = j
      · subst h1
        simp
        omega
      · by_cases h2 : i + 1 ≤ j ∧ j < i + 1 + k
        · rw [if_pos h2, if_pos (by omega)]
        · rw [if_neg h2, if_neg h1, if_neg (by omega)]

theorem assignViolation_spec (l r : Nat) (v : List Int) (hlr : l ≤ r) (hr : r < v.length) :
    ∃ v', assignViolation (l : Int) (r : Int) v = some v' ∧ v'.length = v.length ∧
      ∀ j : Nat, v'[j]? = if l ≤ j ∧ j ≤ r then some 1 else v[j]? := by
  have hk : ((r : Int) + 1 - (l : Int)).toNat = r + 1 - l := by omega
  obtain ⟨v', h1, h2, h3⟩ := assignViolationLoop_spec (r + 1 - l) l v (by omega)
  refine ⟨v', by simp only [assignViolation, hk, h1], h2, ?_⟩
  intro j
  rw [h3 j]
  by_cases h : l ≤ j ∧ j ≤ r
  · rw [if_pos h, if_pos (by omega)]
  · rw [if_neg h, if_neg (by omega)]

theorem readAt_natCast {α : Type} (v : List α) (i : Nat) : readAt v (i : Int) = v[i]? := by
  simp [readAt]

/-- One step of the loop over the parenthesis pairs, on a pair inside the word. -/
theorem footStep_spec (bad2 : Syllable → Syllable → Bool) (word : Word) (v : List Int)
    (l r : Nat) (hlr : l ≤ r) (hr : r < word.length) (hv : v.length = word.length) :
    ∃ v', footStep bad2 word v ((l : Int), (r : Int)) = some v' ∧ v'.length = v.length ∧
      ∀ j : Nat, v'[j]? =
        if footViolates bad2 word l r = true ∧ l ≤ j ∧ j ≤ r then some 1 else v[j]? := by
  obtain ⟨va, ha1, ha2, ha3⟩ := assignViolation_spec l r v hlr (by omega)
  obtain ⟨sl, hsl⟩ : ∃ sl, word[l]? = some sl :=
    ⟨word[l], List.getElem?_eq_getElem (by omega)⟩
  obtain ⟨sr, hsr⟩ : ∃ sr, word[r]? = some sr :=
    ⟨word[r], List.getElem?_eq_getElem (by omega)⟩
  have hlen : r - l + 1 = 1 ∨ r - l + 1 = 2 ∨ 3 ≤ r - l + 1 := by omega
  rcases hlen with h1 | h2 | h3
  · -- one syllable
    have e3 : ¬ ((r : Int) - (l : Int) + 1 ≥ 3) := by omega
    have e2 : ¬ ((r : Int) - (l : Int) + 1 = 2) := by omega
    have e1 : (r : Int) - (l : Int) + 1 = 1 := by omega
    by_cases hL : sl.weight = 'L'
    · refine ⟨va, ?_, ha2, ?_⟩
      · simp [footStep, e3, e2, e1, readAt_natCast, hsl, hL, ha1]
      · intro j
        rw [ha3 j]
        have : footViolates bad2 word l r = true := by
          simp [footViolates, h1, lightAt, hsl, hL]
        simp [this]
    · refine ⟨v, ?_, rfl, ?_⟩
      · simp [footStep, e3, e2, e1, readAt_natCast, hsl, hL]
      · intro j
        have : footViolates bad2 word l r = false := by
          simp [footViolates, h1, lightAt, hsl, hL]
        simp [this]
  · -- two syllables
    have e3 : ¬ ((r : Int) - (l : Int) + 1 ≥ 3) := by omega
    have e2 : (r : Int) - (l : Int) + 1 = 2 := by omega
    have e1 : ¬ ((r : Int) - (l : Int) + 1 = 1) := by omega
    by_cases hB : bad2 sl sr = true
    · refine ⟨va, ?_, ha2, ?_⟩
      · simp [footStep, e3, e2, readAt_natCast, hsl, hsr, hB, ha1]
      · intro j
        rw [ha3 j]
        have : footViolates bad2 word l r = true := by
          simp [footViolates, h2, hsl, hsr, hB]
        simp [this]
    · refine ⟨v, ?_, rfl, ?_⟩
      · simp [footStep, e3, e2, readAt_natCast, hsl, hsr, hB]
      · intro j
        have : footViolates bad2 word l r = false := by
          simp [footViolates, h2, hsl, hsr, hB]
        simp [this]
  · -- three or more syllables
    have e3 : (r : Int) - (l : Int) + 1 ≥ 3 := by omega
    have e2 : ¬ ((r : Int) - (l : Int) + 1 = 2) := by omega
    have e1 : ¬ ((r : Int) - (l : Int) + 1 = 1) := by omega
    refine ⟨va, ?_, ha2, ?_⟩
    · simp [footStep, e3, e2, e1, ha1]
    · intro j
      rw [ha3 j]
      have : footViolates bad2 word l r = true := by
        simp [footViolates, h3]
      simp [this]

/-- The loop over the parenthesis pairs: a position ends up marked when a violating pair of
the list covers it, and keeps its value otherwise. -/
theorem footLoop_spec (bad2 : Syllable → Syllable → Bool) (word : Word) :
    ∀ (fs : List (Int × Int)) (v : List Int), v.length = word.length →
      (∀ p ∈ fs, ∃ l r : Nat, p = ((l : Int), (r : Int)) ∧ l ≤ r ∧ r < word.length) →
      ∃ v', footLoop bad2 word fs v = some v' ∧ v'.length = v.length ∧
        (∀ j : Nat, (∃ l r : Nat, ((l : Int), (r : Int)) ∈ fs ∧
            footViolates bad2 word l r = true ∧ l ≤ j ∧ j ≤ r) → v'[j]? = some 1) ∧
        (∀ j : Nat, (¬ ∃ l r : Nat, ((l : Int), (r : Int)) ∈ fs ∧
            footViolates bad2 word l r = true ∧ l ≤ j ∧ j ≤ r) → v'[j]? = v[j]?) := by
  intro fs
  induction fs with
  | nil =>
    intro v _ _
    exact ⟨v, rfl, rfl, by simp, by simp⟩
  | cons p rest ih =>
    intro v hv hfs
    obtain ⟨l, r, rfl, hlr, hr⟩ := hfs p (List.mem_cons_self _ _)
    obtain ⟨v1, h1, hlen1, hget1⟩ := footStep_spec bad2 word v l r hlr hr hv
    obtain ⟨v2, h2, hlen2, hyes, hno⟩ := ih v1 (by omega)
      (fun q hq => hfs q (List.mem_cons_of_mem _ hq))
    refine ⟨v2, by simp only [footLoop, h1, h2], by omega, ?_, ?_⟩
    · rintro j ⟨l', r', hmem, hviol, hlj, hjr⟩
      by_cases hrest : ∃ l r : Nat, ((l : Int), (r : Int)) ∈ rest ∧
          footViolates bad2 word l r = true ∧ l ≤ j ∧ j ≤ r
      · exact hyes j hrest
      · rw [hno j hrest, hget1 j]
        rcases List.mem_cons.1 hmem with heq | hmem'
        · obtain ⟨e1, e2⟩ := Prod.mk.inj heq
          have e1' : l' = l := by exact_mod_cast e1
          have e2' : r' = r := by exact_mod_cast e2
          subst e1' e2'
          rw [if_pos ⟨hviol, hlj, hjr⟩]
        · exact absurd ⟨l', r', hmem', hviol, hlj, hjr⟩ hrest
    · intro j hnone
      have hrest : ¬ ∃ l r : Nat, ((l : Int), (r : Int)) ∈ rest ∧
          footViolates bad2 word l r = true ∧ l ≤ j ∧ j ≤ r := by
        rintro ⟨l', r', hmem, hx⟩
        exact hnone ⟨l', r', List.mem_cons_of_mem _ hmem, hx⟩
      rw [hno j hrest, hget1 j, if_neg]
      rintro ⟨hviol, hlj, hjr⟩
      exact hnone ⟨l, r, List.mem_cons_self _ _, hviol, hlj, hjr⟩

/-- The feet `findLocation` recovers from a matched word are exactly its feet. -/
theorem findLocation_spec (w : Word) (h : wellFormed w = true) :
    ∃ fs, findLocation w = some fs ∧
      ∀ a b, (a, b) ∈ fs ↔ ∃ l r, IsFoot w l r ∧ a = (l : Int) ∧ b = (r : Int) := by
  obtain ⟨fs, h1, h2⟩ := (findLocationLoop_spec w 0 []).1 h
  refine ⟨fs, by simpa [findLocation] using h1, ?_⟩
  intro a b
  rw [h2]
  simp

/-- `Trochee` and `Iamb` on a matched word: the result has the length of the word, holds 1
at the positions covered by a foot that fails the test, and 0 elsewhere. -/
theorem footConstraint_spec (bad2 : Syllable → Syllable → Bool) (w : Word)
    (h : wellFormed w = true) :
    ∃ fs v, findLocation w = some fs ∧
      footLoop bad2 w fs (List.replicate w.length 0) = some v ∧ v.length = w.length ∧
      (∀ j : Nat, (∃ l r, IsFoot w l r ∧ footViolates bad2 w l r = true ∧ l ≤ j ∧ j ≤ r) →
        v[j]? = some 1) ∧
      (∀ j : Nat, j < w.length →
        (¬ ∃ l r, IsFoot w l r ∧ footViolates bad2 w l r = true ∧ l ≤ j ∧ j ≤ r) →
        v[j]? = some 0) := by
  obtain ⟨fs, hfs, hmem⟩ := findLocation_spec w h
  have hin : ∀ p ∈ fs, ∃ l r : Nat, p = ((l : Int), (r : Int)) ∧ l ≤ r ∧ r < w.length := by
    rintro ⟨a, b⟩ hp
    obtain ⟨l, r, hf, rfl, rfl⟩ := (hmem a b).1 hp
    exact ⟨l, r, rfl, hf.1, hf.2.1⟩
  obtain ⟨v, hv, hlen, hyes, hno⟩ :=
    footLoop_spec bad2 w fs (List.replicate w.length 0) (by simp) hin
  refine ⟨fs, v, hfs, hv, by simpa using hlen, ?_, ?_⟩
  · rintro j ⟨l, r, hf, hviol, hlj, hjr⟩
    exact hyes j ⟨l, r, (hmem _ _).2 ⟨l, r, hf, rfl, rfl⟩, hviol, hlj, hjr⟩
  · intro j hj hnone
    rw [hno j]
    · simp [hj]
    · rintro ⟨l, r, hp, hviol, hlj, hjr⟩
      obtain ⟨l', r', hf, e1, e2⟩ := (hmem _ _).1 hp
      have e1' : l = l' := by exact_mod_cast e1
      have e2' : r = r' := by exact_mod_cast e2
      subst e1' e2'
      exact hnone ⟨l, r, hf, hviol, hlj, hjr⟩

theorem stressedAt_of_get (w : Word) (k : Nat) (s : Syllable) (h : w[k]? = some s) :
    stressedAt w k = s.hasStress := by
  simp [stressedAt, h]

/-- The Trochee test on a foot, in words. -/
theorem footViolates_trochee (w : Word) (l r : Nat) (hl : l < w.length) (hr : r < w.length) :
    footViolates trocheeBad w l r = true ↔
      (3 ≤ r - l + 1 ∨
        (r - l + 1 = 2 ∧ (stressedAt w l = false ∨ stressedAt w r = true)) ∨
        (r - l + 1 = 1 ∧ lightAt w l = true)) := by
  obtain ⟨sl, hsl⟩ : ∃ sl, w[l]? = some sl := ⟨w[l], List.getElem?_eq_getElem hl⟩
  obtain ⟨sr, hsr⟩ : ∃ sr, w[r]? = some sr := ⟨w[r], List.getElem?_eq_getElem hr⟩
  simp only [footViolates, hsl, hsr, trocheeBad, stressedAt_of_get w l sl hsl,
    stressedAt_of_get w r sr hsr, Bool.or_eq_true, Bool.and_eq_true, decide_eq_true_eq,
    Bool.not_eq_true']
  tauto

/-- The Iamb test on a foot, in words. -/
theorem footViolates_iamb (w : Word) (l r : Nat) (hl : l < w.length) (hr : r < w.length) :
    footViolates iambBad w l r = true ↔
      (3 ≤ r - l + 1 ∨
        (r - l + 1 = 2 ∧ (stressedAt w r = false ∨ stressedAt w l = true)) ∨
        (r - l + 1 = 1 ∧ lightAt w l = true)) := by
  obtain ⟨sl, hsl⟩ : ∃ sl, w[l]? = some sl := ⟨w[l], List.getElem?_eq_getElem hl⟩
  obtain ⟨sr, hsr⟩ : ∃ sr, w[r]? = some sr := ⟨w[r], List.getElem?_eq_getElem hr⟩
  simp only [footViolates, hsl, hsr, iambBad, stressedAt_of_get w l sl hsl,
    stressedAt_of_get w r sr hsr, Bool.or_eq_true, Bool.and_eq_true, decide_eq_true_eq,
    Bool.not_eq_true']
  tauto

/-- Two feet that share a syllable are the same foot. -/
theorem isFoot_unique (w : Word) (l r l' r' j : Nat) (h : IsFoot w l r) (h' : IsFoot w l' r')
    (hj : l ≤ j ∧ j ≤ r) (hj' : l' ≤ j ∧ j ≤ r') : l = l' ∧ r = r' := by
  obtain ⟨h1, h2, h3, h4, h5, h6⟩ := h
  obtain ⟨h1', h2', h3', h4', h5', h6'⟩ := h'
  have hl : l = l' := by
    rcases Nat.lt_trichotomy l l' with hlt | heq | hgt
    · have := h5 l' (by omega) hlt (by omega)
      rw [this] at h3'; cases h3'
    · exact heq
    · have := h5' l (by omega) hgt (by omega)
      rw [this] at h3; cases h3
  subst hl
  refine ⟨rfl, ?_⟩
  rcases Nat.lt_trichotomy r r' with hlt | heq | hgt
  · have := h6' r (by omega) (by omega) hlt
    rw [this] at h4; cases h4
  · exact heq
  · have := h6 r' (by omega) (by omega) hgt
    rw [this] at h4'; cases h4'

/-- Every entry of a constraint result on a matched word is 0 or 1. -/
theorem footConstraint_zero_one (bad2 : Syllable → Syllable → Bool) (w : Word) (v : List Int)
    (hyes : ∀ j : Nat, (∃ l r, IsFoot w l r ∧ footViolates bad2 w l r = true ∧ l ≤ j ∧ j ≤ r) →
        v[j]? = some 1)
    (hno : ∀ j : Nat, j < w.length →
        (¬ ∃ l r, IsFoot w l r ∧ footViolates bad2 w l r = true ∧ l ≤ j ∧ j ≤ r) →
        v[j]? = some 0) (j : Nat) (hj : j < w.length) :
    (v[j]? = some 1 ↔ ∃ l r, IsFoot w l r ∧ footViolates bad2 w l r = true ∧ l ≤ j ∧ j ≤ r) ∧
    (v[j]? = some 1 ∨ v[j]? = some 0) := by
  by_cases hex : ∃ l r, IsFoot w l r ∧ footViolates bad2 w l r = true ∧ l ≤ j ∧ j ≤ r
  · exact ⟨⟨fun _ => hex, fun _ => hyes j hex⟩, Or.inl (hyes j hex)⟩
  · refine ⟨⟨fun h1 => ?_, fun h => absurd h hex⟩, Or.inr (hno j hj hex)⟩
    rw [hno j hj hex] at h1
    cases h1

/-- A foot of length other than 2 fails the Trochee and the Iamb test alike. -/
theorem footViolates_eq_of_ne_two (w : Word) (l r : Nat) (h : r - l + 1 ≠ 2) :
    footViolates iambBad w l r = footViolates trocheeBad w l r := by
  simp [footViolates, h]

/-! ## The score -/

theorem wrapInt32_of_small (x : Int) (h0 : 0 ≤ x) (h1 : x < 2147483648) : wrapInt32 x = x := by
  unfold wrapInt32
  omega

theorem binaryValue_nil : binaryValue [] = 0 := by
  simp [binaryValue]

theorem binaryValue_cons (x : Int) (xs : List Int) :
    binaryValue (x :: xs) = x * 2 ^ xs.length + binaryValue xs := by
  unfold binaryValue
  rw [List.length_cons, Finset.sum_range_succ']
  simp only [List.getD_cons_succ, List.getD_cons_zero, Nat.add_sub_cancel, Nat.sub_zero]
  rw [add_comm]
  congr 1
  apply Finset.sum_congr rfl
  intro i _
  congr 2
  omega

theorem binaryValue_bounds (v : List Int) (h : ∀ x ∈ v, x = 0 ∨ x = 1) :
    0 ≤ binaryValue v ∧ binaryValue v < 2 ^ v.length := by
  induction v with
  | nil => simp [binaryValue_nil]
  | cons x xs ih =>
    obtain ⟨h0, h1⟩ := ih (fun y hy => h y (List.mem_cons_of_mem _ hy))
    rw [binaryValue_cons, List.length_cons, pow_succ]
    have hp : (0 : Int) < 2 ^ xs.length := by positivity
    rcases h x (List.mem_cons_self _ _) with rfl | rfl
    · constructor <;> nlinarith
    · constructor <;> nlinarith

/-- The accumulator loop of `score` never wraps while the value fits 31 bits. -/
theorem score_foldl (v : List Int) :
    ∀ acc : Int, (∀ x ∈ v, x = 0 ∨ x = 1) → 0 ≤ acc →
      (acc + 1) * 2 ^ v.length ≤ 2147483648 →
      v.foldl (fun val x => wrapInt32 (wrapInt32 (val * 2) + x)) acc =
        acc * 2 ^ v.length + binaryValue v := by
  induction v with
  | nil =>
    intro acc _ _ _
    simp [binaryValue_nil]
  | cons x xs ih =>
    intro acc h h0 hb
    have hp : (1 : Int) ≤ 2 ^ xs.length := by
      have : (0 : Int) < 2 ^ xs.length := by positivity
      omega
    rw [List.length_cons, pow_succ] at hb
    have hx : x = 0 ∨ x = 1 := h x (List.mem_cons_self _ _)
    have hsmall : (acc + 1) * 2 ≤ 2147483648 := by nlinarith
    have e1 : wrapInt32 (acc * 2) = acc * 2 :=
      wrapInt32_of_small _ (by omega) (by omega)
    have e2 : wrapInt32 (acc * 2 + x) = acc * 2 + x :=
      wrapInt32_of_small _ (by rcases hx with rfl | rfl <;> omega)
        (by rcases hx with rfl | rfl <;> omega)
    rw [List.foldl_cons, e1, e2,
      ih (acc * 2 + x) (fun y hy => h y (List.mem_cons_of_mem _ hy))
        (by rcases hx with rfl | rfl <;> omega)
        (by rcases hx with rfl | rfl <;> nlinarith),
      binaryValue_cons, List.length_cons, pow_succ]
    ring

theorem two_pow_le_of_le_31 (n : Nat) (h : n ≤ 31) : (2 : Int) ^ n ≤ 2147483648 := by
  have : (2 : Int) ^ n ≤ 2 ^ 31 := pow_le_pow_right₀ (by norm_num) h
  norm_num at this
  exact this

/-- On a 0/1 sequence of at most 31 entries `score` is the big-endian binary value. -/
theorem score_eq_binaryValue (v : List Int) (h : ∀ x ∈ v, x = 0 ∨ x = 1)
    (hlen : v.length ≤ 31) : score v = binaryValue v := by
  unfold score
  rw [score_foldl v 0 h (le_refl _) (by simpa using two_pow_le_of_le_31 _ hlen)]
  simp

/-- Binary values of 0/1 sequences of equal length compare as the sequences do. -/
theorem binaryValue_lt_iff_lex (a : List Int) :
    ∀ b : List Int, a.length = b.length → (∀ x ∈ a, x = 0 ∨ x = 1) →
      (∀ x ∈ b, x = 0 ∨ x = 1) →
      (binaryValue a < binaryValue b ↔ List.Lex (· < ·) a b) := by
  induction a with
  | nil =>
    intro b hlen _ _
    cases b with
    | nil => simp [binaryValue_nil]
    | cons y ys => simp at hlen
  | cons x xs ih =>
    intro b hlen ha hb
    cases b with
    | nil => simp at hlen
    | cons y ys =>
      have hlen' : xs.length = ys.length := by simpa using hlen
      have hxs : ∀ z ∈ xs, z = 0 ∨ z = 1 := fun z hz => ha z (List.mem_cons_of_mem _ hz)
      have hys : ∀ z ∈ ys, z = 0 ∨ z = 1 := fun z hz => hb z (List.mem_cons_of_mem _ hz)
      obtain ⟨hx0, hx1⟩ := binaryValue_bounds xs hxs
      obtain ⟨hy0, hy1⟩ := binaryValue_bounds ys hys
      rw [binaryValue_cons, binaryValue_cons, hlen']
      rw [hlen'] at hx1
      have hp : (0 : Int) < 2 ^ ys.length := by positivity
      rcases ha x (List.mem_cons_self _ _) with rfl | rfl <;>
        rcases hb y (List.mem_cons_self _ _) with rfl | rfl
      · rw [List.Lex.cons_iff, ← ih ys hlen' hxs hys]
        constructor <;> intro h <;> linarith
      · constructor
        · intro _
          exact List.Lex.rel (by norm_num)
        · intro _
          linarith
      · constructor
        · intro h
          exfalso
          linarith
        · intro h
          cases h with
          | rel h => exact absurd h (by norm_num)
      · rw [List.Lex.cons_iff, ← ih ys hlen' hxs hys]
        constructor <;> intro h <;> linarith

/-! ## The candidate generator -/

theorem modifyAt_eq {α : Type} (v : List α) (i : Nat) (f : α → α) (h : i < v.length) :
    modifyAt v i f = some (v.modify f i) := by
  unfold modifyAt
  rw [List.getElem?_eq_getElem h]
  simp only [Option.some.injEq]
  apply List.ext_getElem?
  intro j
  rw [List.getElem?_set, List.getElem?_modify]
  by_cases hij : i = j
  · subst hij
    simp [h]
  · simp [hij]

theorem optMap_eq {α β : Type} (f : α → Option β) (g : α → β) (xs : List α)
    (h : ∀ a ∈ xs, f a = some (g a)) : optMap f xs = some (xs.map g) := by
  induction xs with
  | nil => rfl
  | cons a as ih =>
    simp only [optMap, h a (List.mem_cons_self _ _),
      ih (fun b hb => h b (List.mem_cons_of_mem _ hb)), List.map_cons]

theorem optConcatMap_eq {α β : Type} (f : α → Option (List β)) (g : α → List β)
    (xs : List α) (h : ∀ a ∈ xs, f a = some (g a)) :
    optConcatMap f xs = some (xs.flatMap g) := by
  induction xs with
  | nil => rfl
  | cons a as ih =>
    simp only [optConcatMap, h a (List.mem_cons_self _ _),
      ih (fun b hb => h b (List.mem_cons_of_mem _ hb)), List.flatMap_cons]

theorem stressLoop_eq (l mask : Nat) :
    ∀ (is : List Nat) (sc : Word), (∀ i ∈ is, l + i < sc.length) →
      stressLoop l mask is sc = some (is.foldl
        (fun sc i => sc.modify (fun s => { s with hasStress := mask.testBit i }) (l + i)) sc) := by
  intro is
  induction is with
  | nil => intro sc _; rfl
  | cons i rest ih =>
    intro sc h
    simp only [stressLoop, modifyAt_eq sc (l + i) _ (h i (List.mem_cons_self _ _)),
      List.foldl_cons]
    apply ih
    intro j hj
    simpa using h j (List.mem_cons_of_mem _ hj)

/-- The bounds checks of `footCandidates` never fail on a pair inside the word. -/
theorem footCandidates_eq (w : Word) (l r : Nat) (hlr : l ≤ r) (hr : r < w.length) :
    footCandidates w l r = some (footWords w l r) := by
  unfold footCandidates footWords
  by_cases hlen : r - l + 1 > 2
  · simp [hlen]
  · rw [if_neg hlen, if_neg hlen]
    have hl : l < w.length := by omega
    have hsl : w[l]? = some w[l] := List.getElem?_eq_getElem hl
    have hsr : w[r]? = some w[r] := List.getElem?_eq_getElem hr
    simp only [hsl, hsr, hasLeftAt, hasRightAt]
    split
    · rfl
    · rw [modifyAt_eq w l _ hl]
      simp only
      rw [modifyAt_eq _ r _ (by simpa using hr)]
      simp only
      apply optMap_eq
      intro mask _
      rw [stressLoop_eq]
      · rfl
      · intro i hi
        have := List.mem_range.1 hi
        simp
        omega

/-- The bounds checks of the generator never fail: the candidate words are the new-foot
words followed by the input word. -/
theorem candidateWords_eq (w : Word) : candidateWords w = some (newFootWords w ++ [w]) := by
  unfold candidateWords newFootWords
  rw [optConcatMap_eq _ (fun l => (List.range' l (w.length - l)).flatMap fun r => footWords w l r)]
  intro l hl
  have hl' := List.mem_range.1 hl
  apply optConcatMap_eq
  intro r hr
  have hr' := List.mem_range'_1.1 hr
  exact footCandidates_eq w l r hr'.1 (by omega)

/-- The generated word for `(l, r, mask)` is `w` with a new foot on `[l, r]` whose stress
pattern is given by the bits of `mask`. -/
theorem footWord_addsFoot (w : Word) (l r mask : Nat) (hlr : l ≤ r) (hr : r ≤ l + 1) :
    AddsFoot w (footWord w l r mask) l r (fun p => mask.testBit p) := by
  have hcase : r = l ∨ r = l + 1 := by omega
  have r1 : List.range 1 = [0] := rfl
  have r2 : List.range 2 = [0, 1] := rfl
  rcases hcase with rfl | rfl
  · constructor
    · simp [footWord, r1]
    · intro i s hs
      simp only [footWord, Nat.sub_self, Nat.zero_add, r1, List.foldl_cons,
        List.foldl_nil, Nat.add_zero, List.getElem?_modify, hs, Option.map_eq_map,
        Option.map_some']
      by_cases h : r = i
      · subst h; simp
      · have h' : ¬ i = r := fun e => h e.symm
        have h'' : ¬ (r ≤ i ∧ i ≤ r) := by omega
        simp [h, h', h'']
  · have e : l + 1 - l + 1 = 2 := by omega
    constructor
    · simp [footWord, e, r2]
    · intro i s hs
      simp only [footWord, e, r2, List.foldl_cons, List.foldl_nil, Nat.add_zero,
        List.getElem?_modify, hs, Option.map_eq_map, Option.map_some']
      by_cases h : l = i
      · subst h; simp
      · by_cases h2 : l + 1 = i
        · subst h2
          simp
        · have h' : ¬ i = l := fun e => h e.symm
          have h2' : ¬ i = l + 1 := fun e => h2 e.symm
          have h'' : ¬ (l ≤ i ∧ i ≤ l + 1) := by omega
          simp [h, h2, h', h2', h'']

/-- A new-foot word is determined by the span and the stress pattern on the span. -/
theorem addsFoot_unique (w c c' : Word) (l r : Nat) (st st' : Nat → Bool)
    (h : AddsFoot w c l r st) (h' : AddsFoot w c' l r st')
    (hst : ∀ p, p ≤ r - l → st p = st' p) : c = c' := by
  apply List.ext_getElem?
  intro i
  by_cases hi : i < w.length
  · have hs : w[i]? = some w[i] := List.getElem?_eq_getElem hi
    rw [h.2 i _ hs, h'.2 i _ hs]
    by_cases hin : l ≤ i ∧ i ≤ r
    · simp [hin, hst (i - l) (by omega)]
    · simp [hin]
  · rw [List.getElem?_eq_none (by have := h.1; omega),
      List.getElem?_eq_none (by have := h'.1; omega)]

theorem masks_one : ((List.range (1 <<< 1)).filter fun mask => mask ≠ 0) = [1] := by decide

theorem masks_two : ((List.range (1 <<< 2)).filter fun mask => mask ≠ 0) = [1, 2, 3] := by
  decide

/-- The non-zero masks below `2 ^ k` stand for the non-empty stress patterns on `k`
positions, for a foot of `k = r - l + 1 ≤ 2` syllables. -/
theorem mask_of_pattern (l r : Nat) (hlr : l ≤ r) (hr : r ≤ l + 1) (st : Nat → Bool)
    (hst : ∃ p, p ≤ r - l ∧ st p = true) :
    ∃ mask, mask ∈ ((List.range (1 <<< (r - l + 1))).filter fun mask => mask ≠ 0) ∧
      ∀ p, p ≤ r - l → mask.testBit p = st p := by
  obtain ⟨p, hp, hstp⟩ := hst
  have hcase : r = l ∨ r = l + 1 := by omega
  rcases hcase with rfl | rfl
  · refine ⟨1, by simp [masks_one], ?_⟩
    intro q hq
    obtain rfl : q = 0 := by omega
    obtain rfl : p = 0 := by omega
    rw [hstp]
    decide
  · have e : l + 1 - l + 1 = 2 := by omega
    have hq01 : ∀ q, q ≤ l + 1 - l → q = 0 ∨ q = 1 := fun q hq => by omega
    rw [e, masks_two]
    rcases h0 : st 0 with _ | _ <;> rcases h1 : st 1 with _ | _
    · rcases hq01 p hp with rfl | rfl
      · rw [h0] at hstp; cases hstp
      · rw [h1] at hstp; cases hstp
    · refine ⟨2, by simp, ?_⟩
      intro q hq
      rcases hq01 q hq with rfl | rfl
      · rw [h0]; decide
      · rw [h1]; decide
    · refine ⟨1, by simp, ?_⟩
      intro q hq
      rcases hq01 q hq with rfl | rfl
      · rw [h0]; decide
      · rw [h1]; decide
    · refine ⟨3, by simp, ?_⟩
      intro q hq
      rcases hq01 q hq with rfl | rfl
      · rw [h0]; decide
      · rw [h1]; decide

theorem pattern_of_mask (l r : Nat) (hlr : l ≤ r) (hr : r ≤ l + 1) (mask : Nat)
    (hm : mask ∈ ((List.range (1 <<< (r - l + 1))).filter fun mask => mask ≠ 0)) :
    ∃ p, p ≤ r - l ∧ mask.testBit p = true := by
  have hcase : r = l ∨ r = l + 1 := by omega
  rcases hcase with rfl | rfl
  · have e : r - r + 1 = 1 := by omega
    rw [e, masks_one] at hm
    simp at hm
    subst hm
    exact ⟨0, by omega, by decide⟩
  · have e : l + 1 - l + 1 = 2 := by omega
    rw [e, masks_two] at hm
    simp at hm
    rcases hm with rfl | rfl | rfl
    · exact ⟨0, by omega, by decide⟩
    · exact ⟨1, by omega, by decide⟩
    · exact ⟨0, by omega, by decide⟩

/-- Membership in the list of new-foot words. -/
theorem mem_newFootWords (w cand : Word) :
    cand ∈ newFootWords w ↔
      ∃ l r, l ≤ r ∧ r ≤ l + 1 ∧ r < w.length ∧
        hasLeftAt w l = false ∧ hasRightAt w l = false ∧
        hasLeftAt w r = false ∧ hasRightAt w r = false ∧
        ∃ stress : Nat → Bool, (∃ p, p ≤ r - l ∧ stress p = true) ∧
          AddsFoot w cand l r stress := by
  unfold newFootWords
  simp only [List.mem_flatMap, List.mem_range, List.mem_range'_1]
  constructor
  · rintro ⟨l, hl, r, ⟨hlr, hrn⟩, hmem⟩
    unfold footWords at hmem
    by_cases hlen : r - l + 1 > 2
    · simp [hlen] at hmem
    · rw [if_neg hlen] at hmem
      by_cases hflag : (hasLeftAt w l || hasRightAt w l || hasLeftAt w r || hasRightAt w r) = true
      · simp [hflag] at hmem
      · rw [if_neg hflag] at hmem
        simp only [Bool.or_eq_true, not_or, Bool.not_eq_true] at hflag
        obtain ⟨mask, hmask, rfl⟩ := List.mem_map.1 hmem
        exact ⟨l, r, hlr, by omega, by omega, hflag.1.1.1, hflag.1.1.2, hflag.1.2, hflag.2,
          fun p => mask.testBit p, pattern_of_mask l r hlr (by omega) mask hmask,
          footWord_addsFoot w l r mask hlr (by omega)⟩
  · rintro ⟨l, r, hlr, hr, hrn, h1, h2, h3, h4, st, hst, hadd⟩
    refine ⟨l, by omega, r, ⟨hlr, by omega⟩, ?_⟩
    unfold footWords
    rw [if_neg (by omega), if_neg (by simp [h1, h2, h3, h4])]
    obtain ⟨mask, hmask, hbits⟩ := mask_of_pattern l r hlr hr st hst
    refine List.mem_map.2 ⟨mask, hmask, ?_⟩
    exact addsFoot_unique w _ _ l r _ _ (footWord_addsFoot w l r mask hlr hr) hadd hbits

/-! ## The comparator and the sort -/

theorem lexLess_iff_lex (a : List Int) :
    ∀ b : List Int, lexLess a b = true ↔ List.Lex (· < ·) a b := by
  induction a with
  | nil =>
    intro b
    cases b with
    | nil => simp [lexLess]
    | cons y ys => simp [lexLess, List.Lex.nil]
  | cons x xs ih =>
    intro b
    cases b with
    | nil => simp [lexLess]
    | cons y ys =>
      unfold lexLess
      by_cases h1 : x < y
      · simp [h1, List.Lex.rel h1]
      · by_cases h2 : y < x
        · simp only [h1, h2, if_true, if_false]
          constructor
          · intro h; cases h
          · intro h
            cases h with
            | cons h => exact absurd h2 (lt_irrefl _)
            | rel h => exact absurd h h1
        · obtain rfl : x = y := by omega
          simp only [h1, if_false, List.Lex.cons_iff]
          exact ih ys

theorem lexLess_irrefl (a : List Int) : lexLess a a = false := by
  induction a with
  | nil => rfl
  | cons x xs ih => simp [lexLess, ih]

theorem lexLess_trans (a : List Int) :
    ∀ b c : List Int, lexLess a b = true → lexLess b c = true → lexLess a c = true := by
  induction a with
  | nil =>
    intro b c h1 h2
    cases b with
    | nil => simp [lexLess] at h1
    | cons y ys =>
      cases c with
      | nil => simp [lexLess] at h2
      | cons z zs => simp [lexLess]
  | cons x xs ih =>
    intro b c h1 h2
    cases b with
    | nil => simp [lexLess] at h1
    | cons y ys =>
      cases c with
      | nil => simp [lexLess] at h2
      | cons z zs =>
        unfold lexLess at h1 h2 ⊢
        by_cases hxy : x < y
        · by_cases hyz : y < z
          · rw [if_pos (by omega)]
          · by_cases hzy : z < y
            · simp [hyz, hzy] at h2
            · obtain rfl : y = z := by omega
              rw [if_pos hxy]
        · by_cases hyx : y < x
          · simp [hxy, hyx] at h1
          · obtain rfl : x = y := by omega
            by_cases hxz : x < z
            · rw [if_pos hxz]
            · by_cases hzx : z < x
              · simp [hxz, hzx] at h2
              · simp only [hxy, hxz, hzx, if_false] at h1 h2 ⊢
                exact ih ys zs h1 h2

theorem lexLess_total (a : List Int) :
    ∀ b : List Int, lexLess b a = false → a = b ∨ lexLess a b = true := by
  induction a with
  | nil =>
    intro b _
    cases b with
    | nil => exact Or.inl rfl
    | cons y ys => exact Or.inr rfl
  | cons x xs ih =>
    intro b h
    cases b with
    | nil => simp [lexLess] at h
    | cons y ys =>
      unfold lexLess at h ⊢
      by_cases hyx : y < x
      · simp [hyx] at h
      · by_cases hxy : x < y
        · exact Or.inr (by rw [if_pos hxy])
        · obtain rfl : x = y := by omega
          simp only [hyx, if_false] at h ⊢
          rcases ih ys h with rfl | h'
          · exact Or.inl rfl
          · exact Or.inr h'

theorem mem_insertCandidate (c d : Word × List Int) (l : List (Word × List Int)) :
    d ∈ insertCandidate c l ↔ d = c ∨ d ∈ l := by
  induction l with
  | nil => simp [insertCandidate]
  | cons e es ih =>
    unfold insertCandidate
    split
    · simp
    · simp only [List.mem_cons, ih]
      tauto

theorem headMinimal_insertCandidate (c : Word × List Int) (l : List (Word × List Int))
    (h : HeadMinimal l) : HeadMinimal (insertCandidate c l) := by
  cases l with
  | nil =>
    intro best rest hb d hd
    simp only [insertCandidate, List.cons.injEq] at hb
    simp only [insertCandidate, List.mem_singleton] at hd
    rw [hd, ← hb.1]
    exact lexLess_irrefl _
  | cons e es =>
    intro best rest hb d hd
    unfold insertCandidate at hb hd
    by_cases hce : lexLess c.2 e.2 = true
    · rw [if_pos hce] at hb hd
      obtain ⟨rfl, -⟩ := List.cons.inj hb
      rcases List.mem_cons.1 hd with rfl | hd'
      · exact lexLess_irrefl _
      · have hde := h e es rfl d hd'
        by_contra hlt
        have hlt' : lexLess d.2 c.2 = true := by simpa using hlt
        rw [lexLess_trans _ _ _ hlt' hce] at hde
        cases hde
    · rw [if_neg hce] at hb hd
      obtain ⟨rfl, -⟩ := List.cons.inj hb
      rcases List.mem_cons.1 hd with rfl | hd'
      · exact lexLess_irrefl _
      · rcases (mem_insertCandidate c d es).1 hd' with rfl | hd''
        · simpa using hce
        · exact h e es rfl d (List.mem_cons_of_mem _ hd'')

theorem sortCandidates_foldl (l : List (Word × List Int)) :
    ∀ acc : List (Word × List Int), HeadMinimal acc →
      HeadMinimal (l.foldl (fun acc c => insertCandidate c acc) acc) ∧
      ∀ d, d ∈ l.foldl (fun acc c => insertCandidate c acc) acc ↔ d ∈ acc ∨ d ∈ l := by
  induction l with
  | nil =>
    intro acc h
    exact ⟨h, by simp⟩
  | cons c cs ih =>
    intro acc h
    obtain ⟨h1, h2⟩ := ih (insertCandidate c acc) (headMinimal_insertCandidate c acc h)
    refine ⟨h1, ?_⟩
    intro d
    rw [List.foldl_cons, h2, mem_insertCandidate, List.mem_cons]
    tauto

/-- The first candidate after the sort is one of the candidates and none has a smaller
score vector. -/
theorem sortCandidates_head (l : List (Word × List Int)) (hne : l ≠ []) :
    ∃ best rest, sortCandidates l = best :: rest ∧ best ∈ l ∧
      ∀ d ∈ l, lexLess d.2 best.2 = false := by
  obtain ⟨h1, h2⟩ := sortCandidates_foldl l [] (by intro b r hb; cases hb)
  cases hs : sortCandidates l with
  | nil =>
    exfalso
    obtain ⟨x, hx⟩ := List.exists_mem_of_ne_nil l hne
    have : x ∈ sortCandidates l := (h2 x).2 (Or.inr hx)
    rw [hs] at this
    cases this
  | cons best rest =>
    refine ⟨best, rest, rfl, ?_, ?_⟩
    · have : best ∈ sortCandidates l := by rw [hs]; exact List.mem_cons_self _ _
      rcases (h2 best).1 this with h | h
      · cases h
      · exact h
    · intro d hd
      exact h1 best rest hs d ((h2 d).2 (Or.inr hd))

/-! ## One round -/

theorem short_matched (w : Word) : ∀ b, shortFrom b w = true → matchedFrom b w = true := by
  induction w with
  | nil => intro b h; simpa [shortFrom, matchedFrom] using h
  | cons s rest ih =>
    intro b h
    rcases b with _ | _ <;> rcases hL : s.hasLeftParenthesis with _ | _ <;>
      rcases hR : s.hasRightParenthesis with _ | _ <;>
      simp [shortFrom, matchedFrom, hL, hR] at h ⊢ <;> exact ih _ h

theorem wellFormed_of_short (w : Word) (h : wellFormedShort w = true) : wellFormed w = true :=
  short_matched w false h

theorem footFree_short (w : Word) (h : footFree w = true) : wellFormedShort w = true := by
  unfold wellFormedShort
  induction w with
  | nil => rfl
  | cons s rest ih =>
    simp only [footFree, List.all_cons, Bool.and_eq_true, Bool.not_eq_true'] at h
    simp only [shortFrom, h.1.1, h.1.2]
    simpa using ih h.2

theorem mem_newFootWords_footWord (w cand : Word) :
    cand ∈ newFootWords w ↔
      ∃ l r mask, l ≤ r ∧ r ≤ l + 1 ∧ r < w.length ∧
        hasLeftAt w l = false ∧ hasRightAt w l = false ∧
        hasLeftAt w r = false ∧ hasRightAt w r = false ∧
        mask ∈ ((List.range (1 <<< (r - l + 1))).filter fun mask => mask ≠ 0) ∧
        cand = footWord w l r mask := by
  unfold newFootWords
  simp only [List.mem_flatMap, List.mem_range, List.mem_range'_1]
  constructor
  · rintro ⟨l, hl, r, ⟨hlr, hrn⟩, hmem⟩
    unfold footWords at hmem
    by_cases hlen : r - l + 1 > 2
    · simp [hlen] at hmem
    · rw [if_neg hlen] at hmem
      by_cases hflag : (hasLeftAt w l || hasRightAt w l || hasLeftAt w r || hasRightAt w r) = true
      · simp [hflag] at hmem
      · rw [if_neg hflag] at hmem
        simp only [Bool.or_eq_true, not_or, Bool.not_eq_true] at hflag
        obtain ⟨mask, hmask, rfl⟩ := List.mem_map.1 hmem
        exact ⟨l, r, mask, hlr, by omega, by omega, hflag.1.1.1, hflag.1.1.2, hflag.1.2,
          hflag.2, hmask, rfl⟩
  · rintro ⟨l, r, mask, hlr, hr, hrn, h1, h2, h3, h4, hmask, rfl⟩
    refine ⟨l, by omega, r, ⟨hlr, by omega⟩, ?_⟩
    unfold footWords
    rw [if_neg (by omega), if_neg (by simp [h1, h2, h3, h4])]
    exact List.mem_map.2 ⟨mask, hmask, rfl⟩

theorem footWord_zero_zero (s : Syllable) (w : Word) (mask : Nat) :
    footWord (s :: w) 0 0 mask = Syllable.mk s.weight true true (mask.testBit 0) :: w := by
  have r1 : List.range 1 = [0] := rfl
  simp [footWord, r1, List.modify, List.modifyHead]

theorem footWord_zero_one (s t : Syllable) (w : Word) (mask : Nat) :
    footWord (s :: t :: w) 0 1 mask =
      Syllable.mk s.weight true s.hasRightParenthesis (mask.testBit 0) ::
      Syllable.mk t.weight t.hasLeftParenthesis true (mask.testBit 1) :: w := by
  have r2 : List.range 2 = [0, 1] := rfl
  simp [footWord, r2, List.modify, List.modifyHead]

theorem footWord_succ (s : Syllable) (w : Word) (l r mask : Nat) (hlr : l ≤ r)
    (hr : r ≤ l + 1) :
    footWord (s :: w) (l + 1) (r + 1) mask = s :: footWord w l r mask := by
  have r1 : List.range 1 = [0] := rfl
  have r2 : List.range 2 = [0, 1] := rfl
  have hcase : r = l ∨ r = l + 1 := by omega
  rcases hcase with rfl | rfl
  · simp [footWord, r1]
  · have e : l + 1 - l + 1 = 2 := by omega
    have e' : l + 1 + 1 - (l + 1) + 1 = 2 := by omega
    simp only [footWord, e, e', r2, List.foldl_cons, List.foldl_nil, List.modify_succ_cons,
      Nat.add_zero]

/-- Adding a foot on an unflagged span keeps the brackets matched with feet of length 1 or
2, flags `r - l + 1` more syllables, and changes the word. -/
theorem footWord_short (mask : Nat) :
    ∀ (l : Nat) (w : Word) (r : Nat), l ≤ r → r ≤ l + 1 → r < w.length →
      hasLeftAt w l = false → hasRightAt w l = false →
      hasLeftAt w r = false → hasRightAt w r = false →
      (∀ b, shortFrom b w = true → shortFrom b (footWord w l r mask) = true) ∧
      flagCount (footWord w l r mask) = flagCount w + (r - l + 1) ∧
      footWord w l r mask ≠ w := by
  intro l
  induction l with
  | zero =>
    intro w r hlr hr hrn h1 h2 h3 h4
    cases w with
    | nil => simp at hrn
    | cons s rest =>
      simp only [hasLeftAt_zero, hasRightAt_zero] at h1 h2
      have hcase : r = 0 ∨ r = 1 := by omega
      rcases hcase with rfl | rfl
      · rw [footWord_zero_zero]
        refine ⟨?_, ?_, ?_⟩
        · intro b hb
          rcases b with _ | _ <;> simp [shortFrom, h1, h2] at hb ⊢
          exact hb
        · simp [flagCount, flagged, List.countP_cons, h1, h2]
        · intro heq
          have := (List.cons.inj heq).1
          rw [← this] at h1
          cases h1
      · cases rest with
        | nil => simp at hrn
        | cons t rest' =>
          simp only [hasLeftAt_succ, hasRightAt_succ, hasLeftAt_zero, hasRightAt_zero] at h3 h4
          rw [footWord_zero_one]
          refine ⟨?_, ?_, ?_⟩
          · intro b hb
            rcases b with _ | _ <;> simp [shortFrom, h1, h2, h3, h4] at hb ⊢
            exact hb
          · simp [flagCount, flagged, List.countP_cons, h1, h2, h3, h4]
          · intro heq
            have := (List.cons.inj heq).1
            rw [← this] at h1
            cases h1
  | succ l ih =>
    intro w r hlr hr hrn h1 h2 h3 h4
    cases w with
    | nil => simp at hrn
    | cons s rest =>
      obtain ⟨r', rfl⟩ : ∃ r', r = r' + 1 := ⟨r - 1, by omega⟩
      simp only [hasLeftAt_succ, hasRightAt_succ] at h1 h2 h3 h4
      obtain ⟨ih1, ih2, ih3⟩ := ih rest r' (by omega) (by omega) (by simpa using hrn) h1 h2 h3 h4
      rw [footWord_succ s rest l r' mask (by omega) (by omega)]
      refine ⟨?_, ?_, ?_⟩
      · intro b hb
        rcases b with _ | _ <;> rcases hL : s.hasLeftParenthesis with _ | _ <;>
          rcases hR : s.hasRightParenthesis with _ | _ <;>
          simp [shortFrom, hL, hR] at hb ⊢ <;> exact ih1 _ hb
      · simp only [flagCount, List.countP_cons] at ih2 ⊢
        omega
      · intro heq
        exact ih3 (List.cons.inj heq).2

/-- Every candidate of a round is the input word or the input word with one more foot on
an unflagged span of one or two syllables. -/
theorem mem_candidates_cases (w cand : Word) (h : cand ∈ newFootWords w ++ [w]) :
    cand = w ∨ ∃ l r mask, l ≤ r ∧ r ≤ l + 1 ∧ r < w.length ∧
        hasLeftAt w l = false ∧ hasRightAt w l = false ∧
        hasLeftAt w r = false ∧ hasRightAt w r = false ∧ cand = footWord w l r mask := by
  rcases List.mem_append.1 h with h | h
  · obtain ⟨l, r, mask, a1, a2, a3, a4, a5, a6, a7, -, a9⟩ :=
      (mem_newFootWords_footWord w cand).1 h
    exact Or.inr ⟨l, r, mask, a1, a2, a3, a4, a5, a6, a7, a9⟩
  · exact Or.inl (List.mem_singleton.1 h)

/-- The generator keeps the brackets matched and the feet of length 1 or 2. -/
theorem candidate_short (w cand : Word) (hw : wellFormedShort w = true)
    (h : cand ∈ newFootWords w ++ [w]) : wellFormedShort cand = true := by
  rcases mem_candidates_cases w cand h with rfl | ⟨l, r, mask, a1, a2, a3, a4, a5, a6, a7, rfl⟩
  · exact hw
  · exact (footWord_short mask l w r a1 a2 a3 a4 a5 a6 a7).1 false hw

theorem footWord_length (w : Word) (l r mask : Nat) (hlr : l ≤ r) (hr : r ≤ l + 1) :
    (footWord w l r mask).length = w.length :=
  (footWord_addsFoot w l r mask hlr hr).1

theorem candidate_length (w cand : Word) (h : cand ∈ newFootWords w ++ [w]) :
    cand.length = w.length := by
  rcases mem_candidates_cases w cand h with rfl | ⟨l, r, mask, a1, a2, -, -, -, -, -, rfl⟩
  · rfl
  · exact footWord_length w l r mask a1 a2

theorem unparsedMarks_zero_one (w : Word) : ∀ x ∈ unparsedMarks w, x = 0 ∨ x = 1 := by
  intro x hx
  obtain ⟨s, -, rfl⟩ := List.mem_map.1 hx
  split
  · exact Or.inr rfl
  · exact Or.inl rfl

/-- On a matched word the four constraints return 0/1 sequences of the length of the
word, and `candidateScore` is the list of their scores. -/
theorem constraints_some (w : Word) (h : wellFormed w = true) :
    ∃ t p i r, Trochee w = some t ∧ ParseLeft w = some p ∧ Iamb w = some i ∧
      ParseRight w = some r ∧
      candidateScore constraints w = some [score t, score p, score i, score r] ∧
      (∀ v ∈ [t, p, i, r], v.length = w.length ∧ ∀ x ∈ v, x = 0 ∨ x = 1) := by
  obtain ⟨fs, vt, hfs, hvt, hlent, hyest, hnot⟩ := footConstraint_spec trocheeBad w h
  obtain ⟨fs', vi, hfs', hvi, hleni, hyesi, hnoi⟩ := footConstraint_spec iambBad w h
  have hT : Trochee w = some vt := by simp only [Trochee, hfs, hvt]
  have hI : Iamb w = some vi := by simp only [Iamb, hfs', hvi]
  have hP : ParseLeft w = some (unparsedMarks w) := by simp only [ParseLeft, hfs]
  have hR : ParseRight w = some (unparsedMarks w).reverse := by simp only [ParseRight, hfs]
  have h01 : ∀ (bad2 : Syllable → Syllable → Bool) (v : List Int), v.length = w.length →
      (∀ j : Nat, (∃ l r, IsFoot w l r ∧ footViolates bad2 w l r = true ∧ l ≤ j ∧ j ≤ r) →
        v[j]? = some 1) →
      (∀ j : Nat, j < w.length →
        (¬ ∃ l r, IsFoot w l r ∧ footViolates bad2 w l r = true ∧ l ≤ j ∧ j ≤ r) →
        v[j]? = some 0) → ∀ x ∈ v, x = 0 ∨ x = 1 := by
    intro bad2 v hlen hyes hno x hx
    obtain ⟨j, hj, rfl⟩ := List.getElem_of_mem hx
    have hget : v[j]? = some v[j] := List.getElem?_eq_getElem hj
    rcases (footConstraint_zero_one bad2 w v hyes hno j (by omega)).2 with h1 | h0
    · rw [hget] at h1
      exact Or.inr (Option.some.inj h1)
    · rw [hget] at h0
      exact Or.inl (Option.some.inj h0)
  refine ⟨vt, unparsedMarks w, vi, (unparsedMarks w).reverse, hT, hP, hI, hR, ?_, ?_⟩
  · simp [candidateScore, constraints, optMap, hT, hP, hI, hR]
  · intro v hv
    simp only [List.mem_cons, List.mem_singleton, List.not_mem_nil, or_false] at hv
    rcases hv with rfl | rfl | rfl | rfl
    · exact ⟨hlent, h01 trocheeBad _ hlent hyest hnot⟩
    · exact ⟨by simp [unparsedMarks], unparsedMarks_zero_one w⟩
    · exact ⟨hleni, h01 iambBad _ hleni hyesi hnoi⟩
    · refine ⟨by simp [unparsedMarks], ?_⟩
      intro x hx
      exact unparsedMarks_zero_one w x (List.mem_reverse.1 hx)

/-- One round on a word with matched feet of length 1 or 2: no access fails, the result is
a candidate, and no candidate has a smaller score vector for the comparator. -/
theorem SerialOT_spec (w : Word) (h : wellFormedShort w = true) :
    ∃ best sc, SerialOT w constraints = some best ∧ best ∈ newFootWords w ++ [w] ∧
      candidateScore constraints best = some sc ∧
      ∀ cand ∈ newFootWords w ++ [w], ∃ sc', candidateScore constraints cand = some sc' ∧
        lexLess sc' sc = false := by
  have hsome : ∀ cand ∈ newFootWords w ++ [w],
      ∃ sc, candidateScore constraints cand = some sc := by
    intro cand hc
    obtain ⟨t, p, i, r, -, -, -, -, hsc, -⟩ :=
      constraints_some cand (wellFormed_of_short cand (candidate_short w cand h hc))
    exact ⟨_, hsc⟩
  have hcands : candidates w constraints = some ((newFootWords w ++ [w]).map
      fun cand => (cand, (candidateScore constraints cand).getD [])) := by
    unfold candidates
    rw [candidateWords_eq]
    apply optMap_eq
    intro cand hc
    obtain ⟨sc, hsc⟩ := hsome cand hc
    simp [hsc]
  obtain ⟨best, rest, hsort, hmem, hmin⟩ := sortCandidates_head
    ((newFootWords w ++ [w]).map fun cand => (cand, (candidateScore constraints cand).getD []))
    (by simp)
  obtain ⟨bw, hbw, rfl⟩ := List.mem_map.1 hmem
  obtain ⟨sc, hsc⟩ := hsome bw hbw
  refine ⟨bw, sc, ?_, hbw, hsc, ?_⟩
  · simp only [SerialOT, hcands, hsort]
  · intro cand hc
    obtain ⟨sc', hsc'⟩ := hsome cand hc
    refine ⟨sc', hsc', ?_⟩
    have := hmin (cand, (candidateScore constraints cand).getD []) (List.mem_map.2 ⟨cand, hc, rfl⟩)
    simpa [hsc, hsc'] using this

/-! ## Feet, flags and the driver loop -/

@[simp] theorem flagAt_zero (s : Syllable) (w : Word) : flagAt (s :: w) 0 = flagged s := by
  simp [flagAt, flagged]

@[simp] theorem flagAt_succ (s : Syllable) (w : Word) (i : Nat) :
    flagAt (s :: w) (i + 1) = flagAt w i := by
  simp [flagAt]

/-- On a word accepted by the short scan every foot has one or two syllables. -/
theorem short_feet (w : Word) :
    (shortFrom false w = true → ∀ l r, IsFoot w l r → r ≤ l + 1) ∧
    (shortFrom true w = true →
      (∀ l r, IsFoot w l r → r ≤ l + 1) ∧ ∀ k, ClosesAt w k → k = 0) := by
  induction w with
  | nil =>
    refine ⟨fun _ l r hf => ?_, fun h => ?_⟩
    · have := hf.2.1
      simp at this
    · simp [shortFrom] at h
  | cons s rest ih =>
    constructor
    · intro h l r hf
      rcases hL : s.hasLeftParenthesis with _ | _ <;>
        rcases hR : s.hasRightParenthesis with _ | _ <;>
        simp [shortFrom, hL, hR] at h
      · rcases l with _ | l
        · rcases r with _ | r
          · rw [isFoot_zero_zero] at hf; simp [hL] at hf
          · rw [isFoot_zero_succ] at hf; simp [hL] at hf
        · rcases r with _ | r
          · exact absurd hf (isFoot_succ_zero s rest l)
          · have := ih.1 h l r ((isFoot_succ_succ s rest l r).1 hf)
            omega
      · rcases l with _ | l
        · rcases r with _ | r
          · omega
          · rw [isFoot_zero_succ] at hf
            have := (ih.2 h).2 r hf.2.2
            omega
        · rcases r with _ | r
          · exact absurd hf (isFoot_succ_zero s rest l)
          · have := (ih.2 h).1 l r ((isFoot_succ_succ s rest l r).1 hf)
            omega
      · rcases l with _ | l
        · rcases r with _ | r
          · omega
          · rw [isFoot_zero_succ] at hf; simp [hR] at hf
        · rcases r with _ | r
          · exact absurd hf (isFoot_succ_zero s rest l)
          · have := ih.1 h l r ((isFoot_succ_succ s rest l r).1 hf)
            omega
    · intro h
      simp only [shortFrom, Bool.and_eq_true, Bool.not_eq_true'] at h
      obtain ⟨⟨hL, hR⟩, h⟩ := h
      constructor
      · intro l r hf
        rcases l with _ | l
        · rcases r with _ | r
          · omega
          · rw [isFoot_zero_succ] at hf; simp [hL] at hf
        · rcases r with _ | r
          · exact absurd hf (isFoot_succ_zero s rest l)
          · have := ih.1 h l r ((isFoot_succ_succ s rest l r).1 hf)
            omega
      · intro k hk
        rcases k with _ | k
        · rfl
        · rw [closesAt_succ] at hk; simp [hR] at hk

/-- On a word accepted by the short scan every flagged syllable lies in a foot. -/
theorem short_flag_inFoot (w : Word) :
    (shortFrom false w = true →
      ∀ i, flagAt w i = true → ∃ l r, IsFoot w l r ∧ l ≤ i ∧ i ≤ r) ∧
    (shortFrom true w = true →
      ClosesAt w 0 ∧
      ∀ i, flagAt w i = true → i = 0 ∨ ∃ l r, IsFoot w l r ∧ l ≤ i ∧ i ≤ r) := by
  induction w with
  | nil =>
    refine ⟨fun _ i hi => ?_, fun h => ?_⟩
    · simp [flagAt, hasLeftAt, hasRightAt] at hi
    · simp [shortFrom] at h
  | cons s rest ih =>
    have shift : ∀ i, (∃ l r, IsFoot rest l r ∧ l ≤ i ∧ i ≤ r) →
        ∃ l r, IsFoot (s :: rest) l r ∧ l ≤ i + 1 ∧ i + 1 ≤ r := by
      rintro i ⟨l, r, hf, h1, h2⟩
      exact ⟨l + 1, r + 1, (isFoot_succ_succ s rest l r).2 hf, by omega, by omega⟩
    constructor
    · intro h i hi
      rcases hL : s.hasLeftParenthesis with _ | _ <;>
        rcases hR : s.hasRightParenthesis with _ | _ <;>
        simp [shortFrom, hL, hR] at h
      · rcases i with _ | i
        · simp [flagged, hL, hR] at hi
        · rw [flagAt_succ] at hi
          exact shift i (ih.1 h i hi)
      · obtain ⟨hc, hflag⟩ := ih.2 h
        have hfoot : IsFoot (s :: rest) 0 1 := (isFoot_zero_succ s rest 0).2 ⟨hL, hR, hc⟩
        rcases i with _ | i
        · exact ⟨0, 1, hfoot, by omega, by omega⟩
        · rw [flagAt_succ] at hi
          rcases hflag i hi with rfl | hex
          · exact ⟨0, 1, hfoot, by omega, by omega⟩
          · exact shift i hex
      · rcases i with _ | i
        · exact ⟨0, 0, (isFoot_zero_zero s rest).2 ⟨hL, hR⟩, by omega, by omega⟩
        · rw [flagAt_succ] at hi
          exact shift i (ih.1 h i hi)
    · intro h
      simp only [shortFrom, Bool.and_eq_true, Bool.not_eq_true'] at h
      obtain ⟨⟨hL, hR⟩, h⟩ := h
      refine ⟨(closesAt_zero s rest).2 ⟨hL, hR⟩, ?_⟩
      intro i hi
      rcases i with _ | i
      · exact Or.inl rfl
      · rw [flagAt_succ] at hi
        exact Or.inr (shift i (ih.1 h i hi))

/-- With matched feet of length 1 or 2, a syllable lies in a foot exactly when it carries
a boundary flag. -/
theorem short_inFoot_iff (w : Word) (h : wellFormedShort w = true) (i : Nat) :
    InFoot w i ↔ flagAt w i = true := by
  constructor
  · rintro ⟨l, -, r, -, hf, hli, hir⟩
    have hshort := (short_feet w).1 h l r hf
    have hcase : i = l ∨ i = r := by omega
    rcases hcase with rfl | rfl
    · simp [flagAt, hf.2.2.1]
    · simp [flagAt, hf.2.2.2.1]
  · intro hi
    obtain ⟨l, r, hf, hli, hir⟩ := (short_flag_inFoot w).1 h i hi
    exact ⟨l, by have := hf.1; have := hf.2.1; omega, r, hf.2.1, hf, hli, hir⟩

theorem countP_flagAt (w : Word) :
    (List.range w.length).countP (fun i => flagAt w i) = flagCount w := by
  induction w with
  | nil => rfl
  | cons s rest ih =>
    rw [List.length_cons, List.range_succ_eq_map, List.countP_cons, List.countP_map]
    simp only [flagCount, List.countP_cons] at ih ⊢
    rw [← ih]
    simp [Function.comp_def]

/-- With matched feet of length 1 or 2, the syllables in feet are the flagged ones. -/
theorem parsedCount_eq_flagCount (w : Word) (h : wellFormedShort w = true) :
    parsedCount w = flagCount w := by
  rw [← countP_flagAt]
  unfold parsedCount
  apply List.countP_congr
  intro i _
  simp [short_inFoot_iff w h i]

theorem parsedCount_le (w : Word) : parsedCount w ≤ w.length := by
  unfold parsedCount
  have := List.countP_le_length (fun i => decide (InFoot w i)) (l := List.range w.length)
  simpa using this

/-- What one round does to a word with matched feet of length 1 or 2: it returns the word
itself, or a word of the same kind and length with one or two more syllables in feet. -/
theorem SerialOT_step (w : Word) (h : wellFormedShort w = true) :
    ∃ best, SerialOT w constraints = some best ∧
      (best = w ∨
        (best ≠ w ∧ wellFormedShort best = true ∧ best.length = w.length ∧
          (parsedCount best = parsedCount w + 1 ∨ parsedCount best = parsedCount w + 2))) := by
  obtain ⟨best, sc, hS, hmem, -, -⟩ := SerialOT_spec w h
  refine ⟨best, hS, ?_⟩
  rcases mem_candidates_cases w best hmem with rfl | ⟨l, r, mask, a1, a2, a3, a4, a5, a6, a7, rfl⟩
  · exact Or.inl rfl
  · obtain ⟨hs, hc, hne⟩ := footWord_short mask l w r a1 a2 a3 a4 a5 a6 a7
    have hshort : wellFormedShort (footWord w l r mask) = true := hs false h
    refine Or.inr ⟨hne, hshort, footWord_length w l r mask a1 a2, ?_⟩
    rw [parsedCount_eq_flagCount _ hshort, parsedCount_eq_flagCount w h, hc]
    omega

/-- With matched feet of length 1 or 2, `ParseLeft` marks exactly the syllables that lie
in no foot. -/
theorem ParseLeft_short_spec (w : Word) (h : wellFormedShort w = true) :
    ∃ v, ParseLeft w = some v ∧ v.length = w.length ∧
      ∀ i, i < w.length → (v[i]? = some 1 ↔ ¬ InFoot w i) ∧ (v[i]? = some 0 ↔ InFoot w i) := by
  obtain ⟨fs, hfs, -⟩ := findLocation_spec w (wellFormed_of_short w h)
  refine ⟨unparsedMarks w, by simp only [ParseLeft, hfs], by simp [unparsedMarks], ?_⟩
  intro i hi
  rw [short_inFoot_iff w h i]
  have hs : w[i]? = some w[i] := List.getElem?_eq_getElem hi
  simp only [unparsedMarks, List.getElem?_map, hs, Option.map_some', flagAt, hasLeftAt,
    hasRightAt]
  rcases w[i].hasLeftParenthesis with _ | _ <;> rcases w[i].hasRightParenthesis with _ | _ <;>
    simp

/-- The driver loop halts within `m + 1` rounds when at most `m` syllables are unparsed,
after at most `m` replacements, and more fuel does not change the outcome. -/
theorem driverLoop_halts :
    ∀ (m : Nat) (v : Word) (k : Nat), wellFormedShort v = true →
      v.length - parsedCount v ≤ m →
      ∃ v' k', k' ≤ k + m ∧
        ∀ fuel, m + 1 ≤ fuel → driverLoop fuel v k = DriverResult.halted v' k' := by
  intro m
  induction m with
  | zero =>
    intro v k hv hm
    obtain ⟨best, hS, hbest⟩ := SerialOT_step v hv
    have hle := parsedCount_le best
    have heq : best = v := by
      rcases hbest with rfl | ⟨-, -, hlen, hcount⟩
      · rfl
      · omega
    subst heq
    refine ⟨best, k, by omega, ?_⟩
    intro fuel hfuel
    obtain ⟨f, rfl⟩ : ∃ f, fuel = f + 1 := ⟨fuel - 1, by omega⟩
    simp [driverLoop, hS]
  | succ m ih =>
    intro v k hv hm
    obtain ⟨best, hS, hbest⟩ := SerialOT_step v hv
    by_cases hprint : printInfo best = printInfo v
    · refine ⟨v, k, by omega, ?_⟩
      intro fuel hfuel
      obtain ⟨f, rfl⟩ : ∃ f, fuel = f + 1 := ⟨fuel - 1, by omega⟩
      simp [driverLoop, hS, hprint]
    · have hne : best ≠ v := fun e => hprint (by rw [e])
      rcases hbest with rfl | ⟨-, hshort, hlen, hcount⟩
      · exact absurd rfl hne
      · have hle := parsedCount_le best
        obtain ⟨v', k', hk', hrun⟩ := ih best (k + 1) hshort (by omega)
        refine ⟨v', k', by omega, ?_⟩
        intro fuel hfuel
        obtain ⟨f, rfl⟩ : ∃ f, fuel = f + 1 := ⟨fuel - 1, by omega⟩
        simp only [driverLoop, hS, hprint, if_false]
        exact hrun f (by omega)

theorem shortFrom_of_matched (w : Word) :
    (matchedFrom false w = true → (∀ l r, IsFoot w l r → r ≤ l + 1) →
      shortFrom false w = true) ∧
    (matchedFrom true w = true → (∀ l r, IsFoot w l r → r ≤ l + 1) →
      (∀ k, ClosesAt w k → k = 0) → shortFrom true w = true) := by
  induction w with
  | nil => simp [matchedFrom, shortFrom]
  | cons s rest ih =>
    have shift : (∀ l r, IsFoot (s :: rest) l r → r ≤ l + 1) →
        ∀ l r, IsFoot rest l r → r ≤ l + 1 := by
      intro h l r hf
      have := h (l + 1) (r + 1) ((isFoot_succ_succ s rest l r).2 hf)
      omega
    constructor
    · intro hm hfeet
      rcases hL : s.hasLeftParenthesis with _ | _ <;>
        rcases hR : s.hasRightParenthesis with _ | _ <;>
        simp [matchedFrom, shortFrom, hL, hR] at hm ⊢
      · exact ih.1 hm (shift hfeet)
      · refine ih.2 hm (shift hfeet) ?_
        intro k hk
        have := hfeet 0 (k + 1) ((isFoot_zero_succ s rest k).2 ⟨hL, hR, hk⟩)
        omega
      · exact ih.1 hm (shift hfeet)
    · intro hm hfeet hclose
      rcases hL : s.hasLeftParenthesis with _ | _ <;>
        rcases hR : s.hasRightParenthesis with _ | _ <;>
        simp [matchedFrom, shortFrom, hL, hR] at hm ⊢
      · obtain ⟨⟨k, hk⟩, -⟩ := (matchedFrom_iff rest).2.1 hm
        have := hclose (k + 1) ((closesAt_succ s rest k).2 ⟨hL, hR, hk⟩)
        omega
      · exact ih.1 hm (shift hfeet)

/-- `wellFormedShort` holds exactly when the flags are matched and every foot has one or
two syllables. -/
theorem wellFormedShort_iff (w : Word) :
    wellFormedShort w = true ↔ Matched w ∧ ∀ l r, IsFoot w l r → r ≤ l + 1 := by
  constructor
  · intro h
    exact ⟨(wellFormed_iff w).1 (wellFormed_of_short w h), (short_feet w).1 h⟩
  · rintro ⟨hm, hfeet⟩
    exact (shortFrom_of_matched w).1 ((wellFormed_iff w).2 hm) hfeet

/-- A word is foot-free exactly when no syllable carries a boundary flag. -/
theorem footFree_iff (w : Word) : footFree w = true ↔ ∀ i, flagAt w i = false := by
  induction w with
  | nil => simp [footFree, flagAt, hasLeftAt_nil, hasRightAt_nil]
  | cons s rest ih =>
    have hstep : footFree (s :: rest) = (!flagged s && footFree rest) := by
      simp [footFree, flagged]
    rw [hstep, Bool.and_eq_true, ih]
    constructor
    · rintro ⟨h1, h2⟩ i
      rcases i with _ | i
      · simpa using h1
      · simpa using h2 i
    · intro h
      exact ⟨by simpa using h 0, fun i => by simpa using h (i + 1)⟩

/-! ## The printable form -/

theorem printChars_head (w : Word) (h : weightsLH w) : (printChars w).head? ≠ some ')' := by
  cases w with
  | nil => simp [printChars]
  | cons s rest =>
    obtain ⟨wt, l, r, st⟩ := s
    have hw : wt = 'L' ∨ wt = 'H' := h _ (List.mem_cons_self _ _)
    rcases hw with rfl | rfl <;> rcases l with _ | _ <;> rcases st with _ | _ <;>
      simp [printChars, printSyllable]

/-- The printable form of one syllable can be read back when what follows does not start
with a closing parenthesis. -/
theorem printSyllable_inj (s t : Syllable) (X Y : List Char)
    (hs : s.weight = 'L' ∨ s.weight = 'H') (ht : t.weight = 'L' ∨ t.weight = 'H')
    (hX : X.head? ≠ some ')') (hY : Y.head? ≠ some ')')
    (h : printSyllable s ++ X = printSyllable t ++ Y) : s = t ∧ X = Y := by
  obtain ⟨w1, l1, r1, s1⟩ := s
  obtain ⟨w2, l2, r2, s2⟩ := t
  simp only at hs ht
  rcases hs with rfl | rfl <;> rcases ht with rfl | rfl <;>
    rcases l1 with _ | _ <;> rcases l2 with _ | _ <;>
    rcases s1 with _ | _ <;> rcases s2 with _ | _ <;>
    rcases r1 with _ | _ <;> rcases r2 with _ | _ <;>
    simp [printSyllable] at h ⊢ <;>
    first
      | exact h
      | (subst h; exact hX rfl)
      | (subst h; exact hY rfl)

theorem printChars_injective (a : Word) :
    ∀ b : Word, weightsLH a → weightsLH b → printChars a = printChars b → a = b := by
  induction a with
  | nil =>
    intro b _ hb h
    cases b with
    | nil => rfl
    | cons t rest =>
      exfalso
      obtain ⟨wt, l, r, st⟩ := t
      rcases l with _ | _ <;> rcases st with _ | _ <;> simp [printChars, printSyllable] at h
  | cons s rest ih =>
    intro b ha hb h
    cases b with
    | nil =>
      exfalso
      obtain ⟨wt, l, r, st⟩ := s
      rcases l with _ | _ <;> rcases st with _ | _ <;> simp [printChars, printSyllable] at h
    | cons t rest' =>
      have ha' : weightsLH rest := fun x hx => ha x (List.mem_cons_of_mem _ hx)
      have hb' : weightsLH rest' := fun x hx => hb x (List.mem_cons_of_mem _ hx)
      obtain ⟨h1, h2⟩ := printSyllable_inj s t _ _ (ha s (List.mem_cons_self _ _))
        (hb t (List.mem_cons_self _ _)) (printChars_head rest ha') (printChars_head rest' hb') h
      rw [h1, ih rest' ha' hb' h2]

theorem printInfo_eq_iff (a b : Word) (ha : weightsLH a) (hb : weightsLH b) :
    printInfo a = printInfo b ↔ a = b := by
  constructor
  · intro h
    have : printChars a = printChars b := congrArg String.data h
    exact printChars_injective a b ha hb this
  · intro h
    rw [h]

theorem optMap_mem {α β : Type} (f : α → Option β) :
    ∀ (xs : List α) (ys : List β), optMap f xs = some ys →
      ∀ y ∈ ys, ∃ x ∈ xs, f x = some y := by
  intro xs
  induction xs with
  | nil =>
    intro ys h y hy
    simp only [optMap, Option.some.injEq] at h
    subst h
    cases hy
  | cons a as ih =>
    intro ys h y hy
    unfold optMap at h
    cases hfa : f a with
    | none => simp [hfa] at h
    | some x =>
      cases hrest : optMap f as with
      | none => simp [hfa, hrest] at h
      | some zs =>
        simp only [hfa, hrest, Option.some.injEq] at h
        subst h
        rcases List.mem_cons.1 hy with rfl | hy'
        · exact ⟨a, List.mem_cons_self _ _, hfa⟩
        · obtain ⟨x', hx', hfx'⟩ := ih zs hrest y hy'
          exact ⟨x', List.mem_cons_of_mem _ hx', hfx'⟩

theorem mem_sortCandidates (l : List (Word × List Int)) (d : Word × List Int) :
    d ∈ sortCandidates l ↔ d ∈ l := by
  have := (sortCandidates_foldl l [] (by intro b r hb; cases hb)).2 d
  simpa [sortCandidates] using this

/-- Whatever the word and the constraint list, the word a round returns is one of the
generated candidates, and its score vector was computed without fault. -/
theorem SerialOT_mem (w : Word) (cs : List (Word → Option (List Int))) (ret : Word)
    (h : SerialOT w cs = some ret) :
    ret ∈ newFootWords w ++ [w] ∧ ∃ sc, candidateScore cs ret = some sc := by
  unfold SerialOT at h
  cases hc : candidates w cs with
  | none => simp [hc] at h
  | some l =>
    cases hs : sortCandidates l with
    | nil => simp [hc, hs] at h
    | cons best rest =>
      simp only [hc, hs, Option.some.injEq] at h
      subst h
      have hmem : best ∈ l := (mem_sortCandidates l best).1 (by rw [hs]; exact List.mem_cons_self _ _)
      unfold candidates at hc
      rw [candidateWords_eq] at hc
      obtain ⟨x, hx, hfx⟩ := optMap_mem _ _ _ hc best hmem
      cases hsc : candidateScore cs x with
      | none => simp [hsc] at hfx
      | some sc =>
        simp only [hsc, Option.map_some', Option.some.injEq] at hfx
        subst hfx
        exact ⟨hx, sc, hsc⟩

/-- The generator keeps the weights. -/
theorem candidate_weights (w cand : Word) (h : cand ∈ newFootWords w ++ [w])
    (hw : weightsLH w) : weightsLH cand := by
  rcases mem_candidates_cases w cand h with rfl | ⟨l, r, mask, a1, a2, -, -, -, -, -, rfl⟩
  · exact hw
  · intro s hs
    obtain ⟨hlen, hget⟩ := footWord_addsFoot w l r mask a1 a2
    obtain ⟨i, hi, rfl⟩ := List.getElem_of_mem hs
    have hi' : i < w.length := by omega
    have h1 := hget i w[i] (List.getElem?_eq_getElem hi')
    rw [List.getElem?_eq_getElem hi] at h1
    have h2 := Option.some.inj h1
    rw [h2]
    exact hw w[i] (List.getElem_mem hi')

theorem pendingBlanks_false (k : Nat) : pendingBlanks false k = List.replicate k blankSyllable := by
  cases k <;> rfl

theorem weightCount_pos (chars : List Char) (hne : chars ≠ [])
    (hlast : chars.getLast? ≠ some '\'') : 0 < weightCount chars := by
  induction chars with
  | nil => exact absurd rfl hne
  | cons c rest ih =>
    by_cases hc : c = '\''
    · subst hc
      cases rest with
      | nil => simp at hlast
      | cons d rest' =>
        have := ih (by simp) (by simpa [List.getLast?_cons_cons] using hlast)
        simpa [weightCount] using this
    · simp [weightCount, hc]

theorem modifyAt_append {α : Type} (done : List α) (a : α) (rest : List α) (f : α → α) :
    modifyAt (done ++ a :: rest) done.length f = some (done ++ f a :: rest) := by
  have h : (done ++ a :: rest)[done.length]? = some a := by
    rw [List.getElem?_append_right (le_refl _)]
    simp
  unfold modifyAt
  rw [h]
  simp

/-- The filling loop of `parseString`: on input that does not end with an apostrophe it
never writes outside the vector and produces the syllables of `parseSpec`. -/
theorem parseLoop_spec (chars : List Char) :
    ∀ (done : Word) (pending : Bool), chars.getLast? ≠ some '\'' →
      (chars = [] → pending = false) →
      parseLoop chars done.length (done ++ pendingBlanks pending (weightCount chars)) =
        some (done ++ parseSpec chars pending) := by
  induction chars with
  | nil =>
    intro done pending _ hp
    simp [parseLoop, weightCount, pendingBlanks, parseSpec]
  | cons c rest ih =>
    intro done pending hlast _
    by_cases hc : c = '\''
    · subst hc
      have hne : rest ≠ [] := by
        rintro rfl
        simp at hlast
      have hlast' : rest.getLast? ≠ some '\'' := by
        cases rest with
        | nil => exact absurd rfl hne
        | cons d rest' => simpa [List.getLast?_cons_cons] using hlast
      obtain ⟨k, hk⟩ : ∃ k, weightCount rest = k + 1 :=
        ⟨weightCount rest - 1, by have := weightCount_pos rest hne hlast'; omega⟩
      have hcount : weightCount ('\'' :: rest) = k + 1 := by
        simpa [weightCount] using hk
      have := ih done true hlast' (fun h => absurd h hne)
      rw [hk] at this
      simp only [parseLoop, if_true, hcount, pendingBlanks, modifyAt_append, parseSpec]
      simpa [pendingBlanks] using this
    · have hlast' : rest.getLast? ≠ some '\'' := by
        cases rest with
        | nil => simp
        | cons d rest' => simpa [List.getLast?_cons_cons] using hlast
      have hcount : weightCount (c :: rest) = weightCount rest + 1 := by
        simp [weightCount, hc]
      have hp : rest = [] → false = false := fun _ => rfl
      have := ih (done ++ [⟨c, false, false, pending⟩]) false hlast' hp
      simp only [parseLoop, if_neg hc, hcount, pendingBlanks, modifyAt_append, parseSpec]
      rw [pendingBlanks_false] at this
      simpa using this

/-- On input that does not end with an apostrophe `parseString` returns `parseSpec`. -/
theorem parseString_spec (s : String) (hlast : s.data.getLast? ≠ some '\'') :
    parseString s = some (parseSpec s.data false) := by
  have := parseLoop_spec s.data [] false hlast (fun _ => rfl)
  rw [pendingBlanks_false] at this
  simpa [parseString, weightCount, blankSyllable] using this

theorem parseSpec_length (chars : List Char) :
    ∀ pending, (parseSpec chars pending).length = weightCount chars := by
  induction chars with
  | nil => intro _; rfl
  | cons c rest ih =>
    intro pending
    by_cases hc : c = '\''
    · simp [parseSpec, hc, weightCount, ih] 
    · simp [parseSpec, hc, weightCount, ih]

/-- The syllable read for a weight character: its weight is the character, it carries no
flag, and it is stressed exactly when the character comes right after an apostrophe. -/
theorem parseSpec_get (pre : List Char) (c : Char) (post : List Char) (hc : c ≠ '\'') :
    ∀ pending, (parseSpec (pre ++ c :: post) pending)[weightCount pre]? =
      some ⟨c, false, false, if pre = [] then pending else decide (pre.getLast? = some '\'')⟩ := by
  induction pre with
  | nil =>
    intro pending
    simp [parseSpec, hc, weightCount]
  | cons d rest ih =>
    intro pending
    by_cases hd : d = '\''
    · subst hd
      have := ih true
      cases rest with
      | nil => simp [parseSpec, weightCount, hc]
      | cons e rest' =>
        simpa [parseSpec, weightCount, List.getLast?_cons_cons] using this
    · have := ih false
      cases rest with
      | nil => simp [parseSpec, weightCount, hc, hd]
      | cons e rest' =>
        simpa [parseSpec, weightCount, hd, List.getLast?_cons_cons] using this

theorem parseSpec_plain (chars : List Char) (h : ∀ c ∈ chars, c = 'L' ∨ c = 'H') :
    parseSpec chars false = chars.map fun c => ⟨c, false, false, false⟩ := by
  induction chars with
  | nil => rfl
  | cons c rest ih =>
    have hc : c ≠ '\'' := by
      rcases h c (List.mem_cons_self _ _) with rfl | rfl <;> decide
    simp [parseSpec, hc, ih (fun d hd => h d (List.mem_cons_of_mem _ hd))]

theorem printChars_plain (chars : List Char) :
    printChars (chars.map fun c => ⟨c, false, false, false⟩) = chars := by
  induction chars with
  | nil => rfl
  | cons c rest ih => simp [printChars, printSyllable, ih]

/-! ## Invariants of the round and of the driver -/

theorem footWord_hasLeftAt (w : Word) (l r mask i : Nat) (hlr : l ≤ r) (hr : r ≤ l + 1)
    (hrn : r < w.length) :
    hasLeftAt (footWord w l r mask) i = (hasLeftAt w i || decide (i = l)) := by
  obtain ⟨hlen, hget⟩ := footWord_addsFoot w l r mask hlr hr
  by_cases hi : i < w.length
  · have hs : w[i]? = some w[i] := List.getElem?_eq_getElem hi
    simp [hasLeftAt, hget i _ hs, hs]
  · have h1 : w[i]? = none := List.getElem?_eq_none (by omega)
    have h2 : (footWord w l r mask)[i]? = none := List.getElem?_eq_none (by omega)
    have h3 : ¬ i = l := by omega
    simp [hasLeftAt, h1, h2, h3]

theorem footWord_hasRightAt (w : Word) (l r mask i : Nat) (hlr : l ≤ r) (hr : r ≤ l + 1)
    (hrn : r < w.length) :
    hasRightAt (footWord w l r mask) i = (hasRightAt w i || decide (i = r)) := by
  obtain ⟨hlen, hget⟩ := footWord_addsFoot w l r mask hlr hr
  by_cases hi : i < w.length
  · have hs : w[i]? = some w[i] := List.getElem?_eq_getElem hi
    simp [hasRightAt, hget i _ hs, hs]
  · have h1 : w[i]? = none := List.getElem?_eq_none (by omega)
    have h2 : (footWord w l r mask)[i]? = none := List.getElem?_eq_none (by omega)
    have h3 : ¬ i = r := by omega
    simp [hasRightAt, h1, h2, h3]

theorem footWord_stressedAt (w : Word) (l r mask i : Nat) (hlr : l ≤ r) (hr : r ≤ l + 1)
    (hrn : r < w.length) :
    stressedAt (footWord w l r mask) i =
      if l ≤ i ∧ i ≤ r then mask.testBit (i - l) else stressedAt w i := by
  obtain ⟨hlen, hget⟩ := footWord_addsFoot w l r mask hlr hr
  by_cases hi : i < w.length
  · have hs : w[i]? = some w[i] := List.getElem?_eq_getElem hi
    simp [stressedAt, hget i _ hs, hs]
  · have h1 : w[i]? = none := List.getElem?_eq_none (by omega)
    have h2 : (footWord w l r mask)[i]? = none := List.getElem?_eq_none (by omega)
    have h3 : ¬ (l ≤ i ∧ i ≤ r) := by omega
    simp [stressedAt, h1, h2, h3]

theorem footWord_lightAt (w : Word) (l r mask i : Nat) (hlr : l ≤ r) (hr : r ≤ l + 1) :
    lightAt (footWord w l r mask) i = lightAt w i := by
  obtain ⟨hlen, hget⟩ := footWord_addsFoot w l r mask hlr hr
  by_cases hi : i < w.length
  · have hs : w[i]? = some w[i] := List.getElem?_eq_getElem hi
    simp [lightAt, hget i _ hs, hs]
  · have h1 : w[i]? = none := List.getElem?_eq_none (by omega)
    have h2 : (footWord w l r mask)[i]? = none := List.getElem?_eq_none (by omega)
    simp [lightAt, h1, h2]

/-- The span bracketed by the generator is a foot of the generated word. -/
theorem footWord_isFoot (w : Word) (l r mask : Nat) (hlr : l ≤ r) (hr : r ≤ l + 1)
    (hrn : r < w.length) (h2 : hasRightAt w l = false) (h3 : hasLeftAt w r = false) :
    IsFoot (footWord w l r mask) l r := by
  refine ⟨hlr, by rw [footWord_length w l r mask hlr hr]; exact hrn, ?_, ?_, ?_, ?_⟩
  · simp [footWord_hasLeftAt w l r mask l hlr hr hrn]
  · simp [footWord_hasRightAt w l r mask r hlr hr hrn]
  · intro k _ hlk hkr
    obtain rfl : k = r := by omega
    have : ¬ k = l := by omega
    simp [footWord_hasLeftAt w l k mask k hlr hr hrn, h3, this]
  · intro k _ hlk hkr
    obtain rfl : k = l := by omega
    have : ¬ k = r := by omega
    simp [footWord_hasRightAt w k r mask k hlr hr hrn, h2, this]

theorem footFree_set (w : Word) (i : Nat) (s : Syllable) (hw : footFree w = true)
    (hs : flagged s = false) : footFree (w.set i s) = true := by
  unfold footFree at hw ⊢
  rw [List.all_eq_true] at hw ⊢
  intro x hx
  rcases List.mem_or_eq_of_mem_set hx with h | rfl
  · exact hw x h
  · simpa [flagged] using hs

theorem parseLoop_footFree (chars : List Char) :
    ∀ (index : Nat) (word w' : Word), footFree word = true →
      parseLoop chars index word = some w' → footFree w' = true := by
  induction chars with
  | nil =>
    intro index word w' hw h
    simp only [parseLoop, Option.some.injEq] at h
    rw [← h]; exact hw
  | cons c rest ih =>
    intro index word w' hw h
    unfold parseLoop at h
    have hflag : ∀ a ∈ word, flagged a = false := by
      intro a ha
      unfold footFree at hw
      rw [List.all_eq_true] at hw
      simpa [flagged] using hw a ha
    cases hget : word[index]? with
    | none => simp [modifyAt, hget] at h
    | some a =>
      have ha : a ∈ word := List.getElem?_mem hget
      have hfa := hflag a ha
      simp only [flagged, Bool.or_eq_false_iff] at hfa
      by_cases hc : c = '\''
      · simp only [hc, if_true, modifyAt, hget] at h
        exact ih index _ w' (footFree_set word index _ hw (by simp [flagged, hfa])) h
      · simp only [hc, if_false, modifyAt, hget] at h
        exact ih (index + 1) _ w' (footFree_set word index _ hw (by simp [flagged, hfa])) h

/-- A parsed word carries no boundary flag. -/
theorem parseString_footFree (s : String) (w : Word) (h : parseString s = some w) :
    footFree w = true := by
  unfold parseString at h
  refine parseLoop_footFree s.data 0 _ w ?_ h
  simp [footFree]

/-- Every word the driver goes through keeps matched feet of length 1 or 2. -/
theorem driverReaches_short (w v : Word) (hw : wellFormedShort w = true)
    (h : DriverReaches w v) : wellFormedShort v = true := by
  induction h with
  | start => exact hw
  | step u ret _ hS _ ih =>
    exact candidate_short u ret ih (SerialOT_mem u constraints ret hS).1

theorem faultFree_true (w : Word) : faultFree true w = true := by
  induction w with
  | nil => rfl
  | cons s rest ih => simp [faultFree, ih]

theorem faultFree_of_matched (w : Word) (h : matchedFrom false w = true) :
    faultFree false w = true := by
  induction w with
  | nil => rfl
  | cons s rest ih =>
    rcases hL : s.hasLeftParenthesis with _ | _ <;>
      rcases hR : s.hasRightParenthesis with _ | _ <;>
      simp [matchedFrom, hL, hR] at h <;> simp [faultFree, hL, hR, faultFree_true]
    exact ih h

theorem faultFree_footWord (mask : Nat) :
    ∀ (l : Nat) (w : Word) (r : Nat), l ≤ r → r ≤ l + 1 → r < w.length →
      faultFree false w = true → faultFree false (footWord w l r mask) = true := by
  intro l
  induction l with
  | zero =>
    intro w r hlr hr hrn _
    cases w with
    | nil => simp at hrn
    | cons s rest =>
      have hcase : r = 0 ∨ r = 1 := by omega
      rcases hcase with rfl | rfl
      · rw [footWord_zero_zero]
        simp [faultFree, faultFree_true]
      · cases rest with
        | nil => simp at hrn
        | cons t rest' =>
          rw [footWord_zero_one]
          simp [faultFree, faultFree_true]
  | succ l ih =>
    intro w r hlr hr hrn hw
    cases w with
    | nil => simp at hrn
    | cons s rest =>
      obtain ⟨r', rfl⟩ : ∃ r', r = r' + 1 := ⟨r - 1, by omega⟩
      rw [footWord_succ s rest l r' mask (by omega) (by omega)]
      rcases hL : s.hasLeftParenthesis with _ | _
      · simp only [faultFree, hL, Bool.or_false, Bool.and_eq_true] at hw ⊢
        exact ⟨hw.1, ih rest r' (by omega) (by omega) (by simpa using hrn) hw.2⟩
      · simp [faultFree, hL, faultFree_true]

theorem setBackSecond_some (l : List (Int × Int)) (i : Int) (hne : l ≠ []) :
    ∃ pre a b, l = pre ++ [(a, b)] ∧ setBackSecond l i = some (pre ++ [(a, i)]) := by
  obtain ⟨pre, p, rfl⟩ : ∃ pre p, l = pre ++ [p] :=
    ⟨l.dropLast, l.getLast hne, (List.dropLast_append_getLast hne).symm⟩
  exact ⟨pre, p.1, p.2, rfl, setBackSecond_append pre p.1 p.2 i⟩

/-- The scan of `findLocation` on any word it scans without fault: it returns pairs whose
indices are inside the word. -/
theorem findLocationLoop_total (w : Word) :
    ∀ (i : Nat) (acc : List (Int × Int)), (∀ p ∈ acc, PairOK i p) →
      faultFree (!acc.isEmpty) w = true →
      ∃ fs, findLocationLoop w i acc = some fs ∧ ∀ p ∈ fs, PairOK (i + w.length) p := by
  induction w with
  | nil =>
    intro i acc hacc _
    exact ⟨acc, rfl, by simpa using hacc⟩
  | cons s rest ih =>
    intro i acc hacc hff
    have hcast : ((i : Nat) : Int) + 1 = ((i + 1 : Nat) : Int) := by push_cast; ring
    have hup : ∀ p, PairOK i p → PairOK (i + 1) p := by
      rintro p ⟨h1, h2, h3⟩
      refine ⟨h1, by omega, ?_⟩
      rcases h3 with h3 | h3
      · exact Or.inl h3
      · exact Or.inr ⟨h3.1, by omega⟩
    have hlen : i + (s :: rest).length = (i + 1) + rest.length := by
      simp only [List.length_cons]; omega
    rw [hlen]
    -- the vector after the optional `push_back`
    obtain ⟨pushed, hpushed, hpok, hpne⟩ : ∃ pushed,
        pushed = (if s.hasLeftParenthesis then acc ++ [((i : Int), (-1 : Int))] else acc) ∧
        (∀ p ∈ pushed, PairOK (i + 1) p) ∧
        (!pushed.isEmpty) = (!acc.isEmpty || s.hasLeftParenthesis) := by
      refine ⟨_, rfl, ?_, ?_⟩
      · intro p hp
        split at hp
        · rcases List.mem_append.1 hp with h | h
          · exact hup p (hacc p h)
          · rw [List.mem_singleton.1 h]
            exact ⟨by simp, by simp, Or.inl rfl⟩
        · exact hup p (hacc p hp)
      · rcases s.hasLeftParenthesis with _ | _ <;> simp
    simp only [faultFree, Bool.and_eq_true] at hff
    obtain ⟨hok, hrest⟩ := hff
    rw [← hpne] at hrest
    rcases hR : s.hasRightParenthesis with _ | _
    · obtain ⟨fs, hfs, hfsok⟩ := ih (i + 1) pushed hpok hrest
      rw [← hcast] at hfs
      refine ⟨fs, ?_, hfsok⟩
      simp only [findLocationLoop, hR, ← hpushed]
      simpa using hfs
    · have hne : pushed ≠ [] := by
        intro he
        rw [he] at hpne
        rw [hR] at hok
        simp at hpne
        simp [hpne] at hok
      obtain ⟨pre, a, b, hsplit, hset⟩ := setBackSecond_some pushed (i : Int) hne
      have hclosed : ∀ p ∈ pre ++ [(a, (i : Int))], PairOK (i + 1) p := by
        intro p hp
        rcases List.mem_append.1 hp with h | h
        · exact hpok p (by rw [hsplit]; exact List.mem_append_left _ h)
        · rw [List.mem_singleton.1 h]
          obtain ⟨h1, h2, -⟩ := hpok (a, b) (by rw [hsplit]; simp)
          simp only at h1 h2
          exact ⟨h1, h2, Or.inr ⟨by simp only; omega, by simp⟩⟩
      have hrest' : faultFree (!(pre ++ [(a, (i : Int))]).isEmpty) rest = true := by
        have : (!(pre ++ [(a, (i : Int))]).isEmpty) = true := by
          cases pre <;> simp
        rw [this]
        exact faultFree_true rest
      obtain ⟨fs, hfs, hfsok⟩ := ih (i + 1) _ hclosed hrest'
      rw [← hcast] at hfs
      refine ⟨fs, ?_, hfsok⟩
      simp only [findLocationLoop, hR, ← hpushed, hset]
      simpa using hfs

/-- One step of the loop over the pairs never fails on a pair inside the word. -/
theorem footStep_total (bad2 : Syllable → Syllable → Bool) (word : Word) (v : List Int)
    (p : Int × Int) (hv : v.length = word.length) (hp : PairOK word.length p) :
    ∃ v', footStep bad2 word v p = some v' ∧ v'.length = v.length := by
  obtain ⟨a, b⟩ := p
  obtain ⟨h1, h2, h3⟩ := hp
  simp only at h1 h2 h3
  rcases h3 with rfl | ⟨h3, h4⟩
  · have e3 : ¬ ((-1 : Int) - a + 1 ≥ 3) := by omega
    have e2 : ¬ ((-1 : Int) - a + 1 = 2) := by omega
    have e1 : ¬ ((-1 : Int) - a + 1 = 1) := by omega
    exact ⟨v, by simp [footStep, e3, e2, e1], rfl⟩
  · obtain ⟨l, rfl⟩ : ∃ l : Nat, a = l := ⟨a.toNat, by omega⟩
    obtain ⟨r, rfl⟩ : ∃ r : Nat, b = r := ⟨b.toNat, by omega⟩
    obtain ⟨v', hv', hlen, -⟩ :=
      footStep_spec bad2 word v l r (by omega) (by omega) hv
    exact ⟨v', hv', hlen⟩

theorem footLoop_total (bad2 : Syllable → Syllable → Bool) (word : Word) :
    ∀ (fs : List (Int × Int)) (v : List Int), v.length = word.length →
      (∀ p ∈ fs, PairOK word.length p) →
      ∃ v', footLoop bad2 word fs v = some v' ∧ v'.length = word.length := by
  intro fs
  induction fs with
  | nil =>
    intro v hv _
    exact ⟨v, rfl, hv⟩
  | cons p rest ih =>
    intro v hv hfs
    obtain ⟨v1, h1, hlen1⟩ := footStep_total bad2 word v p hv (hfs p (List.mem_cons_self _ _))
    obtain ⟨v2, h2, hlen2⟩ := ih v1 (by omega) (fun q hq => hfs q (List.mem_cons_of_mem _ hq))
    exact ⟨v2, by simp only [footLoop, h1, h2], hlen2⟩

/-- On every word that `findLocation` scans without fault the four constraints return a
sequence of the length of the word: no index leaves the word. -/
theorem constraints_total (w : Word) (h : faultFree false w = true) :
    ∃ t p i r, Trochee w = some t ∧ ParseLeft w = some p ∧ Iamb w = some i ∧
      ParseRight w = some r ∧ t.length = w.length ∧ p.length = w.length ∧
      i.length = w.length ∧ r.length = w.length ∧
      candidateScore constraints w = some [score t, score p, score i, score r] := by
  obtain ⟨fs, hfs, hok⟩ := findLocationLoop_total w 0 [] (by simp) (by simpa using h)
  have hfs' : findLocation w = some fs := by simpa [findLocation] using hfs
  have hok' : ∀ p ∈ fs, PairOK w.length p := by simpa using hok
  obtain ⟨vt, hvt, hlt⟩ := footLoop_total trocheeBad w fs (List.replicate w.length 0) (by simp) hok'
  obtain ⟨vi, hvi, hli⟩ := footLoop_total iambBad w fs (List.replicate w.length 0) (by simp) hok'
  have hT : Trochee w = some vt := by simp only [Trochee, hfs', hvt]
  have hI : Iamb w = some vi := by simp only [Iamb, hfs', hvi]
  have hP : ParseLeft w = some (unparsedMarks w) := by simp only [ParseLeft, hfs']
  have hR : ParseRight w = some (unparsedMarks w).reverse := by simp only [ParseRight, hfs']
  refine ⟨vt, unparsedMarks w, vi, (unparsedMarks w).reverse, hT, hP, hI, hR, hlt,
    by simp [unparsedMarks], hli, by simp [unparsedMarks], ?_⟩
  simp [candidateScore, constraints, optMap, hT, hP, hI, hR]

/-- Every candidate of a word scanned without fault is scanned without fault. -/
theorem candidate_faultFree (w cand : Word) (hw : faultFree false w = true)
    (h : cand ∈ newFootWords w ++ [w]) : faultFree false cand = true := by
  rcases mem_candidates_cases w cand h with rfl | ⟨l, r, mask, a1, a2, a3, -, -, -, -, rfl⟩
  · exact hw
  · exact faultFree_footWord mask l w r a1 a2 a3 hw

/-- A round never fails on a word that `findLocation` scans without fault: the candidate
vector is scored without fault, it is not empty, and the winner is returned. -/
theorem SerialOT_total (w : Word) (h : faultFree false w = true) :
    ∃ l best, candidates w constraints = some l ∧ l ≠ [] ∧
      l.length = (newFootWords w ++ [w]).length ∧ SerialOT w constraints = some best := by
  have hsome : ∀ cand ∈ newFootWords w ++ [w],
      ∃ sc, candidateScore constraints cand = some sc := by
    intro cand hc
    obtain ⟨t, p, i, r, -, -, -, -, -, -, -, -, hsc⟩ :=
      constraints_total cand (candidate_faultFree w cand h hc)
    exact ⟨_, hsc⟩
  have hcands : candidates w constraints = some ((newFootWords w ++ [w]).map
      fun cand => (cand, (candidateScore constraints cand).getD [])) := by
    unfold candidates
    rw [candidateWords_eq]
    apply optMap_eq
    intro cand hc
    obtain ⟨sc, hsc⟩ := hsome cand hc
    simp [hsc]
  obtain ⟨best, rest, hsort, -, -⟩ := sortCandidates_head
    ((newFootWords w ++ [w]).map fun cand => (cand, (candidateScore constraints cand).getD []))
    (by simp)
  refine ⟨_, best.1, hcands, by simp, by simp, ?_⟩
  simp only [SerialOT, hcands, hsort]

/-! ## Scores of the candidates -/

theorem mem_footWords (w cand : Word) (l r : Nat) (hlr : l ≤ r) (_hrn : r < w.length) :
    cand ∈ footWords w l r ↔
      r ≤ l + 1 ∧ hasLeftAt w l = false ∧ hasRightAt w l = false ∧
      hasLeftAt w r = false ∧ hasRightAt w r = false ∧
      ∃ mask, mask ∈ ((List.range (1 <<< (r - l + 1))).filter fun mask => mask ≠ 0) ∧
        cand = footWord w l r mask := by
  unfold footWords
  by_cases hlen : r - l + 1 > 2
  · simp only [hlen, if_true, List.not_mem_nil, false_iff]
    rintro ⟨h, -⟩
    omega
  · rw [if_neg hlen]
    by_cases hflag : (hasLeftAt w l || hasRightAt w l || hasLeftAt w r || hasRightAt w r) = true
    · simp only [hflag, if_true, List.not_mem_nil, false_iff]
      rintro ⟨-, h1, h2, h3, h4, -⟩
      simp [h1, h2, h3, h4] at hflag
    · rw [if_neg hflag]
      simp only [Bool.or_eq_true, not_or, Bool.not_eq_true] at hflag
      rw [List.mem_map]
      constructor
      · rintro ⟨mask, hmask, rfl⟩
        exact ⟨by omega, hflag.1.1.1, hflag.1.1.2, hflag.1.2, hflag.2, mask, hmask, rfl⟩
      · rintro ⟨-, -, -, -, -, mask, hmask, rfl⟩
        exact ⟨mask, hmask, rfl⟩

theorem mask_eq_of_bits (k m1 m2 : Nat) (hk : k = 1 ∨ k = 2)
    (h1 : m1 ∈ ((List.range (1 <<< k)).filter fun mask => mask ≠ 0))
    (h2 : m2 ∈ ((List.range (1 <<< k)).filter fun mask => mask ≠ 0))
    (hbits : ∀ p, p < k → m1.testBit p = m2.testBit p) : m1 = m2 := by
  rcases hk with rfl | rfl
  · rw [masks_one] at h1 h2
    simp at h1 h2
    rw [h1, h2]
  · rw [masks_two] at h1 h2
    have b0 := hbits 0 (by omega)
    have b1 := hbits 1 (by omega)
    simp only [List.mem_cons, List.mem_singleton, List.not_mem_nil, or_false] at h1 h2
    rcases h1 with rfl | rfl | rfl <;> rcases h2 with rfl | rfl | rfl <;>
      first
        | rfl
        | (exfalso; revert b0; decide)
        | (exfalso; revert b1; decide)

/-- The generated word determines the span and the mask it was generated from. -/
theorem footWord_inj (w : Word) (l1 r1 m1 l2 r2 m2 : Nat)
    (a1 : l1 ≤ r1) (a2 : r1 ≤ l1 + 1) (a3 : r1 < w.length)
    (a4 : hasLeftAt w l1 = false) (a5 : hasRightAt w r1 = false)
    (a6 : m1 ∈ ((List.range (1 <<< (r1 - l1 + 1))).filter fun mask => mask ≠ 0))
    (b1 : l2 ≤ r2) (b2 : r2 ≤ l2 + 1) (b3 : r2 < w.length)
    (b6 : m2 ∈ ((List.range (1 <<< (r2 - l2 + 1))).filter fun mask => mask ≠ 0))
    (heq : footWord w l1 r1 m1 = footWord w l2 r2 m2) : l1 = l2 ∧ r1 = r2 ∧ m1 = m2 := by
  have hl : l1 = l2 := by
    have h := footWord_hasLeftAt w l1 r1 m1 l1 a1 a2 a3
    rw [heq, footWord_hasLeftAt w l2 r2 m2 l1 b1 b2 b3, a4] at h
    simpa using h
  have hr : r1 = r2 := by
    have h := footWord_hasRightAt w l1 r1 m1 r1 a1 a2 a3
    rw [heq, footWord_hasRightAt w l2 r2 m2 r1 b1 b2 b3, a5] at h
    simpa using h
  subst hl hr
  refine ⟨rfl, rfl, ?_⟩
  apply mask_eq_of_bits (r1 - l1 + 1) m1 m2 (by omega) a6 b6
  intro p hp
  have h := footWord_stressedAt w l1 r1 m1 (l1 + p) a1 a2 a3
  rw [heq, footWord_stressedAt w l1 r1 m2 (l1 + p) a1 a2 a3] at h
  have hin : l1 ≤ l1 + p ∧ l1 + p ≤ r1 := ⟨by omega, by omega⟩
  simp only [if_pos hin, Nat.add_sub_cancel_left] at h
  exact h.symm

/-- The generator produces no word twice. -/
theorem candidateWords_nodup (w : Word) : (newFootWords w ++ [w]).Nodup := by
  rw [List.nodup_append]
  refine ⟨?_, List.nodup_singleton w, ?_⟩
  · unfold newFootWords
    rw [List.nodup_flatMap]
    constructor
    · intro l hl
      have hl' := List.mem_range.1 hl
      rw [List.nodup_flatMap]
      constructor
      · intro r hr
        have hr' := List.mem_range'_1.1 hr
        unfold footWords
        split
        · exact List.nodup_nil
        · split
          · exact List.nodup_nil
          · rename_i hlen hflag
            simp only [Bool.or_eq_true, not_or, Bool.not_eq_true] at hflag
            apply List.Nodup.map_on
            · intro m1 hm1 m2 hm2 heq
              exact (footWord_inj w l r m1 l r m2 hr'.1 (by omega) (by omega) hflag.1.1.1
                hflag.2 hm1 hr'.1 (by omega) (by omega) hm2 heq).2.2
            · exact (List.nodup_range _).filter _
      · apply (List.nodup_range' l (w.length - l)).imp_of_mem
        intro r1 r2 hr1 hr2 hne
        have hr1' := List.mem_range'_1.1 hr1
        have hr2' := List.mem_range'_1.1 hr2
        intro x hx1 hx2
        obtain ⟨c1, c2, c3, c4, c5, m1, hm1, rfl⟩ :=
          (mem_footWords w x l r1 hr1'.1 (by omega)).1 hx1
        obtain ⟨d1, d2, d3, d4, d5, m2, hm2, heq⟩ :=
          (mem_footWords w _ l r2 hr2'.1 (by omega)).1 hx2
        exact hne (footWord_inj w l r1 m1 l r2 m2 hr1'.1 c1 (by omega) c2 c5 hm1 hr2'.1 d1
          (by omega) hm2 heq).2.1
    · apply (List.nodup_range w.length).imp_of_mem
      intro l1 l2 hl1 hl2 hne
      intro x hx1 hx2
      obtain ⟨r1, hr1, hx1⟩ := List.mem_flatMap.1 hx1
      obtain ⟨r2, hr2, hx2⟩ := List.mem_flatMap.1 hx2
      have hr1' := List.mem_range'_1.1 hr1
      have hr2' := List.mem_range'_1.1 hr2
      have hl1' := List.mem_range.1 hl1
      have hl2' := List.mem_range.1 hl2
      obtain ⟨c1, c2, c3, c4, c5, m1, hm1, rfl⟩ :=
        (mem_footWords w x l1 r1 hr1'.1 (by omega)).1 hx1
      obtain ⟨d1, d2, d3, d4, d5, m2, hm2, heq⟩ :=
        (mem_footWords w _ l2 r2 hr2'.1 (by omega)).1 hx2
      exact hne (footWord_inj w l1 r1 m1 l2 r2 m2 hr1'.1 c1 (by omega) c2 c5 hm1 hr2'.1 d1
        (by omega) hm2 heq).1
  · intro x hx hxw
    rw [List.mem_singleton] at hxw
    subst hxw
    obtain ⟨l, r, mask, a1, a2, a3, a4, a5, a6, a7, -, heq⟩ :=
      (mem_newFootWords_footWord x x).1 hx
    exact (footWord_short mask l x r a1 a2 a3 a4 a5 a6 a7).2.2 heq.symm

/-- Two 0/1 sequences of the same length with the same binary value are equal. -/
theorem binaryValue_injective (a b : List Int) (hlen : a.length = b.length)
    (ha : ∀ x ∈ a, x = 0 ∨ x = 1) (hb : ∀ x ∈ b, x = 0 ∨ x = 1)
    (h : binaryValue a = binaryValue b) : a = b := by
  rcases trichotomous_of (List.Lex (· < · : Int → Int → Prop)) a b with hlt | heq | hgt
  · have := (binaryValue_lt_iff_lex a b hlen ha hb).2 hlt
    omega
  · exact heq
  · have := (binaryValue_lt_iff_lex b a hlen.symm hb ha).2 hgt
    omega

theorem score_injective (a b : List Int) (hlen : a.length = b.length) (h31 : a.length ≤ 31)
    (ha : ∀ x ∈ a, x = 0 ∨ x = 1) (hb : ∀ x ∈ b, x = 0 ∨ x = 1)
    (h : score a = score b) : a = b := by
  rw [score_eq_binaryValue a ha h31, score_eq_binaryValue b hb (by omega)] at h
  exact binaryValue_injective a b hlen ha hb h

/-- Two sequences that agree before position `p` and hold 0 and 1 at `p` compare
lexicographically. -/
theorem lex_of_first_diff (a : List Int) :
    ∀ (b : List Int) (p : Nat), (∀ j, j < p → a[j]? = b[j]?) →
      a[p]? = some 0 → b[p]? = some 1 → List.Lex (· < ·) a b := by
  induction a with
  | nil => intro b p _ h _; simp at h
  | cons x xs ih =>
    intro b p hpre ha hb
    cases b with
    | nil => simp at hb
    | cons y ys =>
      rcases p with _ | p
      · simp only [List.getElem?_cons_zero, Option.some.injEq] at ha hb
        subst ha hb
        exact List.Lex.rel (by norm_num)
      · have h0 := hpre 0 (by omega)
        simp only [List.getElem?_cons_zero, Option.some.injEq] at h0
        subst h0
        apply List.Lex.cons
        apply ih ys p
        · intro j hj
          simpa using hpre (j + 1) (by omega)
        · simpa using ha
        · simpa using hb

theorem score_lt_of_first_diff (a b : List Int) (p : Nat) (hlen : a.length = b.length)
    (h31 : a.length ≤ 31) (ha : ∀ x ∈ a, x = 0 ∨ x = 1) (hb : ∀ x ∈ b, x = 0 ∨ x = 1)
    (hpre : ∀ j, j < p → a[j]? = b[j]?) (hap : a[p]? = some 0) (hbp : b[p]? = some 1) :
    score a < score b := by
  rw [score_eq_binaryValue a ha h31, score_eq_binaryValue b hb (by omega)]
  exact (binaryValue_lt_iff_lex a b hlen ha hb).2 (lex_of_first_diff a b p hpre hap hbp)

theorem score_nonneg (a : List Int) (h31 : a.length ≤ 31) (ha : ∀ x ∈ a, x = 0 ∨ x = 1) :
    0 ≤ score a := by
  rw [score_eq_binaryValue a ha h31]
  exact (binaryValue_bounds a ha).1

theorem binaryValue_replicate_zero (n : Nat) : binaryValue (List.replicate n 0) = 0 := by
  induction n with
  | zero => exact binaryValue_nil
  | succ n ih => rw [List.replicate_succ, binaryValue_cons, ih]; simp

/-- A sequence that holds 0 everywhere has score 0. -/
theorem score_zero (a : List Int) (h31 : a.length ≤ 31)
    (h0 : ∀ j, j < a.length → a[j]? = some 0) : score a = 0 := by
  have heq : a = List.replicate a.length 0 := by
    apply List.ext_getElem?
    intro j
    by_cases hj : j < a.length
    · rw [h0 j hj]
      simp [hj]
    · rw [List.getElem?_eq_none (by omega), List.getElem?_eq_none (by simp; omega)]
  have ha : ∀ x ∈ a, x = 0 ∨ x = 1 := by
    intro x hx
    rw [heq] at hx
    exact Or.inl (List.eq_of_mem_replicate hx)
  rw [score_eq_binaryValue a ha h31, heq, binaryValue_replicate_zero]

theorem binaryValue_pos (a : List Int) (ha : ∀ x ∈ a, x = 0 ∨ x = 1) (h1 : (1 : Int) ∈ a) :
    0 < binaryValue a := by
  induction a with
  | nil => cases h1
  | cons x xs ih =>
    have hxs : ∀ z ∈ xs, z = 0 ∨ z = 1 := fun z hz => ha z (List.mem_cons_of_mem _ hz)
    obtain ⟨hb0, -⟩ := binaryValue_bounds xs hxs
    have hp : (0 : Int) < 2 ^ xs.length := by positivity
    rw [binaryValue_cons]
    rcases ha x (List.mem_cons_self _ _) with rfl | rfl
    · rcases List.mem_cons.1 h1 with h | h
      · exact absurd h (by norm_num)
      · have := ih hxs h
        linarith
    · linarith

/-- A 0/1 sequence that holds a 1 has a positive score. -/
theorem score_pos (a : List Int) (p : Nat) (h31 : a.length ≤ 31)
    (ha : ∀ x ∈ a, x = 0 ∨ x = 1) (hp : a[p]? = some 1) : 0 < score a := by
  rw [score_eq_binaryValue a ha h31]
  exact binaryValue_pos a ha (List.getElem?_mem hp)

/-- The mark a constraint puts on a syllable of a foot of a matched word. -/
theorem marks_at_foot (bad2 : Syllable → Syllable → Bool) (w : Word)
    (hw : wellFormed w = true) (l r j : Nat) (hf : IsFoot w l r) (hlj : l ≤ j) (hjr : j ≤ r)
    (fs : List (Int × Int)) (v : List Int) (hfs : findLocation w = some fs)
    (hv : footLoop bad2 w fs (List.replicate w.length 0) = some v) :
    v[j]? = some (if footViolates bad2 w l r = true then 1 else 0) := by
  obtain ⟨fs', v', hfs', hv', -, hyes, hno⟩ := footConstraint_spec bad2 w hw
  rw [hfs] at hfs'
  obtain rfl := Option.some.inj hfs'
  rw [hv] at hv'
  obtain rfl := Option.some.inj hv'
  by_cases hviol : footViolates bad2 w l r = true
  · rw [if_pos hviol]
    exact hyes j ⟨l, r, hf, hviol, hlj, hjr⟩
  · rw [if_neg hviol]
    apply hno j (by have := hf.2.1; omega)
    rintro ⟨l', r', hf', hviol', hl', hr'⟩
    obtain ⟨rfl, rfl⟩ := isFoot_unique w l r l' r' j hf hf' ⟨hlj, hjr⟩ ⟨hl', hr'⟩
    exact hviol hviol'

/-- The mark a constraint puts on a syllable outside every foot. -/
theorem marks_outside (bad2 : Syllable → Syllable → Bool) (w : Word)
    (hw : wellFormed w = true) (j : Nat) (hj : j < w.length) (hout : ¬ InFoot w j)
    (fs : List (Int × Int)) (v : List Int) (hfs : findLocation w = some fs)
    (hv : footLoop bad2 w fs (List.replicate w.length 0) = some v) :
    v[j]? = some 0 := by
  obtain ⟨fs', v', hfs', hv', -, -, hno⟩ := footConstraint_spec bad2 w hw
  rw [hfs] at hfs'
  obtain rfl := Option.some.inj hfs'
  rw [hv] at hv'
  obtain rfl := Option.some.inj hv'
  apply hno j hj
  rintro ⟨l, r, hf, -, hl, hr⟩
  exact hout ⟨l, by have := hf.1; have := hf.2.1; omega, r, hf.2.1, hf, hl, hr⟩

theorem Trochee_at_foot (w : Word) (hw : wellFormed w = true) (l r j : Nat)
    (hf : IsFoot w l r) (hlj : l ≤ j) (hjr : j ≤ r) (t : List Int) (ht : Trochee w = some t) :
    t[j]? = some (if footViolates trocheeBad w l r = true then 1 else 0) := by
  unfold Trochee at ht
  cases hfs : findLocation w with
  | none => simp [hfs] at ht
  | some fs =>
    simp only [hfs] at ht
    exact marks_at_foot trocheeBad w hw l r j hf hlj hjr fs t hfs ht

theorem Iamb_at_foot (w : Word) (hw : wellFormed w = true) (l r j : Nat)
    (hf : IsFoot w l r) (hlj : l ≤ j) (hjr : j ≤ r) (t : List Int) (ht : Iamb w = some t) :
    t[j]? = some (if footViolates iambBad w l r = true then 1 else 0) := by
  unfold Iamb at ht
  cases hfs : findLocation w with
  | none => simp [hfs] at ht
  | some fs =>
    simp only [hfs] at ht
    exact marks_at_foot iambBad w hw l r j hf hlj hjr fs t hfs ht

theorem Trochee_outside (w : Word) (hw : wellFormed w = true) (j : Nat) (hj : j < w.length)
    (hout : ¬ InFoot w j) (t : List Int) (ht : Trochee w = some t) : t[j]? = some 0 := by
  unfold Trochee at ht
  cases hfs : findLocation w with
  | none => simp [hfs] at ht
  | some fs =>
    simp only [hfs] at ht
    exact marks_outside trocheeBad w hw j hj hout fs t hfs ht

theorem ParseLeft_eq (w : Word) (p : List Int) (h : ParseLeft w = some p) :
    p = unparsedMarks w := by
  unfold ParseLeft at h
  cases hfs : findLocation w with
  | none => simp [hfs] at h
  | some fs =>
    simp only [hfs, Option.some.injEq] at h
    exact h.symm

theorem unparsedMarks_get (w : Word) (j : Nat) (hj : j < w.length) :
    (unparsedMarks w)[j]? = some (if flagAt w j = true then 0 else 1) := by
  have hs : w[j]? = some w[j] := List.getElem?_eq_getElem hj
  simp only [unparsedMarks, List.getElem?_map, hs, Option.map_some', flagAt, hasLeftAt,
    hasRightAt]
  rcases w[j].hasLeftParenthesis with _ | _ <;> rcases w[j].hasRightParenthesis with _ | _ <;>
    simp

theorem footWord_flagAt (w : Word) (l r mask i : Nat) (hlr : l ≤ r) (hr : r ≤ l + 1)
    (hrn : r < w.length) :
    flagAt (footWord w l r mask) i = (flagAt w i || decide (i = l) || decide (i = r)) := by
  unfold flagAt
  rw [footWord_hasLeftAt w l r mask i hlr hr hrn, footWord_hasRightAt w l r mask i hlr hr hrn]
  rcases hasLeftAt w i with _ | _ <;> rcases hasRightAt w i with _ | _ <;>
    rcases decide (i = l) with _ | _ <;> rcases decide (i = r) with _ | _ <;> rfl

/-- The test on a foot of two syllables reads the two syllables. -/
theorem footViolates_two (bad2 : Syllable → Syllable → Bool) (w : Word) (l : Nat)
    (sl sr : Syllable) (hl : w[l]? = some sl) (hr : w[l + 1]? = some sr) :
    footViolates bad2 w l (l + 1) = bad2 sl sr := by
  have e : l + 1 - l + 1 = 2 := by omega
  simp [footViolates, e, hl, hr]

/-- The test on a foot of one syllable reads its weight. -/
theorem footViolates_one (bad2 : Syllable → Syllable → Bool) (w : Word) (l : Nat) :
    footViolates bad2 w l l = lightAt w l := by
  simp [footViolates]

/-- The Trochee and Iamb tests on the new two-syllable foot of a generated word, from the
bits of the mask. -/
theorem footViolates_footWord_two (w : Word) (l mask : Nat) (hrn : l + 1 < w.length) :
    footViolates trocheeBad (footWord w l (l + 1) mask) l (l + 1) =
        (mask.testBit 1 || !mask.testBit 0) ∧
      footViolates iambBad (footWord w l (l + 1) mask) l (l + 1) =
        (!mask.testBit 1 || mask.testBit 0) := by
  obtain ⟨hlen, hget⟩ := footWord_addsFoot w l (l + 1) mask (by omega) (by omega)
  have h0 := hget l w[l] (List.getElem?_eq_getElem (by omega))
  have h1 := hget (l + 1) w[l + 1] (List.getElem?_eq_getElem hrn)
  rw [footViolates_two _ _ l _ _ h0 h1, footViolates_two _ _ l _ _ h0 h1]
  simp [trocheeBad, iambBad]

/-- Among the candidates of a word with matched feet of length 1 or 2 and at most 31
syllables, two candidates with the same score vector are the same word. -/
theorem candidateScore_inj (w : Word) (h : wellFormedShort w = true) (h31 : w.length ≤ 31)
    (c1 c2 : Word) (hc1 : c1 ∈ newFootWords w ++ [w]) (hc2 : c2 ∈ newFootWords w ++ [w])
    (heq : candidateScore constraints c1 = candidateScore constraints c2) : c1 = c2 := by
  have hw1 := wellFormed_of_short c1 (candidate_short w c1 h hc1)
  have hw2 := wellFormed_of_short c2 (candidate_short w c2 h hc2)
  have hl1 := candidate_length w c1 hc1
  have hl2 := candidate_length w c2 hc2
  obtain ⟨t1, p1, i1, r1, hT1, hP1, hI1, -, hs1, hv1⟩ := constraints_some c1 hw1
  obtain ⟨t2, p2, i2, r2, hT2, hP2, hI2, -, hs2, hv2⟩ := constraints_some c2 hw2
  rw [hs1, hs2] at heq
  simp only [Option.some.injEq, List.cons.injEq, and_true] at heq
  obtain ⟨eT, eP, eI, -⟩ := heq
  have inj : ∀ a ∈ [t1, p1, i1, r1], ∀ b ∈ [t2, p2, i2, r2], score a = score b → a = b := by
    intro a ha b hb hab
    exact score_injective a b (by rw [(hv1 a ha).1, (hv2 b hb).1, hl1, hl2])
      (by rw [(hv1 a ha).1, hl1]; exact h31) (hv1 a ha).2 (hv2 b hb).2 hab
  have eT' : t1 = t2 := inj t1 (by simp) t2 (by simp) eT
  have eP' : p1 = p2 := inj p1 (by simp) p2 (by simp) eP
  have eI' : i1 = i2 := inj i1 (by simp) i2 (by simp) eI
  subst eT' eP' eI'
  -- equal ParseLeft marks: the same syllables are flagged
  have hflag : ∀ j, j < w.length → flagAt c1 j = flagAt c2 j := by
    intro j hj
    have e1 := unparsedMarks_get c1 j (by omega)
    have e2 := unparsedMarks_get c2 j (by omega)
    rw [← ParseLeft_eq c1 p1 hP1] at e1
    rw [← ParseLeft_eq c2 p1 hP2, e1] at e2
    have e3 := Option.some.inj e2
    cases h1 : flagAt c1 j <;> cases h2 : flagAt c2 j <;> simp [h1, h2] at e3 ⊢
  have hnew : ∀ x, x ∈ newFootWords w → x ≠ w := by
    intro x hx hxw
    have := candidateWords_nodup w
    rw [List.nodup_append] at this
    exact this.2.2 hx (by simp [hxw])
  rcases List.mem_append.1 hc1 with hn1 | hn1 <;> rcases List.mem_append.1 hc2 with hn2 | hn2
  · obtain ⟨l1, r1', m1, a1, a2, a3, a4, a5, a6, a7, hm1, rfl⟩ :=
      (mem_newFootWords_footWord w c1).1 hn1
    obtain ⟨l2, r2', m2, b1, b2, b3, b4, b5, b6, b7, hm2, rfl⟩ :=
      (mem_newFootWords_footWord w c2).1 hn2
    have unfl : ∀ k, hasLeftAt w k = false → hasRightAt w k = false → flagAt w k = false := by
      intro k hk1 hk2
      simp [flagAt, hk1, hk2]
    have f1 := hflag l1 (by omega)
    have f2 := hflag r1' (by omega)
    have f3 := hflag l2 (by omega)
    have f4 := hflag r2' (by omega)
    simp only [footWord_flagAt w l1 r1' m1 _ a1 a2 a3, footWord_flagAt w l2 r2' m2 _ b1 b2 b3,
      unfl l1 a4 a5, unfl r1' a6 a7, unfl l2 b4 b5, unfl r2' b6 b7, decide_True,
      Bool.or_true, Bool.true_or, Bool.false_or] at f1 f2 f3 f4
    have g1 : l1 = l2 ∨ l1 = r2' := by simpa using f1.symm
    have g2 : r1' = l2 ∨ r1' = r2' := by simpa using f2.symm
    have g3 : l2 = l1 ∨ l2 = r1' := by simpa using f3
    have g4 : r2' = l1 ∨ r2' = r1' := by simpa using f4
    obtain rfl : l1 = l2 := by omega
    obtain rfl : r1' = r2' := by omega
    have hcase : r1' = l1 ∨ r1' = l1 + 1 := by omega
    rcases hcase with rfl | rfl
    · have e : r1' - r1' + 1 = 1 := by omega
      rw [e, masks_one] at hm1 hm2
      simp only [List.mem_singleton] at hm1 hm2
      rw [hm1, hm2]
    · have e : l1 + 1 - l1 + 1 = 2 := by omega
      rw [e, masks_two] at hm1 hm2
      have hf1 := footWord_isFoot w l1 (l1 + 1) m1 a1 a2 a3 a5 a6
      have hf2 := footWord_isFoot w l1 (l1 + 1) m2 a1 a2 a3 a5 a6
      have tT1 := Trochee_at_foot _ hw1 l1 (l1 + 1) l1 hf1 (le_refl _) (by omega) t1 hT1
      have tT2 := Trochee_at_foot _ hw2 l1 (l1 + 1) l1 hf2 (le_refl _) (by omega) t1 hT2
      have tI1 := Iamb_at_foot _ hw1 l1 (l1 + 1) l1 hf1 (le_refl _) (by omega) i1 hI1
      have tI2 := Iamb_at_foot _ hw2 l1 (l1 + 1) l1 hf2 (le_refl _) (by omega) i1 hI2
      rw [(footViolates_footWord_two w l1 m1 a3).1] at tT1
      rw [(footViolates_footWord_two w l1 m2 a3).1, tT1] at tT2
      rw [(footViolates_footWord_two w l1 m1 a3).2] at tI1
      rw [(footViolates_footWord_two w l1 m2 a3).2, tI1] at tI2
      have eT := Option.some.inj tT2
      have eI := Option.some.inj tI2
      simp only [List.mem_cons, List.mem_singleton, List.not_mem_nil, or_false] at hm1 hm2
      rcases hm1 with rfl | rfl | rfl <;> rcases hm2 with rfl | rfl | rfl <;>
        first
          | rfl
          | (exfalso; revert eT; decide)
          | (exfalso; revert eI; decide)
  · exfalso
    obtain rfl := List.mem_singleton.1 hn2
    obtain ⟨l1, r1', m1, a1, a2, a3, a4, a5, a6, a7, hm1, rfl⟩ :=
      (mem_newFootWords_footWord c2 c1).1 hn1
    have f1 := hflag l1 (by omega)
    rw [footWord_flagAt c2 l1 r1' m1 _ a1 a2 a3] at f1
    simp [flagAt, a4, a5] at f1
  · exfalso
    obtain rfl := List.mem_singleton.1 hn1
    obtain ⟨l2, r2', m2, b1, b2, b3, b4, b5, b6, b7, hm2, rfl⟩ :=
      (mem_newFootWords_footWord c1 c2).1 hn2
    have f1 := hflag l2 (by omega)
    rw [footWord_flagAt c1 l2 r2' m2 _ b1 b2 b3] at f1
    simp [flagAt, b4, b5] at f1
  · rw [List.mem_singleton.1 hn1, List.mem_singleton.1 hn2]

theorem optMap_fst {α β : Type} (f : α → Option β) :
    ∀ (xs : List α) (ys : List (α × β)),
      optMap (fun a => (f a).map fun b => (a, b)) xs = some ys →
      ys.map Prod.fst = xs ∧ ∀ y ∈ ys, f y.1 = some y.2 := by
  intro xs
  induction xs with
  | nil =>
    intro ys h
    simp only [optMap, Option.some.injEq] at h
    subst h
    exact ⟨rfl, by simp⟩
  | cons a as ih =>
    intro ys h
    unfold optMap at h
    cases hfa : f a with
    | none => simp [hfa] at h
    | some b =>
      cases hrest : optMap (fun a => (f a).map fun b => (a, b)) as with
      | none => simp [hfa, hrest] at h
      | some zs =>
        simp only [hfa, hrest, Option.map_some', Option.some.injEq] at h
        subst h
        obtain ⟨h1, h2⟩ := ih zs hrest
        refine ⟨by simp [h1], ?_⟩
        intro y hy
        rcases List.mem_cons.1 hy with rfl | hy'
        · exact hfa
        · exact h2 y hy'

/-- The scored candidate vector, whenever it is built without fault: the candidates in
generation order, each with its score vector. -/
theorem candidates_structure (w : Word) (cs : List (Word → Option (List Int)))
    (l : List (Word × List Int)) (h : candidates w cs = some l) :
    l.map Prod.fst = newFootWords w ++ [w] ∧
      ∀ d ∈ l, candidateScore cs d.1 = some d.2 := by
  unfold candidates at h
  rw [candidateWords_eq] at h
  exact optMap_fst _ _ _ h

/-- When the score vectors are pairwise distinct, every sorted arrangement of the
candidate vector starts with the same element, the one with the minimal score vector. -/
theorem sorted_head_unique (l : List (Word × List Int)) (best : Word × List Int)
    (hnodup : (l.map Prod.snd).Nodup) (hbest : best ∈ l)
    (hmin : ∀ d ∈ l, lexLess d.2 best.2 = false)
    (out : List (Word × List Int)) (hperm : out.Perm l) (hsorted : SortedByScore out) :
    out.head? = some best := by
  have hbo : best ∈ out := hperm.mem_iff.2 hbest
  cases out with
  | nil => cases hbo
  | cons x rest =>
    have hx : x ∈ l := hperm.mem_iff.1 (List.mem_cons_self _ _)
    rcases List.mem_cons.1 hbo with rfl | hb
    · rfl
    · have h1 : lexLess best.2 x.2 = false := (List.pairwise_cons.1 hsorted).1 best hb
      have h2 : lexLess x.2 best.2 = false := hmin x hx
      have heq : x.2 = best.2 := by
        rcases lexLess_total x.2 best.2 h1 with h | h
        · exact h
        · rw [h] at h2; cases h2
      have := List.inj_on_of_nodup_map hnodup hx hbest heq
      rw [this]
      rfl

/-- The score vectors of the candidates of a round are pairwise distinct. -/
theorem candidates_nodup_scores (w : Word) (h : wellFormedShort w = true)
    (h31 : w.length ≤ 31) (l : List (Word × List Int))
    (hl : candidates w constraints = some l) : (l.map Prod.snd).Nodup := by
  obtain ⟨hfst, hsc⟩ := candidates_structure w constraints l hl
  have hnd : (l.map Prod.fst).Nodup := by rw [hfst]; exact candidateWords_nodup w
  have hl_nodup : l.Nodup := List.Nodup.of_map _ hnd
  apply List.Nodup.map_on _ hl_nodup
  intro x hx y hy hxy
  have hx1 : x.1 ∈ newFootWords w ++ [w] := by
    rw [← hfst]; exact List.mem_map_of_mem _ hx
  have hy1 : y.1 ∈ newFootWords w ++ [w] := by
    rw [← hfst]; exact List.mem_map_of_mem _ hy
  have := candidateScore_inj w h h31 x.1 y.1 hx1 hy1 (by rw [hsc x hx, hsc y hy, hxy])
  exact Prod.ext this hxy

/-- One round on a word with matched feet of length 1 or 2 and at most 31 syllables: the
winner is the one candidate whose score vector is strictly below all others, whatever the
sort does with equal elements. -/
theorem SerialOT_unique_min (w : Word) (h : wellFormedShort w = true) (h31 : w.length ≤ 31) :
    ∃ l best sc, candidates w constraints = some l ∧ (l.map Prod.snd).Nodup ∧
      SerialOT w constraints = some best ∧ (best, sc) ∈ l ∧
      (∀ d ∈ l, d ≠ (best, sc) → lexLess sc d.2 = true) ∧
      (∀ out, out.Perm l → SortedByScore out → out.head? = some (best, sc)) := by
  obtain ⟨l, b0, hl, hne, -, hS⟩ := SerialOT_total w (faultFree_of_matched w (wellFormed_of_short w h))
  have hnodup := candidates_nodup_scores w h h31 l hl
  obtain ⟨best, rest, hsort, hmem, hmin⟩ := sortCandidates_head l hne
  have hSb : SerialOT w constraints = some best.1 := by
    simp only [SerialOT, hl, hsort]
  refine ⟨l, best.1, best.2, hl, hnodup, hSb, hmem, ?_, ?_⟩
  · intro d hd hne'
    rcases lexLess_total best.2 d.2 (hmin d hd) with heq | hlt
    · exact absurd (List.inj_on_of_nodup_map hnodup hd hmem heq.symm) hne'
    · exact hlt
  · intro out hperm hsorted
    exact sorted_head_unique l best hnodup hmem hmin out hperm hsorted

theorem lexLess_asymm (a b : List Int) (h : lexLess a b = true) : lexLess b a = false := by
  by_contra hne
  have hba : lexLess b a = true := by simpa using hne
  have := lexLess_trans a b a h hba
  rw [lexLess_irrefl] at this
  cases this

theorem footViolates_congr (bad2 : Syllable → Syllable → Bool) (c1 c2 : Word) (a b : Nat)
    (ha : c1[a]? = c2[a]?) (hb : c1[b]? = c2[b]?) :
    footViolates bad2 c1 a b = footViolates bad2 c2 a b := by
  simp only [footViolates, lightAt, ha, hb]

theorem isFoot_congr (c1 c2 : Word) (a b : Nat) (hlen : c1.length = c2.length)
    (hL : ∀ k, hasLeftAt c1 k = hasLeftAt c2 k) (hR : ∀ k, hasRightAt c1 k = hasRightAt c2 k)
    (h : IsFoot c1 a b) : IsFoot c2 a b := by
  obtain ⟨h1, h2, h3, h4, h5, h6⟩ := h
  refine ⟨h1, by omega, by rw [← hL]; exact h3, by rw [← hR]; exact h4, ?_, ?_⟩
  · intro k hk hak hkb
    rw [← hL]
    exact h5 k (by omega) hak hkb
  · intro k hk hak hkb
    rw [← hR]
    exact h6 k (by omega) hak hkb

theorem inFoot_congr (c1 c2 : Word) (j : Nat) (hlen : c1.length = c2.length)
    (hL : ∀ k, hasLeftAt c1 k = hasLeftAt c2 k) (hR : ∀ k, hasRightAt c1 k = hasRightAt c2 k)
    (h : InFoot c1 j) : InFoot c2 j := by
  obtain ⟨l, hl, r, hr, hf, h1, h2⟩ := h
  exact ⟨l, by omega, r, by omega, isFoot_congr c1 c2 l r hlen hL hR hf, h1, h2⟩

/-- Outside the new foot, two words generated for the same span are the same. -/
theorem footWord_get_outside (w : Word) (l r m1 m2 i : Nat) (hlr : l ≤ r) (hr : r ≤ l + 1)
    (hi : ¬ (l ≤ i ∧ i ≤ r)) :
    (footWord w l r m1)[i]? = (footWord w l r m2)[i]? := by
  obtain ⟨hlen1, hget1⟩ := footWord_addsFoot w l r m1 hlr hr
  obtain ⟨hlen2, hget2⟩ := footWord_addsFoot w l r m2 hlr hr
  by_cases hin : i < w.length
  · have hs : w[i]? = some w[i] := List.getElem?_eq_getElem hin
    rw [hget1 i _ hs, hget2 i _ hs]
    simp [hi]
  · rw [List.getElem?_eq_none (by omega), List.getElem?_eq_none (by omega)]

/-- Before the new foot, the Trochee marks of two words generated for the same span of two
syllables agree. -/
theorem trochee_prefix_agree (w : Word) (h : wellFormedShort w = true) (l m1 m2 : Nat)
    (hrn : l + 1 < w.length)
    (a4 : hasLeftAt w l = false) (a5 : hasRightAt w l = false)
    (a6 : hasLeftAt w (l + 1) = false) (a7 : hasRightAt w (l + 1) = false)
    (t1 t2 : List Int) (ht1 : Trochee (footWord w l (l + 1) m1) = some t1)
    (ht2 : Trochee (footWord w l (l + 1) m2) = some t2) (j : Nat) (hj : j < l) :
    t1[j]? = t2[j]? := by
  have hlr : l ≤ l + 1 := by omega
  have hs1 : wellFormedShort (footWord w l (l + 1) m1) = true :=
    (footWord_short m1 l w (l + 1) hlr (le_refl _) hrn a4 a5 a6 a7).1 false h
  have hs2 : wellFormedShort (footWord w l (l + 1) m2) = true :=
    (footWord_short m2 l w (l + 1) hlr (le_refl _) hrn a4 a5 a6 a7).1 false h
  have hw1 := wellFormed_of_short _ hs1
  have hw2 := wellFormed_of_short _ hs2
  have hlen1 := footWord_length w l (l + 1) m1 hlr (le_refl _)
  have hlen2 := footWord_length w l (l + 1) m2 hlr (le_refl _)
  have hL : ∀ k, hasLeftAt (footWord w l (l + 1) m1) k = hasLeftAt (footWord w l (l + 1) m2) k := by
    intro k
    rw [footWord_hasLeftAt w l (l + 1) m1 k hlr (le_refl _) hrn,
      footWord_hasLeftAt w l (l + 1) m2 k hlr (le_refl _) hrn]
  have hR : ∀ k, hasRightAt (footWord w l (l + 1) m1) k =
      hasRightAt (footWord w l (l + 1) m2) k := by
    intro k
    rw [footWord_hasRightAt w l (l + 1) m1 k hlr (le_refl _) hrn,
      footWord_hasRightAt w l (l + 1) m2 k hlr (le_refl _) hrn]
  by_cases hin : InFoot (footWord w l (l + 1) m1) j
  · obtain ⟨a, -, b, -, hf, haj, hjb⟩ := hin
    have hf2 := isFoot_congr _ _ a b (by omega) hL hR hf
    have hbl : b < l := by
      by_contra hge
      have := hf.2.2.2.2.1 l (by omega) (by omega) (by omega)
      rw [footWord_hasLeftAt w l (l + 1) m1 l hlr (le_refl _) hrn] at this
      simp at this
    rw [Trochee_at_foot _ hw1 a b j hf haj hjb t1 ht1,
      Trochee_at_foot _ hw2 a b j hf2 haj hjb t2 ht2,
      footViolates_congr trocheeBad _ _ a b
        (footWord_get_outside w l (l + 1) m1 m2 a hlr (le_refl _) (by omega))
        (footWord_get_outside w l (l + 1) m1 m2 b hlr (le_refl _) (by omega))]
  · have hin2 : ¬ InFoot (footWord w l (l + 1) m2) j := fun h2 =>
      hin (inFoot_congr _ _ j (by omega) (fun k => (hL k).symm) (fun k => (hR k).symm) h2)
    rw [Trochee_outside _ hw1 j (by omega) hin t1 ht1,
      Trochee_outside _ hw2 j (by omega) hin2 t2 ht2]

/-- On a new two-syllable foot, stressing the left syllable alone gives a Trochee score
strictly below that of any other stress pattern. -/
theorem trochee_mask_one_lt (w : Word) (h : wellFormedShort w = true) (h31 : w.length ≤ 31)
    (l m : Nat) (hrn : l + 1 < w.length)
    (a4 : hasLeftAt w l = false) (a5 : hasRightAt w l = false)
    (a6 : hasLeftAt w (l + 1) = false) (a7 : hasRightAt w (l + 1) = false)
    (hm : m = 2 ∨ m = 3)
    (t1 tm : List Int) (ht1 : Trochee (footWord w l (l + 1) 1) = some t1)
    (htm : Trochee (footWord w l (l + 1) m) = some tm) : score t1 < score tm := by
  have hlr : l ≤ l + 1 := by omega
  have hs1 : wellFormedShort (footWord w l (l + 1) 1) = true :=
    (footWord_short 1 l w (l + 1) hlr (le_refl _) hrn a4 a5 a6 a7).1 false h
  have hsm : wellFormedShort (footWord w l (l + 1) m) = true :=
    (footWord_short m l w (l + 1) hlr (le_refl _) hrn a4 a5 a6 a7).1 false h
  have hw1 := wellFormed_of_short _ hs1
  have hwm := wellFormed_of_short _ hsm
  have hlen1 := footWord_length w l (l + 1) 1 hlr (le_refl _)
  have hlenm := footWord_length w l (l + 1) m hlr (le_refl _)
  obtain ⟨t1', _, _, _, hT1, -, -, -, -, hv1⟩ := constraints_some _ hw1
  obtain ⟨tm', _, _, _, hTm, -, -, -, -, hvm⟩ := constraints_some _ hwm
  rw [ht1] at hT1
  obtain rfl := Option.some.inj hT1
  rw [htm] at hTm
  obtain rfl := Option.some.inj hTm
  have hf1 := footWord_isFoot w l (l + 1) 1 hlr (le_refl _) hrn a5 a6
  have hfm := footWord_isFoot w l (l + 1) m hlr (le_refl _) hrn a5 a6
  have e1 := Trochee_at_foot _ hw1 l (l + 1) l hf1 (le_refl _) (by omega) t1 ht1
  have em := Trochee_at_foot _ hwm l (l + 1) l hfm (le_refl _) (by omega) tm htm
  rw [(footViolates_footWord_two w l 1 hrn).1] at e1
  rw [(footViolates_footWord_two w l m hrn).1] at em
  have e1' : t1[l]? = some 0 := by
    rw [e1]; decide
  have em' : tm[l]? = some 1 := by
    rw [em]
    rcases hm with rfl | rfl <;> decide
  exact score_lt_of_first_diff t1 tm l
    (by rw [(hv1 t1 (by simp)).1, (hvm tm (by simp)).1, hlen1, hlenm])
    (by rw [(hv1 t1 (by simp)).1, hlen1]; exact h31)
    (hv1 t1 (by simp)).2 (hvm tm (by simp)).2
    (fun j hj => trochee_prefix_agree w h l 1 m hrn a4 a5 a6 a7 t1 tm ht1 htm j hj) e1' em'

/-- Two candidates with the same ParseLeft marks are the same word or two words generated
for the same span of two syllables. -/
theorem same_span_of_parseLeft (w : Word) (c1 c2 : Word)
    (hc1 : c1 ∈ newFootWords w ++ [w]) (hc2 : c2 ∈ newFootWords w ++ [w])
    (hP : unparsedMarks c1 = unparsedMarks c2) :
    c1 = c2 ∨ ∃ l m1 m2, l + 1 < w.length ∧
      hasLeftAt w l = false ∧ hasRightAt w l = false ∧
      hasLeftAt w (l + 1) = false ∧ hasRightAt w (l + 1) = false ∧
      m1 ∈ [1, 2, 3] ∧ m2 ∈ [1, 2, 3] ∧
      c1 = footWord w l (l + 1) m1 ∧ c2 = footWord w l (l + 1) m2 := by
  have hl1 := candidate_length w c1 hc1
  have hl2 := candidate_length w c2 hc2
  have hflag : ∀ j, j < w.length → flagAt c1 j = flagAt c2 j := by
    intro j hj
    have e1 := unparsedMarks_get c1 j (by omega)
    have e2 := unparsedMarks_get c2 j (by omega)
    rw [hP, e2] at e1
    have e3 := Option.some.inj e1
    cases h1 : flagAt c1 j <;> cases h2 : flagAt c2 j <;> simp [h1, h2] at e3 ⊢
  rcases List.mem_append.1 hc1 with hn1 | hn1 <;> rcases List.mem_append.1 hc2 with hn2 | hn2
  · obtain ⟨l1, r1', m1, a1, a2, a3, a4, a5, a6, a7, hm1, rfl⟩ :=
      (mem_newFootWords_footWord w c1).1 hn1
    obtain ⟨l2, r2', m2, b1, b2, b3, b4, b5, b6, b7, hm2, rfl⟩ :=
      (mem_newFootWords_footWord w c2).1 hn2
    have unfl : ∀ k, hasLeftAt w k = false → hasRightAt w k = false → flagAt w k = false := by
      intro k hk1 hk2
      simp [flagAt, hk1, hk2]
    have f1 := hflag l1 (by omega)
    have f2 := hflag r1' (by omega)
    have f3 := hflag l2 (by omega)
    have f4 := hflag r2' (by omega)
    simp only [footWord_flagAt w l1 r1' m1 _ a1 a2 a3, footWord_flagAt w l2 r2' m2 _ b1 b2 b3,
      unfl l1 a4 a5, unfl r1' a6 a7, unfl l2 b4 b5, unfl r2' b6 b7, decide_True,
      Bool.or_true, Bool.true_or, Bool.false_or] at f1 f2 f3 f4
    have g1 : l1 = l2 ∨ l1 = r2' := by simpa using f1.symm
    have g2 : r1' = l2 ∨ r1' = r2' := by simpa using f2.symm
    have g3 : l2 = l1 ∨ l2 = r1' := by simpa using f3
    have g4 : r2' = l1 ∨ r2' = r1' := by simpa using f4
    obtain rfl : l1 = l2 := by omega
    obtain rfl : r1' = r2' := by omega
    have hcase : r1' = l1 ∨ r1' = l1 + 1 := by omega
    rcases hcase with rfl | rfl
    · left
      have e : r1' - r1' + 1 = 1 := by omega
      rw [e, masks_one] at hm1 hm2
      simp only [List.mem_singleton] at hm1 hm2
      rw [hm1, hm2]
    · right
      have e : l1 + 1 - l1 + 1 = 2 := by omega
      rw [e, masks_two] at hm1 hm2
      exact ⟨l1, m1, m2, a3, a4, a5, a6, a7, hm1, hm2, rfl, rfl⟩
  · exfalso
    obtain rfl := List.mem_singleton.1 hn2
    obtain ⟨l1, r1', m1, a1, a2, a3, a4, a5, a6, a7, hm1, rfl⟩ :=
      (mem_newFootWords_footWord c2 c1).1 hn1
    have f1 := hflag l1 (by omega)
    rw [footWord_flagAt c2 l1 r1' m1 _ a1 a2 a3] at f1
    simp [flagAt, a4, a5] at f1
  · exfalso
    obtain rfl := List.mem_singleton.1 hn1
    obtain ⟨l2, r2', m2, b1, b2, b3, b4, b5, b6, b7, hm2, rfl⟩ :=
      (mem_newFootWords_footWord c1 c2).1 hn2
    have f1 := hflag l2 (by omega)
    rw [footWord_flagAt c1 l2 r2' m2 _ b1 b2 b3] at f1
    simp [flagAt, b4, b5] at f1
  · left
    rw [List.mem_singleton.1 hn1, List.mem_singleton.1 hn2]

/-- The score vector of a candidate under the ranking Trochee, ParseLeft is the beginning
of its score vector under the full ranking. -/
theorem truncated_score (w : Word) (hw : wellFormed w = true) :
    ∃ t p i r, Trochee w = some t ∧ ParseLeft w = some p ∧
      candidateScore constraints w = some [score t, score p, score i, score r] ∧
      candidateScore [Trochee, ParseLeft] w = some [score t, score p] ∧
      (∀ v ∈ [t, p], v.length = w.length ∧ ∀ x ∈ v, x = 0 ∨ x = 1) := by
  obtain ⟨t, p, i, r, hT, hP, -, -, hs, hv⟩ := constraints_some w hw
  refine ⟨t, p, i, r, hT, hP, hs, ?_, ?_⟩
  · simp [candidateScore, optMap, hT, hP]
  · intro v hvm
    simp only [List.mem_cons, List.mem_singleton, List.not_mem_nil, or_false] at hvm
    rcases hvm with rfl | rfl
    · exact hv _ (by simp)
    · exact hv _ (by simp)

/-- Under the ranking Trochee, ParseLeft alone, the winner of the full ranking is already
strictly below every other candidate. -/
theorem truncated_strict (w : Word) (h : wellFormedShort w = true) (h31 : w.length ≤ 31)
    (best : Word) (hS : SerialOT w constraints = some best)
    (cand : Word) (hc : cand ∈ newFootWords w ++ [w]) (hne : cand ≠ best) :
    ∃ sb sc, candidateScore [Trochee, ParseLeft] best = some sb ∧
      candidateScore [Trochee, ParseLeft] cand = some sc ∧ lexLess sb sc = true := by
  obtain ⟨l, best', sc, hl, hnodup, hS', hmem, hstrict, -⟩ := SerialOT_unique_min w h h31
  rw [hS] at hS'
  obtain rfl := Option.some.inj hS'
  obtain ⟨hfst, hsc⟩ := candidates_structure w constraints l hl
  have hbm : best ∈ newFootWords w ++ [w] := by
    rw [← hfst]; exact List.mem_map_of_mem Prod.fst hmem
  have entry : ∀ c ∈ newFootWords w ++ [w], ∀ s, candidateScore constraints c = some s →
      (c, s) ∈ l := by
    intro c hcm s hs
    rw [← hfst] at hcm
    obtain ⟨d, hd, rfl⟩ := List.mem_map.1 hcm
    have := hsc d hd
    rw [hs] at this
    rw [Option.some.inj this]
    exact hd
  have hwb := wellFormed_of_short best (candidate_short w best h hbm)
  have hwc := wellFormed_of_short cand (candidate_short w cand h hc)
  obtain ⟨tb, pb, ib, rb, hTb, hPb, hsb, htb, hvb⟩ := truncated_score best hwb
  obtain ⟨tc, pc, ic, rc, hTc, hPc, hsc', htc, hvc⟩ := truncated_score cand hwc
  have hlb := candidate_length w best hbm
  have hlc := candidate_length w cand hc
  have hscb : sc = [score tb, score pb, score ib, score rb] := by
    have := hsc (best, sc) hmem
    simp only at this
    rw [hsb] at this
    exact (Option.some.inj this).symm
  have hdc := entry cand hc _ hsc'
  have hlt := hstrict _ hdc (by
    intro he
    exact hne (congrArg Prod.fst he))
  rw [hscb] at hlt
  simp only at hlt
  refine ⟨_, _, htb, htc, ?_⟩
  by_cases hT : score tb < score tc
  · simp [lexLess, hT]
  · by_cases hT' : score tc < score tb
    · simp [lexLess, hT, hT'] at hlt
    · by_cases hP : score pb < score pc
      · simp [lexLess, hT, hT', hP]
      · by_cases hP' : score pc < score pb
        · simp [lexLess, hT, hT', hP, hP'] at hlt
        · exfalso
          have eT : score tb = score tc := by omega
          have eP : score pb = score pc := by omega
          have ep : pb = pc := score_injective pb pc
            (by rw [(hvb pb (by simp)).1, (hvc pc (by simp)).1, hlb, hlc])
            (by rw [(hvb pb (by simp)).1, hlb]; exact h31)
            (hvb pb (by simp)).2 (hvc pc (by simp)).2 eP
          have et : tb = tc := score_injective tb tc
            (by rw [(hvb tb (by simp)).1, (hvc tc (by simp)).1, hlb, hlc])
            (by rw [(hvb tb (by simp)).1, hlb]; exact h31)
            (hvb tb (by simp)).2 (hvc tc (by simp)).2 eT
          subst ep et
          have hmarks : unparsedMarks best = unparsedMarks cand := by
            rw [← ParseLeft_eq best pb hPb, ← ParseLeft_eq cand pb hPc]
          rcases same_span_of_parseLeft w best cand hbm hc hmarks with heq |
              ⟨l0, mb, mc, a3, a4, a5, a6, a7, hmb, hmc, rfl, rfl⟩
          · exact hne heq.symm
          · have hlr : l0 ≤ l0 + 1 := by omega
            have hfb := footWord_isFoot w l0 (l0 + 1) mb hlr (le_refl _) a3 a5 a6
            have hfc := footWord_isFoot w l0 (l0 + 1) mc hlr (le_refl _) a3 a5 a6
            have e1 := Trochee_at_foot _ hwb l0 (l0 + 1) l0 hfb (le_refl _) (by omega) tb hTb
            have e2 := Trochee_at_foot _ hwc l0 (l0 + 1) l0 hfc (le_refl _) (by omega) tb hTc
            rw [(footViolates_footWord_two w l0 mb a3).1] at e1
            rw [(footViolates_footWord_two w l0 mc a3).1, e1] at e2
            have e3 := Option.some.inj e2
            have hmb23 : mb = 2 ∨ mb = 3 := by
              simp only [List.mem_cons, List.mem_singleton, List.not_mem_nil, or_false]
                at hmb hmc
              rcases hmb with rfl | rfl | rfl
              · rcases hmc with rfl | rfl | rfl
                · exact absurd rfl hne
                · exfalso; revert e3; decide
                · exfalso; revert e3; decide
              · exact Or.inl rfl
              · exact Or.inr rfl
            -- the candidate that stresses the left syllable alone beats the winner
            have hc1 : footWord w l0 (l0 + 1) 1 ∈ newFootWords w ++ [w] := by
              apply List.mem_append_left
              rw [mem_newFootWords_footWord]
              refine ⟨l0, l0 + 1, 1, hlr, le_refl _, a3, a4, a5, a6, a7, ?_, rfl⟩
              have e : l0 + 1 - l0 + 1 = 2 := by omega
              rw [e, masks_two]
              simp
            have hw1 := wellFormed_of_short _ (candidate_short w _ h hc1)
            obtain ⟨t1, p1, i1, r1, hT1, -, hs1, -, -⟩ := truncated_score _ hw1
            have hlt1 := trochee_mask_one_lt w h h31 l0 mb a3 a4 a5 a6 a7 hmb23 t1 tb hT1 hTb
            have hd1 := entry _ hc1 _ hs1
            have hne1 : ((footWord w l0 (l0 + 1) 1, [score t1, score p1, score i1, score r1]) :
                Word × List Int) ≠ (footWord w l0 (l0 + 1) mb, sc) := by
              intro he
              have := congrArg Prod.snd he
              simp only at this
              rw [hscb] at this
              have := (List.cons.inj this).1
              omega
            have h1 := hstrict _ hd1 hne1
            rw [hscb] at h1
            simp only at h1
            have h2 : lexLess [score t1, score p1, score i1, score r1]
                [score tb, score pb, score ib, score rb] = true := by
              simp [lexLess, hlt1]
            rw [lexLess_asymm _ _ h2] at h1
            cases h1

/-! ## The closed form of the result of the driver -/

/-- Outside the new foot a generated word is the input word. -/
theorem footWord_get_outside_eq (w : Word) (l r mask i : Nat) (hlr : l ≤ r) (hr : r ≤ l + 1)
    (hi : ¬ (l ≤ i ∧ i ≤ r)) : (footWord w l r mask)[i]? = w[i]? := by
  obtain ⟨hlen, hget⟩ := footWord_addsFoot w l r mask hlr hr
  by_cases hin : i < w.length
  · have hs : w[i]? = some w[i] := List.getElem?_eq_getElem hin
    have h1 : ¬ i = l := by omega
    have h2 : ¬ i = r := by omega
    rw [hget i _ hs, hs]
    simp [hi, h1, h2]
  · rw [List.getElem?_eq_none (by omega), List.getElem?_eq_none (by omega)]

/-- A foot of a generated word is the new foot or a foot of the input word that does not
touch the new one. -/
theorem footWord_isFoot_inv (w : Word) (l r mask a b : Nat) (hlr : l ≤ r) (hr : r ≤ l + 1)
    (hrn : r < w.length) (a4 : hasLeftAt w l = false) (a5 : hasRightAt w l = false)
    (a6 : hasLeftAt w r = false) (a7 : hasRightAt w r = false)
    (hf : IsFoot (footWord w l r mask) a b) :
    (a = l ∧ b = r) ∨
      (IsFoot w a b ∧ ¬ (l ≤ a ∧ a ≤ r) ∧ ¬ (l ≤ b ∧ b ≤ r)) := by
  have hlen := footWord_length w l r mask hlr hr
  have hL : ∀ k, hasLeftAt (footWord w l r mask) k = (hasLeftAt w k || decide (k = l)) :=
    fun k => footWord_hasLeftAt w l r mask k hlr hr hrn
  have hR : ∀ k, hasRightAt (footWord w l r mask) k = (hasRightAt w k || decide (k = r)) :=
    fun k => footWord_hasRightAt w l r mask k hlr hr hrn
  obtain ⟨h1, h2, h3, h4, h5, h6⟩ := hf
  rw [hlen] at h2
  by_cases hal : a = l
  · subst hal
    left
    refine ⟨rfl, ?_⟩
    rcases Nat.lt_trichotomy b r with hlt | heq | hgt
    · exfalso
      obtain rfl : b = a := by omega
      rw [hR, a5] at h4
      have : ¬ b = r := by omega
      simp [this] at h4
    · exact heq
    · exfalso
      have := h6 r (by omega) (by omega) hgt
      rw [hR] at this
      simp at this
  · right
    have hLa : hasLeftAt w a = true := by
      rw [hL] at h3
      simpa [hal] using h3
    have har : ¬ a = r := by
      intro e
      rw [e, a6] at hLa
      cases hLa
    have hbr : ¬ b = r := by
      intro e
      subst e
      have hlt : a < l := by omega
      have := h5 l (by omega) hlt (by omega)
      rw [hL] at this
      simp at this
    have hRb : hasRightAt w b = true := by
      rw [hR] at h4
      simpa [hbr] using h4
    have hbl : ¬ b = l := by
      intro e
      rw [e, a5] at hRb
      cases hRb
    refine ⟨⟨h1, h2, hLa, hRb, ?_, ?_⟩, by omega, by omega⟩
    · intro k hk hak hkb
      have := h5 k (by omega) hak hkb
      rw [hL] at this
      simp only [Bool.or_eq_false_iff] at this
      exact this.1
    · intro k hk hak hkb
      have := h6 k (by omega) hak hkb
      rw [hR] at this
      simp only [Bool.or_eq_false_iff] at this
      exact this.1

/-- Bracketing a new foot that passes the Trochee test keeps all feet passing it. -/
theorem allTrochaic_footWord (w : Word) (l r mask : Nat) (hlr : l ≤ r) (hr : r ≤ l + 1)
    (hrn : r < w.length) (a4 : hasLeftAt w l = false) (a5 : hasRightAt w l = false)
    (a6 : hasLeftAt w r = false) (a7 : hasRightAt w r = false) (hw : AllTrochaic w)
    (hnew : footViolates trocheeBad (footWord w l r mask) l r = false) :
    AllTrochaic (footWord w l r mask) := by
  intro a b hf
  rcases footWord_isFoot_inv w l r mask a b hlr hr hrn a4 a5 a6 a7 hf with
    ⟨rfl, rfl⟩ | ⟨hfw, ha, hb⟩
  · exact hnew
  · rw [footViolates_congr trocheeBad _ w a b
      (footWord_get_outside_eq w l r mask a hlr hr ha)
      (footWord_get_outside_eq w l r mask b hlr hr hb)]
    exact hw a b hfw

/-- When every foot passes the Trochee test, the Trochee score is 0. -/
theorem trochee_score_zero (w : Word) (hw : wellFormed w = true) (h31 : w.length ≤ 31)
    (hall : AllTrochaic w) (t : List Int) (ht : Trochee w = some t) : score t = 0 := by
  obtain ⟨t', _, _, _, hT, -, -, -, -, hv⟩ := constraints_some w hw
  rw [ht] at hT
  obtain rfl := Option.some.inj hT
  have hlen := (hv t (by simp)).1
  apply score_zero t (by omega)
  intro j hj
  by_cases hin : InFoot w j
  · obtain ⟨a, -, b, -, hf, haj, hjb⟩ := hin
    rw [Trochee_at_foot w hw a b j hf haj hjb t ht, hall a b hf]
    simp
  · exact Trochee_outside w hw j (by omega) hin t ht

/-- A candidate whose score vector is strictly below that of every other candidate is the
winner of the round. -/
theorem SerialOT_eq_of_strict_min (w : Word) (h : wellFormedShort w = true) (x : Word)
    (hx : x ∈ newFootWords w ++ [w])
    (hstrict : ∀ cand ∈ newFootWords w ++ [w], cand ≠ x →
      ∃ sx sc, candidateScore constraints x = some sx ∧
        candidateScore constraints cand = some sc ∧ lexLess sx sc = true) :
    SerialOT w constraints = some x := by
  obtain ⟨best, sc, hS, hmem, hsc, hmin⟩ := SerialOT_spec w h
  by_cases hbx : best = x
  · rw [← hbx]; exact hS
  · exfalso
    obtain ⟨sx, sb, hsx, hsb, hlt⟩ := hstrict best hmem hbx
    obtain ⟨sx', hsx', hle⟩ := hmin x hx
    rw [hsx] at hsx'
    obtain rfl := Option.some.inj hsx'
    rw [hsc] at hsb
    obtain rfl := Option.some.inj hsb
    rw [hlt] at hle
    cases hle

/-- Comparison of two score vectors when the first has Trochee score 0. -/
theorem lexLess_of_trochee_zero (px ix rx tc pc ic rc : Int) (htc : 0 ≤ tc)
    (h : 0 < tc ∨ px < pc) : lexLess [0, px, ix, rx] [tc, pc, ic, rc] = true := by
  by_cases h0 : 0 < tc
  · simp [lexLess, h0]
  · have : tc = 0 := by omega
    subst this
    rcases h with h | h
    · exact absurd h h0
    · simp [lexLess, h]

theorem flagAt_false (w : Word) (j : Nat) (h : flagAt w j = false) :
    hasLeftAt w j = false ∧ hasRightAt w j = false := by
  simpa [flagAt] using h

/-- The ParseLeft score drops when the first syllable on which the flags of two words
differ is flagged in the first word. -/
theorem parseLeft_lt (x cand : Word) (q : Nat) (hlen : x.length = cand.length)
    (h31 : x.length ≤ 31) (hq : q < x.length)
    (hpre : ∀ j, j < q → flagAt x j = flagAt cand j)
    (hx : flagAt x q = true) (hc : flagAt cand q = false) :
    score (unparsedMarks x) < score (unparsedMarks cand) := by
  apply score_lt_of_first_diff (unparsedMarks x) (unparsedMarks cand) q
    (by simp [unparsedMarks, hlen]) (by simpa [unparsedMarks] using h31)
    (unparsedMarks_zero_one x) (unparsedMarks_zero_one cand)
  · intro j hj
    rw [unparsedMarks_get x j (by omega), unparsedMarks_get cand j (by omega), hpre j hj]
  · rw [unparsedMarks_get x q hq, hx]
    rfl
  · rw [unparsedMarks_get cand q (by omega), hc]
    rfl

/-- The score vector of a matched word, with the ParseLeft marks spelled out. -/
theorem score_vector (w : Word) (hw : wellFormed w = true) (h31 : w.length ≤ 31) :
    ∃ t i r : List Int, Trochee w = some t ∧
      candidateScore constraints w =
        some [score t, score (unparsedMarks w), score i, score r] ∧
      0 ≤ score t ∧ (∀ j : Nat, t[j]? = some (1 : Int) → 0 < score t) := by
  obtain ⟨t, p, i, r, hT, hP, -, -, hs, hv⟩ := constraints_some w hw
  have hp := ParseLeft_eq w p hP
  subst hp
  have ht := hv t (by simp)
  refine ⟨t, i, r, hT, hs, score_nonneg t (by rw [ht.1]; exact h31) ht.2, ?_⟩
  intro j hj
  exact score_pos t j (by rw [ht.1]; exact h31) ht.2 hj

/-- A round on a word whose first `p` syllables are parsed into trochees and with two
unparsed syllables at `p`: the winner brackets them with the stress on the left. -/
theorem step_two (w : Word) (p : Nat) (hinv : ParsedUpTo w p) (hp : p + 1 < w.length) :
    SerialOT w constraints = some (footWord w p (p + 1) 1) ∧
      ParsedUpTo (footWord w p (p + 1) 1) (p + 2) := by
  obtain ⟨hshort, h31, -, hflagged, hunflagged, hall⟩ := hinv
  obtain ⟨a4, a5⟩ := flagAt_false w p (hunflagged p (le_refl _))
  obtain ⟨a6, a7⟩ := flagAt_false w (p + 1) (hunflagged (p + 1) (by omega))
  have hlr : p ≤ p + 1 := by omega
  have hxmem : footWord w p (p + 1) 1 ∈ newFootWords w ++ [w] := by
    apply List.mem_append_left
    rw [mem_newFootWords_footWord]
    refine ⟨p, p + 1, 1, hlr, le_refl _, hp, a4, a5, a6, a7, ?_, rfl⟩
    have e : p + 1 - p + 1 = 2 := by omega
    rw [e, masks_two]
    simp
  have hxshort := candidate_short w _ hshort hxmem
  have hxw := wellFormed_of_short _ hxshort
  have hxlen := footWord_length w p (p + 1) 1 hlr (le_refl _)
  have hxall : AllTrochaic (footWord w p (p + 1) 1) :=
    allTrochaic_footWord w p (p + 1) 1 hlr (le_refl _) hp a4 a5 a6 a7 hall
      (by rw [(footViolates_footWord_two w p 1 hp).1]; decide)
  have hxflag : ∀ j, flagAt (footWord w p (p + 1) 1) j =
      (flagAt w j || decide (j = p) || decide (j = p + 1)) :=
    fun j => footWord_flagAt w p (p + 1) 1 j hlr (le_refl _) hp
  constructor
  · obtain ⟨tx, ix, rx, hTx, hsx, -, -⟩ := score_vector _ hxw (by omega)
    have htx0 := trochee_score_zero _ hxw (by omega) hxall tx hTx
    apply SerialOT_eq_of_strict_min w hshort _ hxmem
    intro cand hc hne
    have hcw := wellFormed_of_short _ (candidate_short w cand hshort hc)
    have hclen := candidate_length w cand hc
    obtain ⟨tc, ic, rc, hTc, hsc, htc0, htcpos⟩ := score_vector cand hcw (by omega)
    refine ⟨_, _, hsx, hsc, ?_⟩
    rw [htx0]
    apply lexLess_of_trochee_zero _ _ _ _ _ _ _ htc0
    rcases List.mem_append.1 hc with hn | hn
    · obtain ⟨a, b, m, b1, b2, b3, b4, b5, b6, b7, hm, rfl⟩ :=
        (mem_newFootWords_footWord w cand).1 hn
      have hcflag : ∀ j, flagAt (footWord w a b m) j =
          (flagAt w j || decide (j = a) || decide (j = b)) :=
        fun j => footWord_flagAt w a b m j b1 b2 b3
      have hap : p ≤ a := by
        by_contra hlt
        have := hflagged a (by omega)
        simp [flagAt, b4, b5] at this
      rcases Nat.lt_or_ge p a with hgt | hle
      · right
        apply parseLeft_lt _ _ p (by omega) (by omega) (by omega)
        · intro j hj
          rw [hxflag, hcflag, hflagged j hj]
          simp
        · rw [hxflag]; simp
        · rw [hcflag, hunflagged p (le_refl _)]
          have h1 : ¬ p = a := by omega
          have h2 : ¬ p = b := by omega
          simp [h1, h2]
      · obtain rfl : a = p := by omega
        have hcase : b = a ∨ b = a + 1 := by omega
        rcases hcase with rfl | rfl
        · right
          apply parseLeft_lt _ _ (b + 1) (by omega) (by omega) (by omega)
          · intro j hj
            rw [hxflag, hcflag]
            by_cases hjb : j = b
            · simp [hjb]
            · rw [hflagged j (by omega)]
              simp
          · rw [hxflag]; simp
          · rw [hcflag, hunflagged (b + 1) (by omega)]
            simp
        · left
          have e : a + 1 - a + 1 = 2 := by omega
          rw [e, masks_two] at hm
          have hm23 : m = 2 ∨ m = 3 := by
            simp only [List.mem_cons, List.mem_singleton, List.not_mem_nil, or_false] at hm
            rcases hm with rfl | rfl | rfl
            · exact absurd rfl hne
            · exact Or.inl rfl
            · exact Or.inr rfl
          have hf := footWord_isFoot w a (a + 1) m hlr (le_refl _) hp a5 a6
          have e1 := Trochee_at_foot _ hcw a (a + 1) a hf (le_refl _) (by omega) tc hTc
          rw [(footViolates_footWord_two w a m hp).1] at e1
          apply htcpos a
          rw [e1]
          rcases hm23 with rfl | rfl <;> decide
    · obtain rfl := List.mem_singleton.1 hn
      right
      apply parseLeft_lt _ _ p (by omega) (by omega) (by omega)
      · intro j hj
        rw [hxflag, hflagged j hj]
        simp
      · rw [hxflag]; simp
      · exact hunflagged p (le_refl _)
  · refine ⟨hxshort, by omega, by omega, ?_, ?_, hxall⟩
    · intro j hj
      rw [hxflag]
      by_cases h1 : j = p
      · simp [h1]
      · by_cases h2 : j = p + 1
        · simp [h2]
        · rw [hflagged j (by omega)]
          simp
    · intro j hj
      rw [hxflag, hunflagged j (by omega)]
      have h1 : ¬ j = p := by omega
      have h2 : ¬ j = p + 1 := by omega
      simp [h1, h2]

/-- A round on a word whose only unparsed syllable is a final Heavy one: the winner makes
it a stressed foot of its own. -/
theorem step_heavy (w : Word) (p : Nat) (hinv : ParsedUpTo w p) (hp : p + 1 = w.length)
    (hH : lightAt w p = false) :
    SerialOT w constraints = some (footWord w p p 1) ∧
      ParsedUpTo (footWord w p p 1) (p + 1) := by
  obtain ⟨hshort, h31, -, hflagged, hunflagged, hall⟩ := hinv
  obtain ⟨a4, a5⟩ := flagAt_false w p (hunflagged p (le_refl _))
  have hpn : p < w.length := by omega
  have hxmem : footWord w p p 1 ∈ newFootWords w ++ [w] := by
    apply List.mem_append_left
    rw [mem_newFootWords_footWord]
    refine ⟨p, p, 1, le_refl _, by omega, hpn, a4, a5, a4, a5, ?_, rfl⟩
    have e : p - p + 1 = 1 := by omega
    rw [e, masks_one]
    simp
  have hxshort := candidate_short w _ hshort hxmem
  have hxw := wellFormed_of_short _ hxshort
  have hxlen := footWord_length w p p 1 (le_refl _) (by omega)
  have hxall : AllTrochaic (footWord w p p 1) :=
    allTrochaic_footWord w p p 1 (le_refl _) (by omega) hpn a4 a5 a4 a5 hall
      (by rw [footViolates_one, footWord_lightAt w p p 1 p (le_refl _) (by omega)]
          exact hH)
  have hxflag : ∀ j, flagAt (footWord w p p 1) j =
      (flagAt w j || decide (j = p) || decide (j = p)) :=
    fun j => footWord_flagAt w p p 1 j (le_refl _) (by omega) hpn
  constructor
  · obtain ⟨tx, ix, rx, hTx, hsx, -, -⟩ := score_vector _ hxw (by omega)
    have htx0 := trochee_score_zero _ hxw (by omega) hxall tx hTx
    apply SerialOT_eq_of_strict_min w hshort _ hxmem
    intro cand hc hne
    have hcw := wellFormed_of_short _ (candidate_short w cand hshort hc)
    have hclen := candidate_length w cand hc
    obtain ⟨tc, ic, rc, hTc, hsc, htc0, htcpos⟩ := score_vector cand hcw (by omega)
    refine ⟨_, _, hsx, hsc, ?_⟩
    rw [htx0]
    apply lexLess_of_trochee_zero _ _ _ _ _ _ _ htc0
    rcases List.mem_append.1 hc with hn | hn
    · exfalso
      obtain ⟨a, b, m, b1, b2, b3, b4, b5, b6, b7, hm, rfl⟩ :=
        (mem_newFootWords_footWord w cand).1 hn
      have hap : p ≤ a := by
        by_contra hlt
        have := hflagged a (by omega)
        simp [flagAt, b4, b5] at this
      obtain rfl : a = p := by omega
      obtain rfl : b = a := by omega
      have e : b - b + 1 = 1 := by omega
      rw [e, masks_one] at hm
      obtain rfl := List.mem_singleton.1 hm
      exact hne rfl
    · obtain rfl := List.mem_singleton.1 hn
      right
      apply parseLeft_lt _ _ p (by omega) (by omega) (by omega)
      · intro j hj
        rw [hxflag, hflagged j hj]
        simp
      · rw [hxflag]; simp
      · exact hunflagged p (le_refl _)
  · refine ⟨hxshort, by omega, by omega, ?_, ?_, hxall⟩
    · intro j hj
      rw [hxflag]
      by_cases h1 : j = p
      · simp [h1]
      · rw [hflagged j (by omega)]
        simp
    · intro j hj
      rw [hxflag, hunflagged j (by omega)]
      have h1 : ¬ j = p := by omega
      simp [h1]

/-- A round on a word that is parsed up to at most one final Light syllable: the word
itself wins. -/
theorem step_done (w : Word) (p : Nat) (hinv : ParsedUpTo w p)
    (hp : p = w.length ∨ (p + 1 = w.length ∧ lightAt w p = true)) :
    SerialOT w constraints = some w := by
  obtain ⟨hshort, h31, -, hflagged, hunflagged, hall⟩ := hinv
  have hww := wellFormed_of_short _ hshort
  have hxmem : w ∈ newFootWords w ++ [w] := by simp
  obtain ⟨tx, ix, rx, hTx, hsx, -, -⟩ := score_vector _ hww h31
  have htx0 := trochee_score_zero _ hww h31 hall tx hTx
  apply SerialOT_eq_of_strict_min w hshort _ hxmem
  intro cand hc hne
  have hcw := wellFormed_of_short _ (candidate_short w cand hshort hc)
  have hclen := candidate_length w cand hc
  obtain ⟨tc, ic, rc, hTc, hsc, htc0, htcpos⟩ := score_vector cand hcw (by omega)
  refine ⟨_, _, hsx, hsc, ?_⟩
  rw [htx0]
  apply lexLess_of_trochee_zero _ _ _ _ _ _ _ htc0
  rcases List.mem_append.1 hc with hn | hn
  · obtain ⟨a, b, m, b1, b2, b3, b4, b5, b6, b7, hm, rfl⟩ :=
      (mem_newFootWords_footWord w cand).1 hn
    have hap : p ≤ a := by
      by_contra hlt
      have := hflagged a (by omega)
      simp [flagAt, b4, b5] at this
    rcases hp with hp | ⟨hp, hL⟩
    · omega
    · left
      obtain rfl : a = p := by omega
      obtain rfl : b = a := by omega
      have hf := footWord_isFoot w b b m (le_refl _) (by omega) b3 b5 b4
      have e1 := Trochee_at_foot _ hcw b b b hf (le_refl _) (le_refl _) tc hTc
      rw [footViolates_one, footWord_lightAt w b b m b (le_refl _) (by omega), hL] at e1
      exact htcpos b e1
  · exact absurd (List.mem_singleton.1 hn) hne

theorem lt_feetCount (w : Word) (k : Nat) :
    k < feetCount w ↔
      (2 * k + 1 < w.length ∨ (2 * k + 1 = w.length ∧ lightAt w (2 * k) = false)) := by
  unfold feetCount
  by_cases hodd : w.length % 2 = 1 ∧ lightAt w (w.length - 1) = false
  · rw [if_pos hodd]
    constructor
    · intro h
      by_cases h2 : 2 * k + 1 < w.length
      · exact Or.inl h2
      · have e : w.length - 1 = 2 * k := by omega
        rw [e] at hodd
        exact Or.inr ⟨by omega, hodd.2⟩
    · rintro (h | ⟨h, -⟩) <;> omega
  · rw [if_neg hodd]
    constructor
    · intro h
      exact Or.inl (by
        by_contra h2
        have e : w.length - 1 = 2 * k := by omega
        omega)
    · rintro (h | ⟨h, hl⟩)
      · omega
      · exfalso
        apply hodd
        have e : w.length - 1 = 2 * k := by omega
        rw [e]
        exact ⟨by omega, hl⟩

theorem weightsLH_footWord (w : Word) (l r mask : Nat) (hlr : l ≤ r) (hr : r ≤ l + 1)
    (hw : weightsLH w) : weightsLH (footWord w l r mask) := by
  intro s hs
  obtain ⟨hlen, hget⟩ := footWord_addsFoot w l r mask hlr hr
  obtain ⟨i, hi, rfl⟩ := List.getElem_of_mem hs
  have hi' : i < w.length := by omega
  have h1 := hget i w[i] (List.getElem?_eq_getElem hi')
  rw [List.getElem?_eq_getElem hi] at h1
  have h2 := Option.some.inj h1
  rw [h2]
  exact hw w[i] (List.getElem_mem hi')

/-- A word without boundary flag is parsed up to syllable 0. -/
theorem parsedUpTo_zero (w : Word) (hfree : footFree w = true) (h31 : w.length ≤ 31) :
    ParsedUpTo w 0 := by
  have hflags := (footFree_iff w).1 hfree
  refine ⟨footFree_short w hfree, h31, Nat.zero_le _, ?_, fun j _ => hflags j, ?_⟩
  · intro j hj
    omega
  · intro l r hf
    have := (flagAt_false w l (hflags l)).1
    rw [hf.2.2.1] at this
    cases this

theorem stressedAt_of_length_le (w : Word) (i : Nat) (h : w.length ≤ i) :
    stressedAt w i = false := by
  simp [stressedAt, List.getElem?_eq_none h]

/-- The fields of the word after `k` rounds of the closed form. -/
theorem stage_spec (w : Word) (hfree : footFree w = true) (h31 : w.length ≤ 31)
    (hLH : weightsLH w) :
    ∀ k, k ≤ feetCount w →
      ParsedUpTo (stage k w) (min (2 * k) w.length) ∧
      (stage k w).length = w.length ∧ weightsLH (stage k w) ∧
      (∀ i, hasLeftAt (stage k w) i = decide (i % 2 = 0 ∧ i < 2 * k)) ∧
      (∀ i, hasRightAt (stage k w) i =
        decide (i < 2 * k ∧ i < w.length ∧ (i % 2 = 1 ∨ i + 1 = w.length))) ∧
      (∀ i, stressedAt (stage k w) i =
        if i < 2 * k then decide (i % 2 = 0) else stressedAt w i) ∧
      (∀ i, 2 * k ≤ i → (stage k w)[i]? = w[i]?) ∧
      (∀ i, lightAt (stage k w) i = lightAt w i) := by
  intro k
  induction k with
  | zero =>
    intro _
    have hflags := (footFree_iff w).1 hfree
    have h0 : min (2 * 0) w.length = 0 := by omega
    rw [h0]
    refine ⟨parsedUpTo_zero w hfree h31, rfl, hLH, ?_, ?_, ?_, fun i _ => rfl, fun i => rfl⟩
    · intro i
      rw [show stage 0 w = w from rfl, (flagAt_false w i (hflags i)).1]
      simp
    · intro i
      rw [show stage 0 w = w from rfl, (flagAt_false w i (hflags i)).2]
      simp
    · intro i
      simp [stage]
  | succ k ih =>
    intro hk
    obtain ⟨hinv, hlen, hwt, hL, hR, hS, hG, hLt⟩ := ih (by omega)
    have hlt := (lt_feetCount w k).1 (by omega)
    have hmin : min (2 * k) w.length = 2 * k := by
      rcases hlt with h | ⟨h, -⟩ <;> omega
    rw [hmin] at hinv
    by_cases h2 : 2 * k + 1 < w.length
    · have hst : stage (k + 1) w = footWord (stage k w) (2 * k) (2 * k + 1) 1 := by
        simp [stage, h2]
      have hrn : 2 * k + 1 < (stage k w).length := by omega
      have hlr : 2 * k ≤ 2 * k + 1 := by omega
      rw [hst]
      refine ⟨?_, ?_, weightsLH_footWord _ _ _ _ hlr (le_refl _) hwt, ?_, ?_, ?_, ?_, ?_⟩
      · have := (step_two (stage k w) (2 * k) hinv hrn).2
        have e : min (2 * (k + 1)) w.length = 2 * k + 2 := by omega
        rw [e]
        exact this
      · rw [footWord_length _ _ _ _ hlr (le_refl _), hlen]
      · intro i
        rw [footWord_hasLeftAt _ _ _ _ i hlr (le_refl _) hrn, hL, Bool.eq_iff_iff]
        simp only [Bool.or_eq_true, decide_eq_true_eq]
        omega
      · intro i
        rw [footWord_hasRightAt _ _ _ _ i hlr (le_refl _) hrn, hR, Bool.eq_iff_iff]
        simp only [Bool.or_eq_true, decide_eq_true_eq]
        omega
      · intro i
        rw [footWord_stressedAt _ _ _ _ i hlr (le_refl _) hrn, hS]
        by_cases c1 : i < 2 * k
        · have c2 : ¬ (2 * k ≤ i ∧ i ≤ 2 * k + 1) := by omega
          have c3 : i < 2 * (k + 1) := by omega
          rw [if_neg c2, if_pos c1, if_pos c3]
        · by_cases c2 : i = 2 * k
          · subst c2
            have c3 : 2 * k < 2 * (k + 1) := by omega
            rw [if_pos ⟨le_refl _, by omega⟩, if_pos c3]
            simp
          · by_cases c3 : i = 2 * k + 1
            · subst c3
              have c4 : 2 * k + 1 < 2 * (k + 1) := by omega
              have c5 : 2 * k + 1 - 2 * k = 1 := by omega
              have c6 : ¬ (2 * k + 1) % 2 = 0 := by omega
              have c7 : Nat.testBit 1 1 = false := by decide
              rw [if_pos ⟨by omega, le_refl _⟩, if_pos c4, c5, c7]
              simp [c6]
            · have c4 : ¬ (2 * k ≤ i ∧ i ≤ 2 * k + 1) := by omega
              have c5 : ¬ i < 2 * (k + 1) := by omega
              rw [if_neg c4, if_neg c1, if_neg c5]
      · intro i hi
        rw [footWord_get_outside_eq _ _ _ _ i hlr (le_refl _) (by omega)]
        exact hG i (by omega)
      · intro i
        rw [footWord_lightAt _ _ _ _ i hlr (le_refl _), hLt]
    · have hn : 2 * k + 1 = w.length := by
        rcases hlt with h | ⟨h, -⟩ <;> omega
      have hH : lightAt w (2 * k) = false := by
        rcases hlt with h | ⟨-, h⟩
        · omega
        · exact h
      have hst : stage (k + 1) w = footWord (stage k w) (2 * k) (2 * k) 1 := by
        simp [stage, h2]
      have hrn : 2 * k < (stage k w).length := by omega
      have hr : 2 * k ≤ 2 * k + 1 := by omega
      rw [hst]
      refine ⟨?_, ?_, weightsLH_footWord _ _ _ _ (le_refl _) hr hwt, ?_, ?_, ?_, ?_, ?_⟩
      · have := (step_heavy (stage k w) (2 * k) hinv (by omega) (by rw [hLt]; exact hH)).2
        have e : min (2 * (k + 1)) w.length = 2 * k + 1 := by omega
        rw [e]
        exact this
      · rw [footWord_length _ _ _ _ (le_refl _) hr, hlen]
      · intro i
        rw [footWord_hasLeftAt _ _ _ _ i (le_refl _) hr hrn, hL, Bool.eq_iff_iff]
        simp only [Bool.or_eq_true, decide_eq_true_eq]
        omega
      · intro i
        rw [footWord_hasRightAt _ _ _ _ i (le_refl _) hr hrn, hR, Bool.eq_iff_iff]
        simp only [Bool.or_eq_true, decide_eq_true_eq]
        omega
      · intro i
        rw [footWord_stressedAt _ _ _ _ i (le_refl _) hr hrn, hS]
        by_cases c1 : i < 2 * k
        · have c2 : ¬ (2 * k ≤ i ∧ i ≤ 2 * k) := by omega
          have c3 : i < 2 * (k + 1) := by omega
          rw [if_neg c2, if_pos c1, if_pos c3]
        · by_cases c2 : i = 2 * k
          · subst c2
            have c3 : 2 * k < 2 * (k + 1) := by omega
            rw [if_pos ⟨le_refl _, le_refl _⟩, if_pos c3]
            simp
          · have c4 : ¬ (2 * k ≤ i ∧ i ≤ 2 * k) := by omega
            rw [if_neg c4, if_neg c1, stressedAt_of_length_le w i (by omega)]
            by_cases c5 : i < 2 * (k + 1)
            · have c6 : ¬ i % 2 = 0 := by omega
              rw [if_pos c5]
              simp [c6]
            · rw [if_neg c5]
      · intro i hi
        rw [footWord_get_outside_eq _ _ _ _ i (le_refl _) hr (by omega)]
        exact hG i (by omega)
      · intro i
        rw [footWord_lightAt _ _ _ _ i (le_refl _) hr, hLt]

/-- Round `k` of the closed form is a round of `SerialOT`, and it changes the printed
word. -/
theorem stage_round (w : Word) (hfree : footFree w = true) (h31 : w.length ≤ 31)
    (hLH : weightsLH w) (k : Nat) (hk : k < feetCount w) :
    SerialOT (stage k w) constraints = some (stage (k + 1) w) ∧
      printInfo (stage (k + 1) w) ≠ printInfo (stage k w) := by
  obtain ⟨hinv, hlen, hwt, hL, hR, -, -, hLt⟩ := stage_spec w hfree h31 hLH k (by omega)
  obtain ⟨-, -, hwt', -, -, -, -, -⟩ := stage_spec w hfree h31 hLH (k + 1) (by omega)
  have hlt := (lt_feetCount w k).1 hk
  have hmin : min (2 * k) w.length = 2 * k := by
    rcases hlt with h | ⟨h, -⟩ <;> omega
  rw [hmin] at hinv
  have hflag := hinv.2.2.2.2.1
  obtain ⟨a4, a5⟩ := flagAt_false _ _ (hflag (2 * k) (le_refl _))
  have hne : stage (k + 1) w ≠ stage k w := by
    by_cases h2 : 2 * k + 1 < w.length
    · obtain ⟨a6, a7⟩ := flagAt_false _ _ (hflag (2 * k + 1) (by omega))
      have hst : stage (k + 1) w = footWord (stage k w) (2 * k) (2 * k + 1) 1 := by
        simp [stage, h2]
      rw [hst]
      exact (footWord_short 1 (2 * k) (stage k w) (2 * k + 1) (by omega) (le_refl _)
        (by omega) a4 a5 a6 a7).2.2
    · have hst : stage (k + 1) w = footWord (stage k w) (2 * k) (2 * k) 1 := by
        simp [stage, h2]
      rw [hst]
      exact (footWord_short 1 (2 * k) (stage k w) (2 * k) (le_refl _) (by omega)
        (by omega) a4 a5 a4 a5).2.2
  refine ⟨?_, fun h => hne ((printInfo_eq_iff _ _ hwt' hwt).1 h)⟩
  by_cases h2 : 2 * k + 1 < w.length
  · have hst : stage (k + 1) w = footWord (stage k w) (2 * k) (2 * k + 1) 1 := by
      simp [stage, h2]
    rw [hst]
    exact (step_two (stage k w) (2 * k) hinv (by omega)).1
  · have hn : 2 * k + 1 = w.length := by
      rcases hlt with h | ⟨h, -⟩ <;> omega
    have hH : lightAt w (2 * k) = false := by
      rcases hlt with h | ⟨-, h⟩
      · omega
      · exact h
    have hst : stage (k + 1) w = footWord (stage k w) (2 * k) (2 * k) 1 := by
      simp [stage, h2]
    rw [hst]
    exact (step_heavy (stage k w) (2 * k) hinv (by omega) (by rw [hLt]; exact hH)).1

/-- The word after the last round of the closed form wins its own round. -/
theorem stage_final (w : Word) (hfree : footFree w = true) (h31 : w.length ≤ 31)
    (hLH : weightsLH w) :
    SerialOT (stage (feetCount w) w) constraints = some (stage (feetCount w) w) := by
  obtain ⟨hinv, hlen, -, -, -, -, -, hLt⟩ :=
    stage_spec w hfree h31 hLH (feetCount w) (le_refl _)
  apply step_done _ _ hinv
  rw [hlen]
  have hnot := (lt_feetCount w (feetCount w)).not.1 (lt_irrefl _)
  by_cases hle : w.length ≤ 2 * feetCount w
  · left
    omega
  · right
    have h1 : ¬ 2 * feetCount w + 1 < w.length := fun h => hnot (Or.inl h)
    have h2 : 2 * feetCount w + 1 = w.length := by omega
    have e : min (2 * feetCount w) w.length = 2 * feetCount w := by omega
    rw [e]
    refine ⟨h2, ?_⟩
    rw [hLt]
    cases hl : lightAt w (2 * feetCount w) with
    | true => rfl
    | false => exact absurd (Or.inr ⟨h2, hl⟩) hnot

/-- The feet of the word after `k` rounds of the closed form. -/
theorem stage_isFoot (w : Word) (hfree : footFree w = true) (h31 : w.length ≤ 31)
    (hLH : weightsLH w) (k : Nat) (hk : k ≤ feetCount w) (l r : Nat) :
    IsFoot (stage k w) l r ↔
      (l % 2 = 0 ∧ l < 2 * k ∧ ((r = l + 1 ∧ r < w.length) ∨ (r = l ∧ l + 1 = w.length))) := by
  obtain ⟨-, hlen, -, hL, hR, -, -, -⟩ := stage_spec w hfree h31 hLH k hk
  have hLt : ∀ i, hasLeftAt (stage k w) i = true ↔ (i % 2 = 0 ∧ i < 2 * k) := by
    intro i
    rw [hL]
    simp
  have hLf : ∀ i, hasLeftAt (stage k w) i = false ↔ ¬ (i % 2 = 0 ∧ i < 2 * k) := by
    intro i
    rw [hL]
    simp
  have hRt : ∀ i, hasRightAt (stage k w) i = true ↔
      (i < 2 * k ∧ i < w.length ∧ (i % 2 = 1 ∨ i + 1 = w.length)) := by
    intro i
    rw [hR]
    simp
  have hRf : ∀ i, hasRightAt (stage k w) i = false ↔
      ¬ (i < 2 * k ∧ i < w.length ∧ (i % 2 = 1 ∨ i + 1 = w.length)) := by
    intro i
    rw [hR]
    simp
  unfold IsFoot
  rw [hlen]
  constructor
  · rintro ⟨h1, h2, h3, h4, h5, h6⟩
    rw [hLt] at h3
    rw [hRt] at h4
    refine ⟨h3.1, h3.2, ?_⟩
    by_cases hlr : l = r
    · subst hlr
      right
      exact ⟨rfl, by omega⟩
    · left
      refine ⟨?_, h2⟩
      by_contra hne
      have := (hRf (l + 1)).1 (h6 (l + 1) (by omega) (by omega) (by omega))
      omega
  · rintro ⟨h1, h2, h3⟩
    refine ⟨by omega, by omega, (hLt l).2 ⟨h1, h2⟩, (hRt r).2 (by omega), ?_, ?_⟩
    · intro i _ hli hir
      rw [hLf]
      omega
    · intro i _ hli hir
      rw [hRf]
      omega

theorem feetCount_cases (w : Word) :
    (w.length % 2 = 1 ∧ lightAt w (w.length - 1) = false ∧
        feetCount w = w.length / 2 + 1) ∨
      (¬ (w.length % 2 = 1 ∧ lightAt w (w.length - 1) = false) ∧
        feetCount w = w.length / 2) := by
  unfold feetCount
  by_cases h : w.length % 2 = 1 ∧ lightAt w (w.length - 1) = false
  · rw [if_pos h]
    exact Or.inl ⟨h.1, h.2, rfl⟩
  · rw [if_neg h]
    exact Or.inr ⟨h, rfl⟩

/-- The driver started on the word after round `k` of the closed form halts on the word
after the last round. -/
theorem driver_from_stage (w : Word) (hfree : footFree w = true) (h31 : w.length ≤ 31)
    (hLH : weightsLH w) :
    ∀ d k fuel, k + d = feetCount w → d + 1 ≤ fuel →
      driverLoop fuel (stage k w) k =
        DriverResult.halted (stage (feetCount w) w) (feetCount w) := by
  intro d
  induction d with
  | zero =>
    intro k fuel hk hfuel
    obtain ⟨f, rfl⟩ : ∃ f, fuel = f + 1 := ⟨fuel - 1, by omega⟩
    obtain rfl : k = feetCount w := by omega
    simp [driverLoop, stage_final w hfree h31 hLH]
  | succ d ih =>
    intro k fuel hk hfuel
    obtain ⟨f, rfl⟩ : ∃ f, fuel = f + 1 := ⟨fuel - 1, by omega⟩
    obtain ⟨hS, hne⟩ := stage_round w hfree h31 hLH k (by omega)
    have hstep : driverLoop (f + 1) (stage k w) k = driverLoop f (stage (k + 1) w) (k + 1) := by
      simp [driverLoop, hS, hne]
    rw [hstep]
    exact ih (k + 1) f (by omega) (by omega)

/-- The first `k` rounds of the driver are the first `k` rounds of the closed form. -/
theorem driver_to_stage (w : Word) (hfree : footFree w = true) (h31 : w.length ≤ 31)
    (hLH : weightsLH w) :
    ∀ k, k ≤ feetCount w → ∀ fuel,
      driverLoop (k + fuel) w 0 = driverLoop fuel (stage k w) k := by
  intro k
  induction k with
  | zero =>
    intro _ fuel
    rw [Nat.zero_add]
    rfl
  | succ k ih =>
    intro hk fuel
    obtain ⟨hS, hne⟩ := stage_round w hfree h31 hLH k (by omega)
    have e : k + 1 + fuel = k + (fuel + 1) := by omega
    rw [e, ih (by omega) (fuel + 1)]
    simp [driverLoop, hS, hne]

/-! ## Candidates with equal score vectors -/

/-- C1: on a word with matched, non-overlapping feet of length 1 or 2 and at most 31
syllables, one round of `SerialOT` under the ranking Trochee, ParseLeft, Iamb, ParseRight
returns a member of the round's candidate set; the score sequence of every candidate is the
list of the big-endian values of its four violation sequences, and the winner's score
sequence is equal to or lexicographically below that of every candidate. -/
theorem SerialOT_winner_minimal (w : Word) (h : wellFormedShort w = true)
    (h31 : w.length ≤ 31) :
    ∃ cs best sc, candidateWords w = some cs ∧ SerialOT w constraints = some best ∧
      best ∈ cs ∧ candidateScore constraints best = some sc ∧
      ∀ cand ∈ cs, ∃ t p i r, Trochee cand = some t ∧ ParseLeft cand = some p ∧
        Iamb cand = some i ∧ ParseRight cand = some r ∧
        candidateScore constraints cand = some [score t, score p, score i, score r] ∧
        [score t, score p, score i, score r] =
          [binaryValue t, binaryValue p, binaryValue i, binaryValue r] ∧
        (sc = [score t, score p, score i, score r] ∨
          List.Lex (· < ·) sc [score t, score p, score i, score r]) := by
  obtain ⟨best, sc, hS, hmem, hsc, hmin⟩ := SerialOT_spec w h
  refine ⟨newFootWords w ++ [w], best, sc, candidateWords_eq w, hS, hmem, hsc, ?_⟩
  intro cand hc
  obtain ⟨t, p, i, r, hT, hP, hI, hR, hscore, hv⟩ :=
    constraints_some cand (wellFormed_of_short cand (candidate_short w cand h hc))
  have hlen := candidate_length w cand hc
  have hbv : ∀ v ∈ [t, p, i, r], score v = binaryValue v := by
    intro v hvm
    exact score_eq_binaryValue v (hv v hvm).2 (by rw [(hv v hvm).1]; omega)
  refine ⟨t, p, i, r, hT, hP, hI, hR, hscore, ?_, ?_⟩
  · rw [hbv t (by simp), hbv p (by simp), hbv i (by simp), hbv r (by simp)]
  · obtain ⟨sc', hsc', hle⟩ := hmin cand hc
    rw [hscore] at hsc'
    obtain rfl := Option.some.inj hsc'
    rcases lexLess_total sc _ hle with heq | hlt
    · exact Or.inl heq
    · exact Or.inr ((lexLess_iff_lex _ _).1 hlt)

/-- Witness of C1 on the word `('LL)H`. -/
theorem SerialOT_winner_minimal_witness :
    wellFormedShort exampleWord = true ∧ exampleWord.length ≤ 31 ∧
      ∃ best, SerialOT exampleWord constraints = some best :=
  ⟨by decide, by decide, by
    obtain ⟨_, best, _, _, hS, _⟩ := SerialOT_winner_minimal exampleWord (by decide) (by decide)
    exact ⟨best, hS⟩⟩

/-- C2: the candidates of a round are exactly the input word `w` and, for every span
`l ≤ r ≤ l + 1` inside the word whose end syllables carry no boundary flag in `w` and every
non-empty stress pattern on the span, the word equal to `w` except for the left flag set at
`l`, the right flag set at `r` and the stress flags of `l..r` set to the pattern. -/
theorem candidateWords_exact (w : Word) :
    ∃ cs, candidateWords w = some cs ∧
      ∀ cand, cand ∈ cs ↔
        (cand = w ∨
          ∃ l r, l ≤ r ∧ r ≤ l + 1 ∧ r < w.length ∧
            hasLeftAt w l = false ∧ hasRightAt w l = false ∧
            hasLeftAt w r = false ∧ hasRightAt w r = false ∧
            ∃ stress : Nat → Bool, (∃ p, p ≤ r - l ∧ stress p = true) ∧
              AddsFoot w cand l r stress) := by
  refine ⟨newFootWords w ++ [w], candidateWords_eq w, ?_⟩
  intro cand
  rw [List.mem_append, List.mem_singleton, mem_newFootWords, or_comm]

/-- C3: the candidate set of a round is never empty and contains the unmodified input
word. -/
theorem candidateWords_contains_input (w : Word) (_h : 1 ≤ w.length) :
    ∃ cs, candidateWords w = some cs ∧ cs ≠ [] ∧ w ∈ cs := by
  refine ⟨newFootWords w ++ [w], candidateWords_eq w, by simp, by simp⟩

/-- Witness of C3 on the word `('LL)H`. -/
theorem candidateWords_contains_input_witness :
    1 ≤ exampleWord.length ∧
      ∃ cs, candidateWords exampleWord = some cs ∧ cs ≠ [] ∧ exampleWord ∈ cs :=
  ⟨by decide, candidateWords_contains_input exampleWord (by decide)⟩

/-- C4: on a word with matched, non-overlapping foot brackets, `Trochee` returns a
sequence as long as the word whose entries are 0 or 1; position `i` holds 1 exactly when
syllable `i` lies in a foot `[l, r]` of length at least 3, or of length 2 with the left
syllable unstressed or the right one stressed, or of length 1 with a Light syllable; a
syllable outside every foot holds 0. -/
theorem Trochee_marks (w : Word) (h : wellFormed w = true) :
    ∃ v, Trochee w = some v ∧ v.length = w.length ∧
      (∀ i, i < w.length → (v[i]? = some 1 ∨ v[i]? = some 0)) ∧
      (∀ i, i < w.length →
        (v[i]? = some 1 ↔
          ∃ l r, IsFoot w l r ∧ l ≤ i ∧ i ≤ r ∧
            (3 ≤ r - l + 1 ∨
              (r - l + 1 = 2 ∧ (stressedAt w l = false ∨ stressedAt w r = true)) ∨
              (r - l + 1 = 1 ∧ lightAt w l = true)))) ∧
      (∀ i, i < w.length → ¬ InFoot w i → v[i]? = some 0) := by
  obtain ⟨fs, v, hfs, hv, hlen, hyes, hno⟩ := footConstraint_spec trocheeBad w h
  refine ⟨v, by simp only [Trochee, hfs, hv], hlen, ?_, ?_, ?_⟩
  · intro i hi
    exact (footConstraint_zero_one trocheeBad w v hyes hno i hi).2
  · intro i hi
    rw [(footConstraint_zero_one trocheeBad w v hyes hno i hi).1]
    constructor
    · rintro ⟨l, r, hf, hviol, hli, hir⟩
      exact ⟨l, r, hf, hli, hir,
        (footViolates_trochee w l r (by have := hf.1; have := hf.2.1; omega) hf.2.1).1 hviol⟩
    · rintro ⟨l, r, hf, hli, hir, hc⟩
      exact ⟨l, r, hf,
        (footViolates_trochee w l r (by have := hf.1; have := hf.2.1; omega) hf.2.1).2 hc,
        hli, hir⟩
  · intro i hi hout
    apply hno i hi
    rintro ⟨l, r, hf, -, hli, hir⟩
    exact hout ⟨l, by have := hf.1; have := hf.2.1; omega, r, hf.2.1, hf, hli, hir⟩

/-- Witness of C4 on the word `('LLL)`. -/
theorem Trochee_marks_witness :
    wellFormed exampleLongFoot = true ∧
      ∃ v, Trochee exampleLongFoot = some v ∧ v.length = exampleLongFoot.length :=
  ⟨by decide, by
    obtain ⟨v, h1, h2, _⟩ := Trochee_marks exampleLongFoot (by decide)
    exact ⟨v, h1, h2⟩⟩

/-- C5: on a word with matched, non-overlapping foot brackets, `Iamb` marks exactly the
syllables of the feet of length at least 3, of length 2 with the right syllable unstressed
or the left one stressed, or of length 1 with a Light syllable.  When no foot has length 2,
`Iamb` and `Trochee` return the same sequence; on a foot of length 2 with exactly one
stressed syllable, exactly one of the two marks the syllables of the foot. -/
theorem Iamb_marks (w : Word) (h : wellFormed w = true) :
    ∃ vi vt, Iamb w = some vi ∧ Trochee w = some vt ∧ vi.length = w.length ∧
      (∀ i, i < w.length → (vi[i]? = some 1 ∨ vi[i]? = some 0)) ∧
      (∀ i, i < w.length →
        (vi[i]? = some 1 ↔
          ∃ l r, IsFoot w l r ∧ l ≤ i ∧ i ≤ r ∧
            (3 ≤ r - l + 1 ∨
              (r - l + 1 = 2 ∧ (stressedAt w r = false ∨ stressedAt w l = true)) ∨
              (r - l + 1 = 1 ∧ lightAt w l = true)))) ∧
      ((∀ l r, IsFoot w l r → r - l + 1 ≠ 2) → vi = vt) ∧
      (∀ l r, IsFoot w l r → r - l + 1 = 2 → stressedAt w l ≠ stressedAt w r →
        (∀ i, l ≤ i → i ≤ r → vi[i]? = some 1 ∧ vt[i]? = some 0) ∨
        (∀ i, l ≤ i → i ≤ r → vi[i]? = some 0 ∧ vt[i]? = some 1)) := by
  obtain ⟨fs, vi, hfs, hvi, hleni, hyesi, hnoi⟩ := footConstraint_spec iambBad w h
  obtain ⟨fs', vt, hfs', hvt, hlent, hyest, hnot⟩ := footConstraint_spec trocheeBad w h
  refine ⟨vi, vt, by simp only [Iamb, hfs, hvi], by simp only [Trochee, hfs', hvt], hleni,
    ?_, ?_, ?_, ?_⟩
  · intro i hi
    exact (footConstraint_zero_one iambBad w vi hyesi hnoi i hi).2
  · intro i hi
    rw [(footConstraint_zero_one iambBad w vi hyesi hnoi i hi).1]
    constructor
    · rintro ⟨l, r, hf, hviol, hli, hir⟩
      exact ⟨l, r, hf, hli, hir,
        (footViolates_iamb w l r (by have := hf.1; have := hf.2.1; omega) hf.2.1).1 hviol⟩
    · rintro ⟨l, r, hf, hli, hir, hc⟩
      exact ⟨l, r, hf,
        (footViolates_iamb w l r (by have := hf.1; have := hf.2.1; omega) hf.2.1).2 hc,
        hli, hir⟩
  · intro hne
    apply List.ext_getElem?
    intro j
    by_cases hj : j < w.length
    · by_cases hex : ∃ l r, IsFoot w l r ∧ footViolates iambBad w l r = true ∧ l ≤ j ∧ j ≤ r
      · obtain ⟨l, r, hf, hviol, hlj, hjr⟩ := hex
        rw [hyesi j ⟨l, r, hf, hviol, hlj, hjr⟩,
          hyest j ⟨l, r, hf, by rw [← footViolates_eq_of_ne_two w l r (hne l r hf)]; exact hviol,
            hlj, hjr⟩]
      · rw [hnoi j hj hex, hnot j hj]
        rintro ⟨l, r, hf, hviol, hlj, hjr⟩
        exact hex ⟨l, r, hf, by rw [footViolates_eq_of_ne_two w l r (hne l r hf)]; exact hviol,
          hlj, hjr⟩
    · rw [List.getElem?_eq_none (by omega), List.getElem?_eq_none (by omega)]
  · intro l r hf h2 hstress
    have hl : l < w.length := by have := hf.1; have := hf.2.1; omega
    have hr : r < w.length := hf.2.1
    -- the foot `[l, r]` is the only foot that covers its syllables
    have honly : ∀ (bad2 : Syllable → Syllable → Bool) (i : Nat), l ≤ i → i ≤ r →
        ((∃ l' r', IsFoot w l' r' ∧ footViolates bad2 w l' r' = true ∧ l' ≤ i ∧ i ≤ r') ↔
          footViolates bad2 w l r = true) := by
      intro bad2 i hli hir
      constructor
      · rintro ⟨l', r', hf', hviol, hl'i, hir'⟩
        obtain ⟨rfl, rfl⟩ := isFoot_unique w l r l' r' i hf hf' ⟨hli, hir⟩ ⟨hl'i, hir'⟩
        exact hviol
      · intro hviol
        exact ⟨l, r, hf, hviol, hli, hir⟩
    have hI := footViolates_iamb w l r hl hr
    have hT := footViolates_trochee w l r hl hr
    rcases hsl : stressedAt w l with _ | _ <;> rcases hsr : stressedAt w r with _ | _
    · rw [hsl, hsr] at hstress; exact absurd rfl hstress
    · -- left unstressed, right stressed: Trochee marks, Iamb does not
      right
      intro i hli hir
      have hTv : footViolates trocheeBad w l r = true := hT.2 (Or.inr (Or.inl ⟨h2, Or.inl hsl⟩))
      have hIv : ¬ footViolates iambBad w l r = true := by
        rw [hI, hsl, hsr]; simp; omega
      exact ⟨hnoi i (by omega) (fun hex => hIv ((honly iambBad i hli hir).1 hex)),
        hyest i ((honly trocheeBad i hli hir).2 hTv)⟩
    · -- left stressed, right unstressed: Iamb marks, Trochee does not
      left
      intro i hli hir
      have hIv : footViolates iambBad w l r = true := hI.2 (Or.inr (Or.inl ⟨h2, Or.inl hsr⟩))
      have hTv : ¬ footViolates trocheeBad w l r = true := by
        rw [hT, hsl, hsr]; simp; omega
      exact ⟨hyesi i ((honly iambBad i hli hir).2 hIv),
        hnot i (by omega) (fun hex => hTv ((honly trocheeBad i hli hir).1 hex))⟩
    · rw [hsl, hsr] at hstress; exact absurd rfl hstress

/-- Witness of C5 on the word `('LL)H`. -/
theorem Iamb_marks_witness :
    wellFormed exampleWord = true ∧
      ∃ vi vt, Iamb exampleWord = some vi ∧ Trochee exampleWord = some vt :=
  ⟨by decide, by
    obtain ⟨vi, vt, h1, h2, _⟩ := Iamb_marks exampleWord (by decide)
    exact ⟨vi, vt, h1, h2⟩⟩

/-- C6 (as stated the claim fails): the brackets of the word `('LLL)` are matched and do
not overlap, its middle syllable lies inside the foot `[0, 2]`, and yet `ParseLeft` marks
it as a violation. -/
theorem ParseLeft_marks_inside_long_foot :
    wellFormed exampleLongFoot = true ∧ IsFoot exampleLongFoot 0 2 ∧
      InFoot exampleLongFoot 1 ∧ ParseLeft exampleLongFoot = some [0, 1, 0] := by
  decide

/-- C6 (amended): on every word with matched, non-overlapping foot brackets `ParseLeft`
returns a sequence of the length of the word whose entry `i` is 1 when syllable `i`
carries no boundary flag and 0 when it carries one; when moreover the feet have length 1
or 2, as in every word the generator builds, entry `i` is 1 exactly when syllable `i`
belongs to no foot and 0 exactly when it belongs to one. -/
theorem ParseLeft_marks_outside_short_feet (w : Word) (h : wellFormed w = true) :
    ∃ v, ParseLeft w = some v ∧ v.length = w.length ∧
      (∀ i, i < w.length →
        (v[i]? = some 1 ↔ flagAt w i = false) ∧ (v[i]? = some 0 ↔ flagAt w i = true)) ∧
      (wellFormedShort w = true → ∀ i, i < w.length →
        (v[i]? = some 1 ↔ ¬ InFoot w i) ∧ (v[i]? = some 0 ↔ InFoot w i)) := by
  obtain ⟨fs, hfs, -⟩ := findLocation_spec w h
  have hflag : ∀ i, i < w.length →
      ((unparsedMarks w)[i]? = some 1 ↔ flagAt w i = false) ∧
        ((unparsedMarks w)[i]? = some 0 ↔ flagAt w i = true) := by
    intro i hi
    rw [unparsedMarks_get w i hi]
    cases flagAt w i <;> simp
  refine ⟨unparsedMarks w, by simp only [ParseLeft, hfs], by simp [unparsedMarks], hflag,
    ?_⟩
  intro hs i hi
  rw [short_inFoot_iff w hs i]
  obtain ⟨h1, h0⟩ := hflag i hi
  refine ⟨?_, h0⟩
  rw [h1]
  cases flagAt w i <;> simp

/-- Witness of the amended C6 on the word `('LL)H`. -/
theorem ParseLeft_marks_outside_short_feet_witness :
    wellFormed exampleWord = true ∧ wellFormedShort exampleWord = true ∧
      ParseLeft exampleWord = some [0, 0, 1] ∧
      ∃ v, ParseLeft exampleWord = some v ∧ v.length = exampleWord.length ∧
        ∀ i, i < exampleWord.length →
          (v[i]? = some 1 ↔ ¬ InFoot exampleWord i) ∧
            (v[i]? = some 0 ↔ InFoot exampleWord i) :=
  ⟨by decide, by decide, by decide, by
    obtain ⟨v, h1, h2, _, h3⟩ := ParseLeft_marks_outside_short_feet exampleWord (by decide)
    exact ⟨v, h1, h2, h3 (by decide)⟩⟩

/-- C7: `ParseRight` is the end-to-end reversal of `ParseLeft`: it fails exactly when
`ParseLeft` does, reversing either result gives the other, both have the length `n` of the
word, and entry `i` of `ParseRight` is entry `n - 1 - i` of `ParseLeft`. -/
theorem ParseRight_reverses_ParseLeft (w : Word) :
    ParseRight w = (ParseLeft w).map List.reverse ∧
    (ParseRight w).map List.reverse = ParseLeft w ∧
    ∀ vl vr, ParseLeft w = some vl → ParseRight w = some vr →
      vl.length = w.length ∧ vr.length = w.length ∧
      ∀ i, i < w.length → vr[i]? = vl[w.length - 1 - i]? := by
  refine ⟨?_, ?_, ?_⟩
  · unfold ParseRight ParseLeft
    cases findLocation w <;> simp
  · unfold ParseRight ParseLeft
    cases findLocation w <;> simp
  · intro vl vr hl hr
    unfold ParseLeft at hl
    unfold ParseRight at hr
    cases hfl : findLocation w with
    | none => simp [hfl] at hl
    | some fs =>
      simp only [hfl, Option.some.injEq] at hl hr
      subst hl hr
      refine ⟨by simp [unparsedMarks], by simp [unparsedMarks], ?_⟩
      intro i hi
      rw [List.getElem?_reverse (by simpa [unparsedMarks] using hi)]
      simp [unparsedMarks]

/-- Witness of C7 on the word `('LL)H`. -/
theorem ParseRight_reverses_ParseLeft_witness :
    ParseLeft exampleWord = some [0, 0, 1] ∧ ParseRight exampleWord = some [1, 0, 0] ∧
      ([0, 0, 1] : List Int).length = exampleWord.length ∧
      ([1, 0, 0] : List Int).length = exampleWord.length ∧
      ∀ i, i < exampleWord.length →
        ([1, 0, 0] : List Int)[i]? = ([0, 0, 1] : List Int)[exampleWord.length - 1 - i]? :=
  ⟨by decide, by decide,
    (ParseRight_reverses_ParseLeft exampleWord).2.2 [0, 0, 1] [1, 0, 0] (by decide) (by decide)⟩

/-- C8: the score of a 0/1 violation sequence of length `n ≤ 31` is its big-endian binary
value, the sum of `v[i] * 2 ^ (n - 1 - i)`; and for two such sequences of the same length,
`score a < score b` holds exactly when `a` comes before `b` lexicographically (0 before 1). -/
theorem score_bigEndian_lex (a b : List Int) (ha : ∀ x ∈ a, x = 0 ∨ x = 1)
    (hb : ∀ x ∈ b, x = 0 ∨ x = 1) (hlen : a.length = b.length) (h31 : a.length ≤ 31) :
    score a = ∑ i ∈ Finset.range a.length, a.getD i 0 * 2 ^ (a.length - 1 - i) ∧
    (score a < score b ↔ List.Lex (· < ·) a b) := by
  refine ⟨score_eq_binaryValue a ha h31, ?_⟩
  rw [score_eq_binaryValue a ha h31, score_eq_binaryValue b hb (by omega)]
  exact binaryValue_lt_iff_lex a b hlen ha hb

/-- Witness of C8 on the sequences `[1, 0, 1]` and `[1, 1, 0]`. -/
theorem score_bigEndian_lex_witness :
    score [1, 0, 1] =
        ∑ i ∈ Finset.range ([1, 0, 1] : List Int).length,
          ([1, 0, 1] : List Int).getD i 0 * 2 ^ (([1, 0, 1] : List Int).length - 1 - i) ∧
      (score [1, 0, 1] < score [1, 1, 0] ↔ List.Lex (· < ·) ([1, 0, 1] : List Int) [1, 1, 0]) :=
  score_bigEndian_lex [1, 0, 1] [1, 1, 0] (by decide) (by decide) (by decide) (by decide)

/-- C9: from a foot-free word of `n ≤ 31` syllables with weights `L` or `H` the driver
loop of `main` halts: with fuel for `n + 1` calls of `SerialOT` (or more) it ends in
`halted`, after at most `n` replacements of the current word. -/
theorem driver_terminates (w : Word) (hfree : footFree w = true) (_h31 : w.length ≤ 31)
    (_hLH : ∀ s ∈ w, s.weight = 'L' ∨ s.weight = 'H') :
    ∃ v k, k ≤ w.length ∧
      ∀ fuel, w.length + 1 ≤ fuel → driverLoop fuel w 0 = DriverResult.halted v k := by
  obtain ⟨v, k, hk, hrun⟩ :=
    driverLoop_halts w.length w 0 (footFree_short w hfree) (Nat.sub_le _ _)
  exact ⟨v, k, by omega, hrun⟩

/-- Witness of C9 on the foot-free word `HLH`. -/
theorem driver_terminates_witness :
    footFree exampleFree = true ∧ exampleFree.length ≤ 31 ∧
      ∃ v k, k ≤ exampleFree.length ∧
        ∀ fuel, exampleFree.length + 1 ≤ fuel →
          driverLoop fuel exampleFree 0 = DriverResult.halted v k :=
  ⟨by decide, by decide, driver_terminates exampleFree (by decide) (by decide) (by decide)⟩

/-- C10: on a word `w` with matched, non-overlapping feet of length 1 or 2 and at most 31
syllables, the word `SerialOT` returns has at least as many syllables enclosed in a foot as
`w`, and exactly 1 or 2 more when its printable form differs from that of `w`. -/
theorem SerialOT_foot_growth (w : Word) (h : wellFormedShort w = true)
    (_h31 : w.length ≤ 31) :
    ∃ best, SerialOT w constraints = some best ∧ parsedCount w ≤ parsedCount best ∧
      (printInfo best ≠ printInfo w →
        parsedCount best = parsedCount w + 1 ∨ parsedCount best = parsedCount w + 2) := by
  obtain ⟨best, hS, hbest⟩ := SerialOT_step w h
  refine ⟨best, hS, ?_, ?_⟩
  · rcases hbest with rfl | ⟨-, -, -, hcount⟩
    · exact le_refl _
    · omega
  · intro hprint
    rcases hbest with rfl | ⟨-, -, -, hcount⟩
    · exact absurd rfl hprint
    · exact hcount

/-- Witness of C10 on the word `('LL)H`. -/
theorem SerialOT_foot_growth_witness :
    wellFormedShort exampleWord = true ∧ exampleWord.length ≤ 31 ∧
      ∃ best, SerialOT exampleWord constraints = some best ∧
        parsedCount exampleWord ≤ parsedCount best :=
  ⟨by decide, by decide, by
    obtain ⟨best, h1, h2, _⟩ := SerialOT_foot_growth exampleWord (by decide) (by decide)
    exact ⟨best, h1, h2⟩⟩

/-- C11: for words with weights `L` or `H`, two words have the same printable form exactly
when they are the same sequence of syllables; so the halting test of the driver,
`printInfo ret == printInfo v` on the winner `ret` of a round on `v`, holds exactly when
the winner is the current word itself. -/
theorem printInfo_halting_test (a b : Word) (ha : weightsLH a) (hb : weightsLH b) :
    (printInfo a = printInfo b ↔ a = b) ∧
    ∀ ret, SerialOT a constraints = some ret → (printInfo ret = printInfo a ↔ ret = a) := by
  refine ⟨printInfo_eq_iff a b ha hb, ?_⟩
  intro ret hret
  exact printInfo_eq_iff ret a
    (candidate_weights a ret (SerialOT_mem a constraints ret hret).1 ha) ha

/-- Witness of C11 on the words `('LL)H` and `HLH`. -/
theorem printInfo_halting_test_witness :
    weightsLH exampleWord ∧ weightsLH exampleFree ∧
      (printInfo exampleWord = printInfo exampleFree ↔ exampleWord = exampleFree) :=
  ⟨by unfold weightsLH; decide, by unfold weightsLH; decide,
    (printInfo_halting_test exampleWord exampleFree (by unfold weightsLH; decide)
      (by unfold weightsLH; decide)).1⟩

/-- C13 (as stated the claim fails): on the input `LH'L` the code returns Light, Heavy,
Light with the stress on the third syllable, the one that follows the apostrophe, and not
on the Heavy syllable; and on `L'`, which meets the conditions of the claim, the write
`word[index].hasStress` falls outside the vector. -/
theorem parseString_stress_follows_apostrophe :
    parseString "LH'L" =
        some [⟨'L', false, false, false⟩, ⟨'H', false, false, false⟩, ⟨'L', false, false, true⟩] ∧
      parseString "LH'L" ≠
        some [⟨'L', false, false, false⟩, ⟨'H', false, false, true⟩, ⟨'L', false, false, false⟩] ∧
      parseString "L'" = none := by
  decide

/-- C13 (amended): for every input string that does not end with an apostrophe,
`parseString` yields one syllable per weight character (a character other than the
apostrophe), in order and with that weight and no boundary flag, and a syllable is stressed
exactly when its weight character is immediately preceded by an apostrophe. -/
theorem parseString_amended (s : String) (hlast : s.data.getLast? ≠ some '\'') :
    ∃ w, parseString s = some w ∧ w.length = weightCount s.data ∧
      ∀ pre c post, s.data = pre ++ c :: post → c ≠ '\'' →
        w[weightCount pre]? = some ⟨c, false, false, decide (pre.getLast? = some '\'')⟩ := by
  refine ⟨parseSpec s.data false, parseString_spec s hlast, parseSpec_length _ _, ?_⟩
  intro pre c post hs hc
  rw [hs, parseSpec_get pre c post hc false]
  cases pre with
  | nil => simp
  | cons d rest => simp

/-- Witness of the amended C13 on the input `LH'L`. -/
theorem parseString_amended_witness :
    ("LH'L" : String).data.getLast? ≠ some '\'' ∧
      ∃ w, parseString "LH'L" = some w ∧ w.length = weightCount ("LH'L" : String).data :=
  ⟨by decide, by
    obtain ⟨w, h1, h2, _⟩ := parseString_amended "LH'L" (by decide)
    exact ⟨w, h1, h2⟩⟩

/-- C14: for a string `s` made only of the characters `L` and `H`, `parseString s`
succeeds, printing the result gives `s` back, and the result has `length s` syllables, none
stressed and none carrying a boundary flag. -/
theorem parse_print_roundtrip (s : String) (h : ∀ c ∈ s.data, c = 'L' ∨ c = 'H') :
    ∃ w, parseString s = some w ∧ printInfo w = s ∧ w.length = s.length ∧
      ∀ syl ∈ w, syl.hasStress = false ∧ syl.hasLeftParenthesis = false ∧
        syl.hasRightParenthesis = false := by
  have hlast : s.data.getLast? ≠ some '\'' := by
    intro hl
    rcases h '\'' (List.mem_of_getLast?_eq_some hl) with h1 | h1 <;> exact absurd h1 (by decide)
  refine ⟨parseSpec s.data false, parseString_spec s hlast, ?_, ?_, ?_⟩
  · rw [parseSpec_plain s.data h]
    simp [printInfo, printChars_plain]
  · rw [parseSpec_plain s.data h, List.length_map]
    rfl
  · intro syl hsyl
    rw [parseSpec_plain s.data h] at hsyl
    obtain ⟨c, -, rfl⟩ := List.mem_map.1 hsyl
    exact ⟨rfl, rfl, rfl⟩

/-- Witness of C14 on the input `HLH`. -/
theorem parse_print_roundtrip_witness :
    (∀ c ∈ ("HLH" : String).data, c = 'L' ∨ c = 'H') ∧
      ∃ w, parseString "HLH" = some w ∧ printInfo w = "HLH" :=
  ⟨by decide, by
    obtain ⟨w, h1, h2, _⟩ := parse_print_roundtrip "HLH" (by decide)
    exact ⟨w, h1, h2⟩⟩

/-- C15: from the word parsed from `HLH` the driver converges in two rounds: the first
round gives `('HL)H`, the second `('HL)('H)`, and a further round on that word selects the
word itself, so the halting test succeeds; the loop halts after two replacements. -/
theorem driver_HLH_two_rounds :
    parseString "HLH" = some exampleFree ∧
      SerialOT exampleFree constraints = some exampleRound1 ∧
      SerialOT exampleRound1 constraints = some exampleRound2 ∧
      SerialOT exampleRound2 constraints = some exampleRound2 ∧
      printInfo exampleRound1 ≠ printInfo exampleFree ∧
      printInfo exampleRound2 ≠ printInfo exampleRound1 ∧
      driverLoop 3 exampleFree 0 = DriverResult.halted exampleRound2 2 := by
  decide

/-- C17: well-formedness is an invariant of the driver.  If the feet of `w` are matched,
non-overlapping and of length 1 or 2, then so are the feet of every candidate of a round
on `w`, and every candidate other than `w` has a new foot `[l, r]` that contains a stressed
syllable; the winner of the round and every word the driver reaches from `w` are again of
that kind; and a parsed word is foot-free, hence of that kind. -/
theorem wellFormedShort_invariant (w : Word) (h : wellFormedShort w = true) :
    (∃ cs, candidateWords w = some cs ∧
      ∀ cand ∈ cs, wellFormedShort cand = true ∧
        (cand = w ∨ ∃ l r, IsFoot cand l r ∧ ¬ IsFoot w l r ∧
          ∃ i, l ≤ i ∧ i ≤ r ∧ stressedAt cand i = true)) ∧
    (∃ best, SerialOT w constraints = some best ∧ wellFormedShort best = true) ∧
    (∀ v, DriverReaches w v → wellFormedShort v = true) ∧
    (∀ (s : String) (w0 : Word), parseString s = some w0 →
      footFree w0 = true ∧ wellFormedShort w0 = true) := by
  refine ⟨⟨newFootWords w ++ [w], candidateWords_eq w, ?_⟩, ?_, ?_, ?_⟩
  · intro cand hc
    refine ⟨candidate_short w cand h hc, ?_⟩
    rcases List.mem_append.1 hc with hnew | hw
    · obtain ⟨l, r, mask, a1, a2, a3, a4, a5, a6, a7, hmask, rfl⟩ :=
        (mem_newFootWords_footWord w cand).1 hnew
      obtain ⟨p, hp, hbit⟩ := pattern_of_mask l r a1 a2 mask hmask
      refine Or.inr ⟨l, r, footWord_isFoot w l r mask a1 a2 a3 a5 a6, ?_, l + p, by omega,
        by omega, ?_⟩
      · intro hf
        have := hf.2.2.1
        rw [a4] at this
        cases this
      · rw [footWord_stressedAt w l r mask (l + p) a1 a2 a3, if_pos ⟨by omega, by omega⟩]
        simpa using hbit
    · exact Or.inl (List.mem_singleton.1 hw)
  · obtain ⟨best, sc, hS, hmem, -, -⟩ := SerialOT_spec w h
    exact ⟨best, hS, candidate_short w best h hmem⟩
  · intro v hv
    exact driverReaches_short w v h hv
  · intro s w0 hs
    have hfree := parseString_footFree s w0 hs
    exact ⟨hfree, footFree_short w0 hfree⟩

/-- Witness of C17 on the word `('LL)H`. -/
theorem wellFormedShort_invariant_witness :
    wellFormedShort exampleWord = true ∧
      ∃ best, SerialOT exampleWord constraints = some best ∧ wellFormedShort best = true :=
  ⟨by decide, (wellFormedShort_invariant exampleWord (by decide)).2.1⟩

/-- C16 (as stated the claim fails): the brackets of the word `('LLL)` are matched and do
not overlap; the round scores its candidate `('L('L)L)`, and on that word `findLocation`
leaves the pair `(0, -1)`. -/
theorem findLocation_open_pair_on_candidate :
    wellFormed exampleLongFoot = true ∧
      (candidates exampleLongFoot constraints).map (fun l => l.map Prod.fst) =
        some [footWord exampleLongFoot 1 1 1, exampleLongFoot] ∧
      printInfo (footWord exampleLongFoot 1 1 1) = "('L('L)L)" ∧
      findLocation (footWord exampleLongFoot 1 1 1) = some [(0, -1), (1, 2)] := by
  decide

/-- C16 (amended): on a word with matched, non-overlapping foot brackets nothing fails.
`findLocation` never takes `back()` of an empty vector and returns only closed pairs
`(l, r)` with `0 ≤ l ≤ r` inside the word; `Trochee`, `Iamb`, `ParseLeft` and `ParseRight`
return sequences of the length of the word (no access of theirs or of `assignViolation`
leaves the word); the generator returns a non-empty candidate list; every candidate is
scored without fault; and `candidates[0]` exists, so `SerialOT` returns a winner.  When
moreover the feet have length 1 or 2, as in every word the generator builds,
`findLocation` returns only closed pairs on every candidate as well. -/
theorem total_on_wellFormed (w : Word) (h : wellFormed w = true) :
    (∃ fs, findLocation w = some fs ∧
      ∀ p ∈ fs, 0 ≤ p.1 ∧ p.1 ≤ p.2 ∧ p.2 < w.length) ∧
    (∃ t p i r, Trochee w = some t ∧ ParseLeft w = some p ∧ Iamb w = some i ∧
      ParseRight w = some r ∧ t.length = w.length ∧ p.length = w.length ∧
      i.length = w.length ∧ r.length = w.length) ∧
    (∃ cs, candidateWords w = some cs ∧ cs ≠ [] ∧
      ∀ cand ∈ cs, ∃ sc, candidateScore constraints cand = some sc) ∧
    (∃ l best, candidates w constraints = some l ∧ l ≠ [] ∧
      SerialOT w constraints = some best) ∧
    (wellFormedShort w = true → ∀ cand ∈ newFootWords w ++ [w],
      ∃ fs, findLocation cand = some fs ∧
        ∀ p ∈ fs, 0 ≤ p.1 ∧ p.1 ≤ p.2 ∧ p.2 < cand.length) := by
  have hclosed : ∀ u : Word, wellFormed u = true →
      ∃ fs, findLocation u = some fs ∧ ∀ p ∈ fs, 0 ≤ p.1 ∧ p.1 ≤ p.2 ∧ p.2 < u.length := by
    intro u hu
    obtain ⟨fs, hfs, hmem⟩ := findLocation_spec u hu
    refine ⟨fs, hfs, ?_⟩
    rintro ⟨a, b⟩ hp
    obtain ⟨l, r, hf, rfl, rfl⟩ := (hmem a b).1 hp
    have h1 := hf.1
    have h2 := hf.2.1
    exact ⟨by simp, by simp only; omega, by simp only; omega⟩
  have hff : faultFree false w = true := faultFree_of_matched w h
  refine ⟨hclosed w h, ?_, ?_, ?_, ?_⟩
  · obtain ⟨t, p, i, r, h1, h2, h3, h4, h5, h6, h7, h8, -⟩ := constraints_total w hff
    exact ⟨t, p, i, r, h1, h2, h3, h4, h5, h6, h7, h8⟩
  · refine ⟨newFootWords w ++ [w], candidateWords_eq w, by simp, ?_⟩
    intro cand hc
    obtain ⟨t, p, i, r, -, -, -, -, -, -, -, -, hsc⟩ :=
      constraints_total cand (candidate_faultFree w cand hff hc)
    exact ⟨_, hsc⟩
  · obtain ⟨l, best, h1, h2, -, h3⟩ := SerialOT_total w hff
    exact ⟨l, best, h1, h2, h3⟩
  · intro hs cand hc
    exact hclosed cand (wellFormed_of_short cand (candidate_short w cand hs hc))

/-- Witness of the amended C16 on the word `('LL)H`. -/
theorem total_on_wellFormed_witness :
    wellFormed exampleWord = true ∧ wellFormedShort exampleWord = true ∧
      (∃ l best, candidates exampleWord constraints = some l ∧ l ≠ [] ∧
        SerialOT exampleWord constraints = some best) ∧
      ∀ cand ∈ newFootWords exampleWord ++ [exampleWord],
        ∃ fs, findLocation cand = some fs ∧
          ∀ p ∈ fs, 0 ≤ p.1 ∧ p.1 ≤ p.2 ∧ p.2 < cand.length :=
  ⟨by decide, by decide, (total_on_wellFormed exampleWord (by decide)).2.2.2.1,
    (total_on_wellFormed exampleWord (by decide)).2.2.2.2 (by decide)⟩

/-- C19: on a word with matched feet of length 1 or 2 and at most 31 syllables, the
candidates of a round, each with its score vector over Trochee, ParseLeft, Iamb,
ParseRight, have pairwise distinct score vectors; the winner is the one candidate whose
score vector is strictly below all others, and every sorted arrangement of the candidate
vector starts with it. -/
theorem candidate_scores_distinct (w : Word) (h : wellFormedShort w = true)
    (h31 : w.length ≤ 31) :
    ∃ l best sc, candidates w constraints = some l ∧
      l.map Prod.fst = newFootWords w ++ [w] ∧
      (∀ d ∈ l, candidateScore constraints d.1 = some d.2) ∧
      (l.map Prod.snd).Nodup ∧
      SerialOT w constraints = some best ∧ (best, sc) ∈ l ∧
      (∀ d ∈ l, d ≠ (best, sc) → lexLess sc d.2 = true) ∧
      (∀ out, out.Perm l → SortedByScore out → out.head? = some (best, sc)) := by
  obtain ⟨l, best, sc, hl, hnodup, hS, hmem, hstrict, hout⟩ := SerialOT_unique_min w h h31
  obtain ⟨hfst, hsc⟩ := candidates_structure w constraints l hl
  exact ⟨l, best, sc, hl, hfst, hsc, hnodup, hS, hmem, hstrict, hout⟩

/-- Witness of C19 on the word `('LL)H`. -/
theorem candidate_scores_distinct_witness :
    wellFormedShort exampleWord = true ∧ exampleWord.length ≤ 31 ∧
      ∃ l, candidates exampleWord constraints = some l ∧ (l.map Prod.snd).Nodup :=
  ⟨by decide, by decide, by
    obtain ⟨l, _, _, h1, _, _, h2, _⟩ := candidate_scores_distinct exampleWord (by decide)
      (by decide)
    exact ⟨l, h1, h2⟩⟩

/-- C20: on a word with matched feet of length 1 or 2 and at most 31 syllables, the round
run with the ranking Trochee, ParseLeft alone returns the same word as the round run with
the full ranking Trochee, ParseLeft, Iamb, ParseRight; under the truncated ranking that
winner is the unique minimal candidate: its score vector is strictly below that of every
other candidate. -/
theorem truncated_ranking_same_winner (w : Word) (h : wellFormedShort w = true)
    (h31 : w.length ≤ 31) :
    ∃ best, SerialOT w constraints = some best ∧
      SerialOT w [Trochee, ParseLeft] = some best ∧
      ∀ cand ∈ newFootWords w ++ [w], cand ≠ best →
        ∃ sb sc, candidateScore [Trochee, ParseLeft] best = some sb ∧
          candidateScore [Trochee, ParseLeft] cand = some sc ∧ lexLess sb sc = true := by
  obtain ⟨best, sc0, hS, hbm, -, -⟩ := SerialOT_spec w h
  refine ⟨best, hS, ?_, fun cand hc hne => truncated_strict w h h31 best hS cand hc hne⟩
  have hsome : ∀ cand ∈ newFootWords w ++ [w],
      ∃ s, candidateScore [Trochee, ParseLeft] cand = some s := by
    intro cand hc
    obtain ⟨t, p, i, r, -, -, -, ht, -⟩ :=
      truncated_score cand (wellFormed_of_short cand (candidate_short w cand h hc))
    exact ⟨_, ht⟩
  have hcands : candidates w [Trochee, ParseLeft] = some ((newFootWords w ++ [w]).map
      fun cand => (cand, (candidateScore [Trochee, ParseLeft] cand).getD [])) := by
    unfold candidates
    rw [candidateWords_eq]
    apply optMap_eq
    intro cand hc
    obtain ⟨s, hs⟩ := hsome cand hc
    simp [hs]
  obtain ⟨b2, rest, hsort, hmem, hmin⟩ := sortCandidates_head
    ((newFootWords w ++ [w]).map
      fun cand => (cand, (candidateScore [Trochee, ParseLeft] cand).getD []))
    (by simp)
  obtain ⟨c2, hc2, rfl⟩ := List.mem_map.1 hmem
  have heq : c2 = best := by
    by_contra hne
    obtain ⟨sb, sc, hsb, hsc, hlt⟩ := truncated_strict w h h31 best hS c2 hc2 hne
    have := hmin (best, (candidateScore [Trochee, ParseLeft] best).getD [])
      (List.mem_map.2 ⟨best, hbm, rfl⟩)
    simp only [hsb, hsc, Option.getD_some] at this
    rw [this] at hlt
    cases hlt
  simp only [SerialOT, hcands, hsort, heq]

/-- Witness of C20 on the word `('LL)H`. -/
theorem truncated_ranking_same_winner_witness :
    wellFormedShort exampleWord = true ∧ exampleWord.length ≤ 31 ∧
      ∃ best, SerialOT exampleWord constraints = some best ∧
        SerialOT exampleWord [Trochee, ParseLeft] = some best :=
  ⟨by decide, by decide, by
    obtain ⟨best, h1, h2, _⟩ := truncated_ranking_same_winner exampleWord (by decide)
      (by decide)
    exact ⟨best, h1, h2⟩⟩

/-- C18: closed form of the result of the driver.  On a foot-free word `w` of `n ≤ 31`
syllables with weights `L` or `H` the driver halts, after `feetCount w` replacements, on the
word `stage (feetCount w) w`; the feet of that word are exactly the spans `(2j, 2j+1)` for
`j < n / 2`, and the span of the last syllable alone when `n` is odd and that syllable is
Heavy; in each two-syllable foot the left syllable is stressed and the right one is not; a
final Heavy syllable of an odd word is stressed; a final Light syllable of an odd word lies
in no foot and is the input syllable unchanged.  Round `k` of the driver (counted from 0) is
run on `stage k w`, returns `stage (k + 1) w`, whose printed form differs, and adds exactly
the foot on `(2k, min (2k+1) (n-1))` with the stress on its left syllable. -/
theorem driver_closed_form (w : Word) (hfree : footFree w = true) (h31 : w.length ≤ 31)
    (hLH : weightsLH w) :
    (∀ fuel, feetCount w + 1 ≤ fuel →
      driverLoop fuel w 0 = DriverResult.halted (stage (feetCount w) w) (feetCount w)) ∧
    (stage (feetCount w) w).length = w.length ∧
    (∀ l r, IsFoot (stage (feetCount w) w) l r ↔
      ((∃ j, j < w.length / 2 ∧ l = 2 * j ∧ r = 2 * j + 1) ∨
        (w.length % 2 = 1 ∧ lightAt w (w.length - 1) = false ∧
          l = w.length - 1 ∧ r = w.length - 1))) ∧
    (∀ j, j < w.length / 2 →
      stressedAt (stage (feetCount w) w) (2 * j) = true ∧
        stressedAt (stage (feetCount w) w) (2 * j + 1) = false) ∧
    (w.length % 2 = 1 → lightAt w (w.length - 1) = false →
      stressedAt (stage (feetCount w) w) (w.length - 1) = true) ∧
    (w.length % 2 = 1 → lightAt w (w.length - 1) = true →
      ¬ InFoot (stage (feetCount w) w) (w.length - 1) ∧
        (stage (feetCount w) w)[w.length - 1]? = w[w.length - 1]?) ∧
    (∀ k, k < feetCount w →
      (∀ fuel, driverLoop (k + fuel) w 0 = driverLoop fuel (stage k w) k) ∧
      SerialOT (stage k w) constraints = some (stage (k + 1) w) ∧
      printInfo (stage (k + 1) w) ≠ printInfo (stage k w) ∧
      AddsFoot (stage k w) (stage (k + 1) w) (2 * k) (min (2 * k + 1) (w.length - 1))
        (fun p => decide (p = 0)) ∧
      ∀ l r, IsFoot (stage (k + 1) w) l r ↔
        (IsFoot (stage k w) l r ∨ (l = 2 * k ∧ r = min (2 * k + 1) (w.length - 1)))) := by
  obtain ⟨-, hlen, -, -, -, hS, hG, -⟩ :=
    stage_spec w hfree h31 hLH (feetCount w) (le_refl _)
  have hfoot := stage_isFoot w hfree h31 hLH (feetCount w) (le_refl _)
  have hcases := feetCount_cases w
  refine ⟨?_, hlen, ?_, ?_, ?_, ?_, ?_⟩
  · intro fuel hfuel
    exact driver_from_stage w hfree h31 hLH (feetCount w) 0 fuel (by omega) hfuel
  · intro l r
    rw [hfoot]
    constructor
    · rintro ⟨h1, h2, h3 | h3⟩
      · exact Or.inl ⟨l / 2, by omega, by omega, by omega⟩
      · right
        rcases hcases with ⟨c1, c2, c3⟩ | ⟨c1, c3⟩
        · exact ⟨c1, c2, by omega, by omega⟩
        · omega
    · rintro (⟨j, h1, rfl, rfl⟩ | ⟨h1, h2, rfl, rfl⟩)
      · refine ⟨by omega, ?_, Or.inl ⟨rfl, by omega⟩⟩
        rcases hcases with ⟨c1, c2, c3⟩ | ⟨c1, c3⟩ <;> omega
      · rcases hcases with ⟨c1, c2, c3⟩ | ⟨c1, c3⟩
        · exact ⟨by omega, by omega, Or.inr ⟨rfl, by omega⟩⟩
        · exact absurd ⟨h1, h2⟩ c1
  · intro j hj
    have b1 : 2 * j < 2 * feetCount w := by
      rcases hcases with ⟨c1, c2, c3⟩ | ⟨c1, c3⟩ <;> omega
    have b2 : 2 * j + 1 < 2 * feetCount w := by omega
    have b3 : ¬ (2 * j + 1) % 2 = 0 := by omega
    rw [hS, hS, if_pos b1, if_pos b2]
    simp [b3]
  · intro hodd hH
    have b1 : w.length - 1 < 2 * feetCount w := by
      rcases hcases with ⟨c1, c2, c3⟩ | ⟨c1, c3⟩
      · omega
      · exact absurd ⟨hodd, hH⟩ c1
    have b2 : (w.length - 1) % 2 = 0 := by omega
    rw [hS, if_pos b1]
    simp [b2]
  · intro hodd hLight
    have hK : feetCount w = w.length / 2 := by
      rcases hcases with ⟨c1, c2, c3⟩ | ⟨c1, c3⟩
      · rw [hLight] at c2
        cases c2
      · exact c3
    constructor
    · rintro ⟨l, -, r, -, hf, hl, hr⟩
      rw [hfoot] at hf
      omega
    · exact hG _ (by omega)
  · intro k hk
    obtain ⟨hSer, hne⟩ := stage_round w hfree h31 hLH k hk
    have hlt := (lt_feetCount w k).1 hk
    refine ⟨driver_to_stage w hfree h31 hLH k (by omega), hSer, hne, ?_, ?_⟩
    · by_cases h2 : 2 * k + 1 < w.length
      · have hst : stage (k + 1) w = footWord (stage k w) (2 * k) (2 * k + 1) 1 := by
          simp [stage, h2]
        have e : min (2 * k + 1) (w.length - 1) = 2 * k + 1 := by omega
        have hfun : (fun p => decide (p = 0)) = fun p => Nat.testBit 1 p := by
          funext p
          rcases p with _ | p
          · rfl
          · simp [Nat.testBit_succ]
        rw [hst, e, hfun]
        exact footWord_addsFoot _ _ _ 1 (by omega) (le_refl _)
      · have hst : stage (k + 1) w = footWord (stage k w) (2 * k) (2 * k) 1 := by
          simp [stage, h2]
        have e : min (2 * k + 1) (w.length - 1) = 2 * k := by omega
        have hfun : (fun p => decide (p = 0)) = fun p => Nat.testBit 1 p := by
          funext p
          rcases p with _ | p
          · rfl
          · simp [Nat.testBit_succ]
        rw [hst, e, hfun]
        exact footWord_addsFoot _ _ _ 1 (le_refl _) (by omega)
    · intro l r
      rw [stage_isFoot w hfree h31 hLH (k + 1) (by omega),
        stage_isFoot w hfree h31 hLH k (by omega)]
      omega

/-- Witness of C18 on the foot-free word `HLH`: the driver halts on `('HL)('H)` after two
replacements. -/
theorem driver_closed_form_witness :
    footFree exampleFree = true ∧ exampleFree.length ≤ 31 ∧ weightsLH exampleFree ∧
      stage (feetCount exampleFree) exampleFree = exampleRound2 ∧
      feetCount exampleFree = 2 ∧
      ∀ fuel, feetCount exampleFree + 1 ≤ fuel →
        driverLoop fuel exampleFree 0 =
          DriverResult.halted (stage (feetCount exampleFree) exampleFree)
            (feetCount exampleFree) :=
  ⟨by decide, by decide, by unfold weightsLH; decide, by decide, by decide,
    (driver_closed_form exampleFree (by decide) (by decide)
      (by unfold weightsLH; decide)).1⟩

end Wergaia
